import Mathlib

/-!
A shallow embedding of the d2ir package (d2ir/d2ir.go): the intermediate
representation tree of the D2 diagram language, together with its path
resolver (`EnsureField`), edge resolver (`EdgeID.resolve`, `GetEdges`),
edge creator (`CreateEdge`), board classification (`NodeBoardKind`),
structural copy and equality, and `CopyBase`/`DeleteField`.

Go's mutable heap of parent-linked nodes is embedded as a pure rooted
tree value (`IRMap`) together with explicit locations (`Loc`, lists of
child steps from the root).  Pointer identity of a node corresponds to
its location; pointer-mutation confined to a subtree corresponds to
functional update at a location.  Go `panic`s (nil dereferences, index
out of range) are modelled by explicit `crash`/`none` outcomes.
-/

namespace D2Ir

/-- Models Go `strings.ToLower` (ASCII-adequate, per-character lowering;
defined over the character list so that it reduces in the kernel). -/
def lowerStr (s : String) : String := String.mk (s.data.map Char.toLower)

/-- Models Go `strings.EqualFold` (case-insensitive string equality;
ASCII-adequate approximation via lowercasing both sides). -/
def eqFold (a b : String) : Bool := lowerStr a == lowerStr b

/-- Modelled from the spec: the reserved-keyword name tables live in the
`d2graph` package, outside this repository's source; only membership
matters structurally.  Simple reserved keywords must be the last path
segment and are prohibited in edge endpoints. -/
def SimpleReservedKeywords : List String := ["shape", "label", "fill", "stroke", "icon"]

/-- Modelled from the spec: reserved-keyword holder Fields act as a
namespace for sub-properties (e.g. `style`) and are auto-deleted when
emptied. -/
def ReservedKeywordHolders : List String := ["style"]

/-- Modelled from the spec: the board container keywords. -/
def BoardKeywords : List String := ["layers", "scenarios", "steps"]

/-- Modelled from the spec: composite-capable reserved keywords, the
allow-list of reserved keywords that may have descendant path segments. -/
def CompositeReservedKeywords : List String :=
  BoardKeywords ++ ["classes", "vars", "style"]

/-- Modelled from the spec: the full reserved keyword table. -/
def ReservedKeywords : List String :=
  SimpleReservedKeywords ++ ReservedKeywordHolders ++ CompositeReservedKeywords

/-- A d2ast scalar value as the IR observes it: `isStr` models whether the
value implements `d2ast.String` (several AST node types do, with distinct
`Type()` tags), `typ` models `Value.Type()` and `str` models
`Value.ScalarString()`. -/
structure ScalarV where
  isStr : Bool
  typ : String
  str : String
deriving DecidableEq, Repr

/-- d2ir.EdgeID.  The Go `Index *int` is `Option Int`; `glob` is the
intermediate-matching flag. -/
structure EdgeID where
  srcPath : List String
  srcArrow : Bool
  dstPath : List String
  dstArrow : Bool
  index : Option Int
  glob : Bool
deriving DecidableEq, Repr

/-- Reference contexts (`d2ir.RefContext`) are shared immutable records;
only their pointer identity matters to the algorithms in scope
(`DeleteField`'s edge cascade compares contexts by pointer).  They are
embedded as numeric identities carried by each reference. -/
abbrev CtxId := Nat

mutual
/-- d2ir.Map: ordered fields and ordered edges. -/
inductive IRMap where
  | mk (fields : List IRField) (edges : List IREdge)

/-- d2ir.Field: name, optional primary scalar, optional composite, and
its reference list (embedded as the context identities). -/
inductive IRField where
  | mk (name : String) (primary : Option ScalarV) (composite : Option IRComposite)
      (refs : List CtxId)

/-- d2ir.Edge: EdgeID, optional primary scalar, optional nested map, and
its reference list. -/
inductive IREdge where
  | mk (id : EdgeID) (primary : Option ScalarV) (emap : Option IRMap) (refs : List CtxId)

/-- d2ir.Composite: a nested Map or Array. -/
inductive IRComposite where
  | cmap (m : IRMap)
  | carr (a : IRArray)

/-- d2ir.Array. -/
inductive IRArray where
  | mk (values : List IRValue)

/-- d2ir.Value: Scalar, Array or Map. -/
inductive IRValue where
  | vscalar (s : ScalarV)
  | varr (a : IRArray)
  | vmap (m : IRMap)
end

def IRMap.fields : IRMap → List IRField
  | .mk fs _ => fs

def IRMap.edges : IRMap → List IREdge
  | .mk _ es => es

def IRField.name : IRField → String
  | .mk n _ _ _ => n

def IRField.primary : IRField → Option ScalarV
  | .mk _ p _ _ => p

def IRField.composite : IRField → Option IRComposite
  | .mk _ _ c _ => c

def IRField.refs : IRField → List CtxId
  | .mk _ _ _ r => r

def IREdge.id : IREdge → EdgeID
  | .mk i _ _ _ => i

def IREdge.primary : IREdge → Option ScalarV
  | .mk _ p _ _ => p

def IREdge.emap : IREdge → Option IRMap
  | .mk _ _ m _ => m

def IREdge.refs : IREdge → List CtxId
  | .mk _ _ _ r => r

/-- The empty map value (`&Map{}`). -/
def emptyMap : IRMap := .mk [] []

/-- One step down the tree: into the composite map of the i-th field, or
into the nested map of the i-th edge. -/
inductive Step where
  | fld (i : Nat)
  | edg (i : Nat)
deriving DecidableEq, Repr

/-- The location of a map in the tree: the list of steps from the root
map.  Pointer identity of a Go `*Map` corresponds to its location. -/
abbrev Loc := List Step

/-- The location of a field: its containing map's location plus its index
in that map's field list. -/
abbrev FieldLoc := Loc × Nat

/-- The child map reached by one step, if it exists. -/
def childMap (m : IRMap) : Step → Option IRMap
  | .fld i =>
    match m.fields.get? i with
    | some f =>
      match f.composite with
      | some (.cmap mm) => some mm
      | _ => none
    | none => none
  | .edg i =>
    match m.edges.get? i with
    | some e => e.emap
    | none => none

def getMapAt : IRMap → Loc → Option IRMap
  | m, [] => some m
  | m, s :: l =>
    match childMap m s with
    | some mm => getMapAt mm l
    | none => none

/-- Total accessor: the map at a location, defaulting to the empty map on
an invalid location (all uses are at valid locations). -/
def mapAt (st : IRMap) (l : Loc) : IRMap := (getMapAt st l).getD emptyMap

def validMapLoc (st : IRMap) (l : Loc) : Bool := (getMapAt st l).isSome

def getFieldAt (st : IRMap) (fl : FieldLoc) : Option IRField :=
  (mapAt st fl.1).fields.get? fl.2

def validFieldLoc (st : IRMap) (fl : FieldLoc) : Bool :=
  validMapLoc st fl.1 && (getFieldAt st fl).isSome

def fieldNameAt (st : IRMap) (l : Loc) (i : Nat) : String :=
  match getFieldAt st (l, i) with
  | some f => f.name
  | none => ""

/-- Replace the element at an index of a list (identity when out of range). -/
def listModify {α : Type} (g : α → α) : Nat → List α → List α
  | _, [] => []
  | 0, a :: l => g a :: l
  | n+1, a :: l => a :: listModify g n l

/-- Replace the child map one step down (identity when the step is invalid). -/
def setChildMap (m : IRMap) (s : Step) (mm : IRMap) : IRMap :=
  match s with
  | .fld i =>
    .mk (listModify (fun f => .mk f.name f.primary (some (.cmap mm)) f.refs) i m.fields)
      m.edges
  | .edg i =>
    .mk m.fields
      (listModify (fun e => .mk e.id e.primary (some mm) e.refs) i m.edges)

/-- Apply a function to the map at a location (identity when invalid). -/
def modifyMapAt : IRMap → Loc → (IRMap → IRMap) → IRMap
  | m, [], g => g m
  | m, s :: l, g =>
    match childMap m s with
    | some mm => setChildMap m s (modifyMapAt mm l g)
    | none => m

end D2Ir

namespace D2Ir

/-- The names of the owning Fields above the map at a location, nearest
first.  `.edg` steps contribute no field, exactly as `ParentField` skips
Edge nodes when walking parent links.  The synthetic root Field is not
listed (it is reached when this list is exhausted). -/
def ancFldNames : IRMap → Loc → List String
  | _, [] => []
  | m, s :: l =>
    let rest :=
      match childMap m s with
      | some mm => ancFldNames mm l
      | none => []
    match s with
    | .fld i =>
      rest ++ [match m.fields.get? i with | some f => f.name | none => ""]
    | .edg _ => rest

/-- d2ir.BoardKind ("" is `blank`). -/
inductive BoardKind where
  | blank
  | layer
  | scenario
  | step
deriving DecidableEq, Repr

/-- The `switch f.Name` of NodeBoardKind (case-sensitive, as in the source). -/
def boardKindOfName : String → BoardKind
  | "layers" => .layer
  | "scenarios" => .scenario
  | "steps" => .step
  | _ => .blank

/-- A node reference for the nodes `NodeBoardKind`/`ParentBoard` handle:
a map location, a field location, or the synthetic root Field. -/
inductive NodeLoc where
  | nmap (l : Loc)
  | nfld (l : Loc) (i : Nat)
  | nrootfld
deriving DecidableEq, Repr

/-- d2ir.NodeBoardKind for a Map node: `f := ParentField(m)`; if `f` is
the synthetic root Field the kind is layer; otherwise the kind is decided
by the name of `ParentField(f)` (blank when that is the synthetic root
Field, whose name "root" matches no board keyword). -/
def nodeBoardKindMapAt (st : IRMap) (l : Loc) : BoardKind :=
  match ancFldNames st l with
  | [] => .layer
  | [_] => .blank
  | _ :: g :: _ => boardKindOfName g

/-- d2ir.NodeBoardKind (restricted to the Field/Map cases of its type
switch; all other node kinds yield blank). -/
def nodeBoardKindAt (st : IRMap) : NodeLoc → BoardKind
  | .nrootfld => .layer
  | .nfld l _ =>
    match ancFldNames st l with
    | [] => .blank
    | g :: _ => boardKindOfName g
  | .nmap l => nodeBoardKindMapAt st l

/-- Split off the last step of a location. -/
def splitLast : Loc → Option (Loc × Step)
  | [] => none
  | [s] => some ([], s)
  | s :: l =>
    match splitLast l with
    | some (l', t) => some (s :: l', t)
    | none => none

/-- The last `.fld` step of a location: returns the location before that
step and the field index, dropping any trailing `.edg` steps.  This is
the owning Field that `ParentField` reaches from the map at the location
(`none` means `ParentField` reaches the synthetic root Field). -/
def lastFld : Loc → Option (Loc × Nat)
  | [] => none
  | .fld i :: l =>
    match lastFld l with
    | some (l', j) => some (.fld i :: l', j)
    | none => some ([], i)
  | .edg i :: l =>
    match lastFld l with
    | some (l', j) => some (.edg i :: l', j)
    | none => none

/-- The name of `ParentField` of the map at a location ("root" is the
synthetic root Field's name, set by initRoot). -/
def parentFldName (st : IRMap) (l : Loc) : String :=
  match lastFld l with
  | some (pre, j) => fieldNameAt st pre j
  | none => "root"

/-- d2ir.ParentMap as a location step (`none` on the root map). -/
def parentMapLoc : Loc → Option Loc
  | [] => none
  | s :: l => some ((s :: l).dropLast)

/-- The chain of ancestor nodes of the map at a location, in `Parent()`
walk order (deepest first), restricted to Fields and Maps (Edge nodes
never have a board kind, so `ParentBoard` skips them).  The chain ends
with the synthetic root Field, the parent of the root map. -/
def mapAncChainFuel : Nat → Loc → List NodeLoc
  | _, [] => [.nrootfld]
  | 0, _ => []
  | n+1, l =>
    match splitLast l with
    | some (l', .fld i) => .nfld l' i :: .nmap l' :: mapAncChainFuel n l'
    | some (l', .edg _) => .nmap l' :: mapAncChainFuel n l'
    | none => []

def mapAncChain (l : Loc) : List NodeLoc := mapAncChainFuel l.length l

def isBlankKind : BoardKind → Bool
  | .blank => true
  | _ => false

/-- d2ir.ParentBoard: the first ancestor (walking `Parent()` links,
starting at the node's parent) whose NodeBoardKind is not blank. -/
def parentBoardOf (st : IRMap) : NodeLoc → Option NodeLoc
  | .nfld l i =>
    (NodeLoc.nmap l :: mapAncChain l).find? (fun nl => !isBlankKind (nodeBoardKindAt st nl))
  | .nmap l =>
    (mapAncChain l).find? (fun nl => !isBlankKind (nodeBoardKindAt st nl))
  | .nrootfld => none

/-- d2ir.Map.IsContainer: some field's name is not a reserved keyword. -/
def isContainer : Option IRMap → Bool
  | none => false
  | some m => m.fields.any (fun f => !ReservedKeywords.contains f.name)

/-- The composite map of the field at a location, if any (Go `src.Map()`). -/
def fieldMapAt (st : IRMap) (fl : FieldLoc) : Option IRMap :=
  match getFieldAt st fl with
  | some f =>
    match f.composite with
    | some (.cmap mm) => some mm
    | _ => none
  | none => none

/-- d2ir.RelIDA's accumulation loop: collect the field's name, then walk
to `ParentField`; stop (without collecting) when that is the synthetic
root Field or when its composite is the target map `p`.  Fuel decreases
strictly (the owning field's map location is strictly shorter), so
`q.length + 1` fuel always suffices. -/
def relIDAFuel (st : IRMap) (p : Loc) : Nat → Loc → Nat → List String
  | 0, _, _ => []
  | n+1, q, j =>
    fieldNameAt st q j ::
      match lastFld q with
      | none => []
      | some (pre, j') =>
        if pre ++ [Step.fld j'] = p then [] else relIDAFuel st p n pre j'

/-- d2ir.RelIDA (the `p` argument is always a Map in the uses in scope). -/
def relIDA (st : IRMap) (p : Loc) (fl : FieldLoc) : List String :=
  (relIDAFuel st p (fl.1.length + 1) fl.1 fl.2).reverse

/-- Pairwise strings.EqualFold comparison (false on length mismatch); the
source checks lengths separately first, with the same outcome. -/
def eqFoldList : List String → List String → Bool
  | [], [] => true
  | a :: as_, b :: bs => eqFold a b && eqFoldList as_ bs
  | _, _ => false

/-- d2ir.EdgeID.Match: concrete indices must agree when both are present
(a missing index matches anything), then lengths, arrow flags and
case-insensitive pairwise path comparison. -/
def edgeIDMatch (eid eid2 : EdgeID) : Bool :=
  (match eid.index, eid2.index with
   | some i, some j => i == j
   | _, _ => true) &&
  (eid.srcPath.length == eid2.srcPath.length) &&
  (eid.srcArrow == eid2.srcArrow) &&
  eqFoldList eid.srcPath eid2.srcPath &&
  (eid.dstPath.length == eid2.dstPath.length) &&
  (eid.dstArrow == eid2.dstArrow) &&
  eqFoldList eid.dstPath eid2.dstPath

/-- d2ir.countUnderscores, faithfully: the index of the first
non-underscore element, and 0 (not the length) when every element is an
underscore. -/
def countUnderscoresAux : List String → Nat → Nat
  | [], _ => 0
  | el :: rest, i => if el ≠ "_" then i else countUnderscoresAux rest (i+1)

def countUnderscores (p : List String) : Nat := countUnderscoresAux p 0

/-- Errors of `EdgeID.resolve`; `crash` models the Go index-out-of-range
panic when a side's path is exhausted while iterations remain. -/
inductive RErr where
  | invalidUnderscore
  | crash
deriving DecidableEq, Repr

/-- The underscore loop of `EdgeID.resolve`: in each iteration a side
whose head is `_` drops it, a side whose head is not `_` gets
`ParentField(m).Name` prepended, then `m` moves to `ParentMap(m)`;
`invalid underscore` when that is nil. -/
def resolveUnders (st : IRMap) : Nat → List String → List String → Loc →
    Except RErr (List String × List String × Loc)
  | 0, src, dst, l => .ok (src, dst, l)
  | n+1, src, dst, l =>
    match src with
    | [] => .error .crash
    | s0 :: srest =>
      let src' := if s0 = "_" then srest else parentFldName st l :: src
      match dst with
      | [] => .error .crash
      | d0 :: drest =>
        let dst' := if d0 = "_" then drest else parentFldName st l :: dst
        match parentMapLoc l with
        | none => .error .invalidUnderscore
        | some l' => resolveUnders st n src' dst' l'

/-- The common-prefix loop of `EdgeID.resolve`: while both paths have
length over 1 and their heads are case-insensitively equal, move the
shared head into `common`. -/
def trimCommon : List String → List String → List String × List String × List String
  | s0 :: s1 :: srest, d0 :: d1 :: drest =>
    if eqFold s0 d0 then
      let (c, s', d') := trimCommon (s1 :: srest) (d1 :: drest)
      (s0 :: c, s', d')
    else ([], s0 :: s1 :: srest, d0 :: d1 :: drest)
  | src, dst => ([], src, dst)

/-- d2ir.EdgeID.resolve: underscore promotion followed by common-prefix
trimming; returns the rewritten EdgeID, the relocated map and the common
path. -/
def resolveEid (st : IRMap) (eid : EdgeID) (l : Loc) :
    Except RErr (EdgeID × Loc × List String) :=
  let maxU := max (countUnderscores eid.srcPath) (countUnderscores eid.dstPath)
  match resolveUnders st maxU eid.srcPath eid.dstPath l with
  | .error e => .error e
  | .ok (src, dst, l') =>
    let (common, src', dst') := trimCommon src dst
    .ok ({ eid with srcPath := src', dstPath := dst' }, l', common)

end D2Ir

namespace D2Ir

/-- One token of a single-segment glob pattern: a literal run or a `*`. -/
inductive GPart where
  | lit (s : String)
  | star
deriving DecidableEq, Repr

/-- A path segment as the resolver distinguishes them: a plain scalar
string (`us.Pattern == nil`, including `_` and escaped stars), a
single-glob pattern, or a double glob.  Modelled from the spec: the
upstream d2ast path type is an external collaborator. -/
inductive PathSeg where
  | lit (s : String)
  | pat (parts : List GPart)
  | dglob
deriving DecidableEq, Repr

/-- `ScalarString()` of a segment (patterns render their tokens). -/
def segString : PathSeg → String
  | .lit s => s
  | .pat parts => String.join (parts.map (fun p => match p with | .lit s => s | .star => "*"))
  | .dglob => "**"

def segIsPat : PathSeg → Bool
  | .lit _ => false
  | _ => true

def segIsDG : PathSeg → Bool
  | .dglob => true
  | _ => false

/-- Modelled from the spec: d2ast.KeyPath.HasGlob. -/
def hasGlobKP (kp : List PathSeg) : Bool := kp.any segIsPat

/-- Modelled from the spec: d2ast.KeyPath.HasDoubleGlob. -/
def hasDGlobKP (kp : List PathSeg) : Bool := kp.any segIsDG

/-- Modelled from the spec: d2ast.KeyPath.IDA, the segments' scalar strings. -/
def kpIDA (kp : List PathSeg) : List String := kp.map segString

def lowerParts (ps : List GPart) : List GPart :=
  ps.map (fun p => match p with | .lit s => .lit (lowerStr s) | .star => .star)

/-- Try the continuation on every suffix (the `*` token of a glob
pattern matching any run of characters). -/
def starScan (matchRest : List Char → Bool) : List Char → Bool
  | [] => matchRest []
  | c :: cs => matchRest (c :: cs) || starScan matchRest cs

def matchParts : List GPart → List Char → Bool
  | [], cs => cs.isEmpty
  | .lit s :: ps, cs => s.toList.isPrefixOf cs && matchParts ps (cs.drop s.length)
  | .star :: ps, cs => starScan (matchParts ps) cs

/-- Modelled from the spec (§4.2): single-segment glob matching, the
`matchPattern` of the missing pattern source file — the literal fragments
must appear in order, `*` matches any run, comparison is
case-insensitive, and matching never crosses a segment boundary. -/
def matchPattern (name : String) (parts : List GPart) : Bool :=
  matchParts (lowerParts parts) (lowerStr name).toList

/-- A field location relative to a map value: the chain of field indices
descended through composites, the last being the field's index. -/
abbrev RelFL := List Nat

def getCompMap (f : IRField) : Option IRMap :=
  match f.composite with
  | some (.cmap mm) => some mm
  | _ => none

mutual
/-- Modelled from the spec (§4.3): `Map.doubleGlob` collecting every
descendant field of a map (each level and recursively every level
beneath it), in field order, each field before its own descendants. -/
def dgMapRel : IRMap → List RelFL
  | .mk fs _ => dgFieldsRel fs 0

def dgFieldsRel : List IRField → Nat → List RelFL
  | [], _ => []
  | .mk _ _ comp _ :: fs, i =>
    ([i] :: (dgCompRel comp).map (fun rl => i :: rl)) ++ dgFieldsRel fs (i+1)

def dgCompRel : Option IRComposite → List RelFL
  | some (.cmap m) => dgMapRel m
  | _ => []
end

/-- Append a FieldReference (context identity) to the j-th field. -/
def appendRefL (m : IRMap) (j : Nat) (c : CtxId) : IRMap :=
  .mk (listModify (fun f => .mk f.name f.primary f.composite (f.refs ++ [c])) j m.fields)
    m.edges

/-- `if f.Map() == nil { f.Composite = &Map{} }` on the j-th field: attach
an empty composite map unless a composite map is already present (an
Array composite is replaced, as in the glob branches of the source). -/
def vivifyL (m : IRMap) (j : Nat) : IRMap :=
  .mk (listModify
        (fun f =>
          match f.composite with
          | some (.cmap _) => f
          | _ => .mk f.name f.primary (some (.cmap emptyMap)) f.refs)
        j m.fields)
    m.edges

/-- Split a relative field location into its map path and field index. -/
def relSplit : RelFL → List Nat × Nat
  | [] => ([], 0)
  | [j] => ([], j)
  | j :: jj :: rl =>
    let (p, k) := relSplit (jj :: rl)
    (j :: p, k)

def relMapAt : IRMap → List Nat → IRMap
  | m, [] => m
  | m, j :: rl => relMapAt (((m.fields.get? j).bind getCompMap).getD emptyMap) rl

def relFieldGet (m : IRMap) (rl : RelFL) : Option IRField :=
  let (p, j) := relSplit rl
  (relMapAt m p).fields.get? j

/-- The ancestor-names context of the map owned by the field at a
relative location, given the context of the outer map. -/
def relCtx : IRMap → RelFL → List String → List String
  | _, [], ctx => ctx
  | m, j :: rl, ctx =>
    match m.fields.get? j with
    | some f => relCtx (((m.fields.get? j).bind getCompMap).getD emptyMap) rl (f.name :: ctx)
    | none => ctx

/-- NodeBoardKind of a map given its ancestor-names context (see
`nodeBoardKindMapAt`; the resolver's board checks use this on the map in
scope, whose ancestors it never modifies). -/
def nodeBoardKindCtx : List String → BoardKind
  | [] => .layer
  | [_] => .blank
  | _ :: g :: _ => boardKindOfName g

/-- Errors of `Map.EnsureField`/`ensureField`; `crash` models Go index
panics on inputs the parser never produces (an empty key path). -/
inductive EnsErr where
  | crash
  | noParent
  | onlyUnders
  | mustBeLast
  | underscoreMid
  | boardRootOnly
  | indexArray
deriving DecidableEq, Repr

def findIdxFold (head : String) (fs : List IRField) : Option Nat :=
  fs.findIdx? (fun f => eqFold f.name head)

/-- The double-glob recursion loop: for each collected field, vivify its
composite map and resolve the remaining segments inside it. -/
def ensureDGLoop (recur : IRMap → List String → Except EnsErr (IRMap × List RelFL))
    (ctx : List String) : List RelFL → IRMap → Except EnsErr (IRMap × List RelFL)
  | [], m => .ok (m, [])
  | rl :: rls, m =>
    let (p, j) := relSplit rl
    let m1 := modifyMapAt m (p.map Step.fld) (fun mm => vivifyL mm j)
    let sub := ((relFieldGet m1 rl).bind getCompMap).getD emptyMap
    match recur sub (relCtx m1 rl ctx) with
    | .error e => .error e
    | .ok (sub', fa) =>
      let m2 := modifyMapAt m1 (rl.map Step.fld) (fun _ => sub')
      match ensureDGLoop recur ctx rls m2 with
      | .error e => .error e
      | .ok (m3, fa') => .ok (m3, fa.map (fun frl => rl ++ frl) ++ fa')

/-- The single-glob loop: for each field of the map (by index) whose name
matches the pattern, vivify and resolve the remaining segments inside. -/
def ensureGlobLoop (recur : IRMap → List String → Except EnsErr (IRMap × List RelFL))
    (parts : List GPart) (ctx : List String) : List Nat → IRMap →
    Except EnsErr (IRMap × List RelFL)
  | [], m => .ok (m, [])
  | j :: js, m =>
    match m.fields.get? j with
    | none => ensureGlobLoop recur parts ctx js m
    | some f =>
      if matchPattern f.name parts then
        let m1 := vivifyL m j
        let sub := ((m1.fields.get? j).bind getCompMap).getD emptyMap
        match recur sub (f.name :: ctx) with
        | .error e => .error e
        | .ok (sub', fa) =>
          match ensureGlobLoop recur parts ctx js (setChildMap m1 (.fld j) sub') with
          | .error e => .error e
          | .ok (m3, fa') => .ok (m3, fa.map (fun rl => j :: rl) ++ fa')
      else ensureGlobLoop recur parts ctx js m

/-- d2ir.Map.ensureField, embedded value-style: the remaining path
segments, the current map value, its ancestor-names context, the
reference context (none = speculative), and the create flag.  Returns
the updated map value and the matched/created fields' relative
locations, in the order the source appends them. -/
def ensureFieldGo : List PathSeg → IRMap → List String → Option CtxId → Bool →
    Except EnsErr (IRMap × List RelFL)
  | [], m, _, _, _ => .ok (m, [])
  | .dglob :: rest, m, ctx, refctx, create =>
    let fa2 := dgMapRel m
    if rest.isEmpty then .ok (m, fa2)
    else ensureDGLoop (fun sub c => ensureFieldGo rest sub c refctx create) ctx fa2 m
  | .pat parts :: rest, m, ctx, refctx, create =>
    if rest.isEmpty then
      .ok (m, (List.range m.fields.length).filterMap (fun j =>
        match m.fields.get? j with
        | some f => if matchPattern f.name parts then some [j] else none
        | none => none))
    else
      ensureGlobLoop (fun sub c => ensureFieldGo rest sub c refctx create) parts ctx
        (List.range m.fields.length) m
  | .lit head0 :: rest, m, ctx, refctx, create =>
    let headL := lowerStr head0
    let isRes := ReservedKeywords.contains headL
    let head := if isRes then headL else head0
    if isRes && !CompositeReservedKeywords.contains headL && !rest.isEmpty then
      .error .mustBeLast
    else if head = "_" then .error .underscoreMid
    else if head = "classes" && isBlankKind (nodeBoardKindCtx ctx) then
      .error .boardRootOnly
    else if BoardKeywords.contains head && isBlankKind (nodeBoardKindCtx ctx) then
      .error .boardRootOnly
    else
      match findIdxFold head m.fields with
      | some j =>
        match m.fields.get? j with
        | none => .ok (m, [])
        | some f =>
          let m1 := match refctx with
            | some c => appendRefL m j c
            | none => m
          if rest.isEmpty then .ok (m1, [[j]])
          else
            match f.composite with
            | some (.carr _) => .error .indexArray
            | _ =>
              let m2 := vivifyL m1 j
              let sub := ((m2.fields.get? j).bind getCompMap).getD emptyMap
              match ensureFieldGo rest sub (f.name :: ctx) refctx create with
              | .error e => .error e
              | .ok (sub', fa) =>
                .ok (setChildMap m2 (.fld j) sub', fa.map (fun rl => j :: rl))
      | none =>
        if !create then .ok (m, [])
        else
          let newF : IRField := .mk head none none
            (match refctx with | some c => [c] | none => [])
          let j := m.fields.length
          let m1 : IRMap := .mk (m.fields ++ [newF]) m.edges
          if rest.isEmpty then .ok (m1, [[j]])
          else
            match ensureFieldGo rest emptyMap (head :: ctx) refctx create with
            | .error e => .error e
            | .ok (sub', fa) =>
              .ok (setChildMap m1 (.fld j) sub', fa.map (fun rl => j :: rl))

/-- The leading-underscore loop of `Map.EnsureField`: each `_` segment
moves resolution to the parent map (erroring when exhausted, or when
nothing but underscores remains). -/
def stripUnders : List PathSeg → Loc → Except EnsErr (List PathSeg × Loc)
  | [], _ => .error .crash
  | seg :: rest, l =>
    if segString seg = "_" then
      match parentMapLoc l with
      | none => .error .noParent
      | some l' =>
        if rest.isEmpty then .error .onlyUnders
        else stripUnders rest l'
    else .ok (seg :: rest, l)

/-- Convert a relative field location under a base map location to an
absolute one. -/
def relToAbs (l : Loc) : RelFL → FieldLoc
  | [] => (l, 0)
  | [j] => (l, j)
  | j :: jj :: rl => relToAbs (l ++ [.fld j]) (jj :: rl)

/-- d2ir.Map.EnsureField on the global tree: strip leading underscores
(walking to parent maps), then run `ensureField` in the reached map; its
subtree is updated in place and the results are absolute locations. -/
def mapEnsureField (st : IRMap) (kp : List PathSeg) (l : Loc) (refctx : Option CtxId)
    (create : Bool) : Except EnsErr (IRMap × List FieldLoc) :=
  match stripUnders kp l with
  | .error e => .error e
  | .ok (segs, l') =>
    match ensureFieldGo segs (mapAt st l') (ancFldNames st l') refctx create with
    | .error e => .error e
    | .ok (m', fa) => .ok (modifyMapAt st l' (fun _ => m'), fa.map (fun rl => relToAbs l' rl))

/-- The scan loop of d2ir.Map.getField: the first case-insensitive name
match is taken if it is the last segment; if it has a composite map the
recursion's result is returned (even when empty); otherwise scanning
continues. -/
def gfScan (recur : IRMap → Option RelFL) (s : String) (restEmpty : Bool) :
    List IRField → Nat → Option RelFL
  | [], _ => none
  | f :: fs, i =>
    if eqFold f.name s then
      if restEmpty then some [i]
      else
        match f.composite with
        | some (.cmap mm) => (recur mm).map (fun rl => i :: rl)
        | _ => gfScan recur s restEmpty fs (i+1)
    else gfScan recur s restEmpty fs (i+1)

/-- d2ir.Map.getField (value-style). -/
def getFieldGo : List String → IRMap → Option RelFL
  | [], _ => none
  | s :: rest, m =>
    if s = "_" then none
    else gfScan (getFieldGo rest) s rest.isEmpty m.fields 0

/-- d2ir.Map.GetField.  Its leading-underscore loop never consumes the
underscore segment, so it walks to the root's parent and returns nil
whenever the first segment is `_`. -/
def mapGetField (st : IRMap) (l : Loc) (ida : List String) : Option FieldLoc :=
  match ida.head? with
  | some s =>
    if s = "_" then none
    else (getFieldGo ida (mapAt st l)).map (relToAbs l)
  | none => (getFieldGo ida (mapAt st l)).map (relToAbs l)

end D2Ir

namespace D2Ir

/-- d2ir.Map.GetEdges with a nil refctx (the only form the code in scope
uses): resolve, then either follow the common path via `GetField` into
the submap, or filter the map's edges by `Match`.  Each recursion
strictly shortens the source path, so the provided fuel is never
exhausted; on exhaustion the result is empty. -/
def getEdgesFuel (st : IRMap) : Nat → EdgeID → Loc → List IREdge
  | 0, _, _ => []
  | fuel+1, eid, l =>
    match resolveEid st eid l with
    | .error _ => []
    | .ok (eid', l', common) =>
      if common.isEmpty then
        (mapAt st l').edges.filter (fun e => edgeIDMatch e.id eid')
      else
        match mapGetField st l' common with
        | none => []
        | some fl =>
          match fieldMapAt st fl with
          | some _ => getEdgesFuel st fuel eid' (fl.1 ++ [.fld fl.2])
          | none => []

def mapGetEdges (st : IRMap) (eid : EdgeID) (l : Loc) : List IREdge :=
  getEdgesFuel st (eid.srcPath.length + eid.dstPath.length + 1) eid l

/-- d2ir.Map.DeleteEdge restricted to the edge list: remove the first
edge whose ID matches. -/
def delEdgeScan (eid : EdgeID) : List IREdge → List IREdge
  | [] => []
  | e :: es => if edgeIDMatch e.id eid then es else e :: delEdgeScan eid es

/-- One round of DeleteField's edge cascade for a single field reference:
every edge of the snapshot sharing that reference's context has the
first edge matching its ID deleted. -/
def cascadeOne (fr : CtxId) (snap : List IREdge) (cur : List IREdge) : List IREdge :=
  snap.foldl (fun acc e => if e.refs.contains fr then delEdgeScan e.id acc else acc) cur

/-- DeleteField's edge cascade over all of the field's references (the
source re-reads `m.Edges` at each outer iteration). -/
def cascadeRefs (frs : List CtxId) (cur : List IREdge) : List IREdge :=
  frs.foldl (fun acc fr => cascadeOne fr acc acc) cur

def removeFirstExact (kw : String) : List IRField → List IRField
  | [] => []
  | f :: fs => if f.name = kw then fs else f :: removeFirstExact kw fs

/-- DeleteField's keyword-holder cleanup: if the owning Field of the map
just deleted from is a reserved-keyword holder whose map is now empty,
remove that holder from its own parent map (exact-name scan). -/
def holderCleanup (st : IRMap) (l : Loc) : IRMap :=
  ReservedKeywordHolders.foldl
    (fun st2 kw =>
      match lastFld l with
      | none => st2
      | some (pre, j) =>
        if fieldNameAt st2 pre j = kw
            && ((fieldMapAt st2 (pre, j)).getD emptyMap).fields.isEmpty then
          modifyMapAt st2 pre (fun m => .mk (removeFirstExact kw m.fields) m.edges)
        else st2)
    st

/-- The terminal step of DeleteField at field index `i` of the map at
`l`: run the edge cascade, remove the field, then the holder cleanup;
returns the removed field value. -/
def deleteAtIdx (st : IRMap) (l : Loc) (i : Nat) : IRMap × Option IRField :=
  match getFieldAt st (l, i) with
  | none => (st, none)
  | some f =>
    let st1 := modifyMapAt st l (fun m => .mk m.fields (cascadeRefs f.refs m.edges))
    let st2 := modifyMapAt st1 l
      (fun m => .mk (m.fields.take i ++ m.fields.drop (i+1)) m.edges)
    (holderCleanup st2 l, some f)

/-- The scan loop of DeleteField: first case-insensitive match is deleted
(last segment) or recursed into (when it has a composite map; otherwise
scanning continues). -/
def dfScan (recurDel : Loc → IRMap × Option IRField) (st : IRMap) (s : String)
    (restEmpty : Bool) (l : Loc) : List IRField → Nat → IRMap × Option IRField
  | [], _ => (st, none)
  | f :: fs, i =>
    if eqFold f.name s then
      if restEmpty then deleteAtIdx st l i
      else
        match getCompMap f with
        | some _ => recurDel (l ++ [.fld i])
        | none => dfScan recurDel st s restEmpty l fs (i+1)
    else dfScan recurDel st s restEmpty l fs (i+1)

/-- d2ir.Map.DeleteField on the global tree. -/
def mapDeleteField (st : IRMap) : List String → Loc → IRMap × Option IRField
  | [], _ => (st, none)
  | s :: rest, l =>
    dfScan (fun l' => mapDeleteField st rest l') st s rest.isEmpty l (mapAt st l).fields 0

mutual
/-- d2ir.Map.Copy: the deep recursive copy.  Parent-pointer rebinding is
implicit in the pure tree; reference lists are slice-copied (value
equal); an Edge's ID pointer is shared by Go's `Edge.Copy` but is
embedded by value. -/
def copyMap : IRMap → IRMap
  | .mk fs es => .mk (copyFields fs) (copyEdges es)

def copyFields : List IRField → List IRField
  | [] => []
  | f :: fs => copyField f :: copyFields fs

def copyField : IRField → IRField
  | .mk n p c r => .mk n p (copyCompOpt c) r

def copyEdges : List IREdge → List IREdge
  | [] => []
  | e :: es => copyEdge e :: copyEdges es

def copyEdge : IREdge → IREdge
  | .mk i p m r => .mk i p (copyMapOpt m) r

def copyCompOpt : Option IRComposite → Option IRComposite
  | none => none
  | some (.cmap m) => some (.cmap (copyMap m))
  | some (.carr a) => some (.carr (copyArr a))

def copyMapOpt : Option IRMap → Option IRMap
  | none => none
  | some m => some (copyMap m)

def copyArr : IRArray → IRArray
  | .mk vs => .mk (copyVals vs)

def copyVals : List IRValue → List IRValue
  | [] => []
  | v :: vs => copyVal v :: copyVals vs

def copyVal : IRValue → IRValue
  | .vscalar s => .vscalar s
  | .varr a => .varr (copyArr a)
  | .vmap m => .vmap (copyMap m)
end

/-- d2ir.Map.CopyBase at a location: detach the three board holder fields
via DeleteField, deep-copy the map, then re-append the detached fields
(in layers, scenarios, steps order) to the original. -/
def mapCopyBase (st : IRMap) (l : Loc) : IRMap × IRMap :=
  let r1 := mapDeleteField st ["layers"] l
  let r2 := mapDeleteField r1.1 ["scenarios"] l
  let r3 := mapDeleteField r2.1 ["steps"] l
  let m2 := copyMap (mapAt r3.1 l)
  let restore := fun (m : IRMap) =>
    let fs1 := match r1.2 with | some f => m.fields ++ [f] | none => m.fields
    let fs2 := match r2.2 with | some f => fs1 ++ [f] | none => fs1
    let fs3 := match r3.2 with | some f => fs2 ++ [f] | none => fs2
    IRMap.mk fs3 m.edges
  (modifyMapAt r3.1 l restore, m2)

/-- d2ir.Scalar.Equal, with the Go nil-pointer dereference modelled as
`none` (a panic): the receiver dereferences `s.Value` unconditionally,
and a non-nil receiver dereferences `s2.Value`. -/
def scalarEqualGo : Option ScalarV → Option ScalarV → Option Bool
  | some s, some t =>
    some (if s.isStr && t.isStr then s.str == t.str
          else s.typ == t.typ && s.str == t.str)
  | _, _ => none

mutual
/-- d2ir.Map.Equal (`none` = Go panic, propagated in evaluation order). -/
def mapEqualGo : IRMap → IRMap → Option Bool
  | .mk fs es, .mk fs2 es2 =>
    if fs.length ≠ fs2.length then some false
    else if es.length ≠ es2.length then some false
    else
      match fieldsEqualGo fs fs2 with
      | none => none
      | some false => some false
      | some true => edgesEqualGo es es2
  termination_by structural m _ => m

def fieldsEqualGo : List IRField → List IRField → Option Bool
  | [], _ => some true
  | _ :: _, [] => some true
  | f :: fs, f2 :: fs2 =>
    match fieldEqualGo f f2 with
    | none => none
    | some false => some false
    | some true => fieldsEqualGo fs fs2
  termination_by structural l _ => l

/-- d2ir.Field.Equal: names first (plain `==`), then the primary scalars
(nil on either side is a dereference panic), then the composites (a nil
interface or a Map/Array kind mismatch is a type-assertion panic). -/
def fieldEqualGo : IRField → IRField → Option Bool
  | .mk n p c _, .mk n2 p2 c2 _ =>
    if n ≠ n2 then some false
    else
      match scalarEqualGo p p2 with
      | none => none
      | some false => some false
      | some true => compEqualGo c c2
  termination_by structural f _ => f

def compEqualGo : Option IRComposite → Option IRComposite → Option Bool
  | none, _ => none
  | some (.cmap m), some (.cmap m2) => mapEqualGo m m2
  | some (.cmap _), _ => none
  | some (.carr a), some (.carr a2) => arrEqualGo a a2
  | some (.carr _), _ => none
  termination_by structural c _ => c

def edgesEqualGo : List IREdge → List IREdge → Option Bool
  | [], _ => some true
  | _ :: _, [] => some true
  | e :: es, e2 :: es2 =>
    match edgeEqualGo e e2 with
    | none => none
    | some false => some false
    | some true => edgesEqualGo es es2
  termination_by structural l _ => l

/-- d2ir.Edge.Equal: `ID.Match`, then the primary scalars, then the
nested maps (nil on either side dereferences `.Fields` and panics). -/
def edgeEqualGo : IREdge → IREdge → Option Bool
  | .mk id p m _, .mk id2 p2 m2 _ =>
    if !edgeIDMatch id id2 then some false
    else
      match scalarEqualGo p p2 with
      | none => none
      | some false => some false
      | some true => emapEqualGo m m2
  termination_by structural e _ => e

def emapEqualGo : Option IRMap → Option IRMap → Option Bool
  | none, _ => none
  | some _, none => none
  | some m, some m2 => mapEqualGo m m2
  termination_by structural o _ => o

def arrEqualGo : IRArray → IRArray → Option Bool
  | .mk vs, .mk vs2 =>
    if vs.length ≠ vs2.length then some false
    else valsEqualGo vs vs2
  termination_by structural a _ => a

def valsEqualGo : List IRValue → List IRValue → Option Bool
  | [], _ => some true
  | _ :: _, [] => some true
  | v :: vs, v2 :: vs2 =>
    match valEqualGo v v2 with
    | none => none
    | some false => some false
    | some true => valsEqualGo vs vs2
  termination_by structural l _ => l

/-- Value equality dispatch inside Arrays: mixed node kinds are a
type-assertion panic. -/
def valEqualGo : IRValue → IRValue → Option Bool
  | .vscalar s, .vscalar t => scalarEqualGo (some s) (some t)
  | .vscalar _, _ => none
  | .varr a, .varr a2 => arrEqualGo a a2
  | .varr _, _ => none
  | .vmap m, .vmap m2 => mapEqualGo m m2
  | .vmap _, _ => none
  termination_by structural v _ => v
end

end D2Ir

namespace D2Ir

/-- The parts of a d2ir.RefContext the edge algorithms read: the edge's
source and destination key paths (`Edge.Src`/`Edge.Dst`), the scope map
(`ScopeMap`, as a location), and the context's identity. -/
structure RefCtx where
  src : List PathSeg
  dst : List PathSeg
  scope : Loc
  ctxId : CtxId
deriving DecidableEq, Repr

/-- Errors of CreateEdge; `crash` models Go panics (negative index on an
empty endpoint path), `fuelOut` is unreachable for the fuel provided by
`mapCreateEdge`. -/
inductive CEErr where
  | fuelOut
  | edgeInEdge
  | rerr (e : RErr)
  | eerr (e : EnsErr)
  | prohibitedKw
  | boardKwAlone
  | crash
  | indexArrayCE
  | betweenBoards
deriving DecidableEq, Repr

/-- `ParentEdge(m) != nil`: some ancestor link passes through an Edge. -/
def hasEdgeStep (l : Loc) : Bool :=
  l.any (fun s => match s with | .edg _ => true | .fld _ => false)

/-- d2ir.findProhibitedEdgeKeyword: first index that is a simple reserved
keyword or a reserved-keyword holder. -/
def findProhibited (p : List String) : Option Nat :=
  p.findIdx? (fun s => SimpleReservedKeywords.contains s || ReservedKeywordHolders.contains s)

/-- The `findBoardKeyword(ida) == len(ida)-1` rejection: error when the
first board keyword is the final segment; on an empty path the Go code
indexes `Path[-1]` and panics. -/
def boardAlone (p : List String) : Option CEErr :=
  match p.findIdx? (fun s => BoardKeywords.contains s) with
  | some i => if i + 1 = p.length then some .boardKwAlone else none
  | none => if p.isEmpty then some .crash else none

/-- The `commonKP` patching loop of createEdge/getEdges for one element:
scan `refctx.Edge.Src.Path` from the current `lastMatch` for elements
with the same scalar string, taking the last such element and
accumulating `lastMatch += j+1` per hit, exactly as the source does. -/
def patchScan (srcKP : List PathSeg) (el : String) (start : Nat) : PathSeg × Nat :=
  (List.range' start (srcKP.length - start)).foldl
    (fun (cur : PathSeg × Nat) j =>
      match srcKP.get? j with
      | some realEl => if el = segString realEl then (realEl, cur.2 + j + 1) else cur
      | none => cur)
    (.lit el, start)

/-- `d2ast.MakeKeyPath(common)` followed by the patching loop: each
common element is a plain string segment unless patched back to the
original (possibly glob) segment of the source key path. -/
def patchCommonKP (common : List String) (srcKP : List PathSeg) : List PathSeg :=
  (common.foldl
    (fun (acc : List PathSeg × Nat) el =>
      let sl := patchScan srcKP el acc.2
      (acc.1 ++ [sl.1], sl.2))
    ([], 0)).1

def addEdgeL (m : IRMap) (e : IREdge) : IRMap := .mk m.fields (m.edges ++ [e])

/-- d2ir.Map.createEdge2: reject when an endpoint is a board root or the
endpoints' parent boards differ; otherwise count the existing edges
matching the ID with a wildcard index via `GetEdges`, use that count as
the new concrete index, and append the edge to the resolving map. -/
def createEdge2Go (st : IRMap) (eid : EdgeID) (rc : RefCtx) (l : Loc)
    (src dst : FieldLoc) : Except CEErr (IRMap × (Loc × Nat)) :=
  if !isBlankKind (nodeBoardKindAt st (.nfld src.1 src.2)) then .error .betweenBoards
  else if !isBlankKind (nodeBoardKindAt st (.nfld dst.1 dst.2)) then .error .betweenBoards
  else if decide (parentBoardOf st (.nfld src.1 src.2) ≠ parentBoardOf st (.nfld dst.1 dst.2))
  then .error .betweenBoards
  else
    let eidW := { eid with index := none, glob := true }
    let k := (mapGetEdges st eidW l).length
    let eidC := { eid with index := some (k : Int), glob := false }
    let e : IREdge := .mk eidC none none [rc.ctxId]
    .ok (modifyMapAt st l (fun m => addEdgeL m e), (l, (mapAt st l).edges.length))

/-- The inner Cartesian loop of createEdge over destinations for a fixed
source: the source's three `continue` filters, then `createEdge2` on the
pair with `RelIDA`-rewritten endpoint paths. -/
def cePairInner (eid : EdgeID) (rc : RefCtx) (l : Loc) (src : FieldLoc) :
    List FieldLoc → IRMap → Except CEErr (IRMap × List (Loc × Nat))
  | [], st => .ok (st, [])
  | dst :: dsts, st =>
    if src = dst && (hasGlobKP rc.src || hasGlobKP rc.dst) then
      cePairInner eid rc l src dsts st
    else if hasDGlobKP rc.src &&
        (isContainer (fieldMapAt st src) ||
          decide (parentBoardOf st (.nfld src.1 src.2) ≠ parentBoardOf st (.nfld dst.1 dst.2)))
    then cePairInner eid rc l src dsts st
    else if hasDGlobKP rc.dst &&
        (isContainer (fieldMapAt st dst) ||
          decide (parentBoardOf st (.nfld src.1 src.2) ≠ parentBoardOf st (.nfld dst.1 dst.2)))
    then cePairInner eid rc l src dsts st
    else
      let eid2 := { eid with srcPath := relIDA st l src, dstPath := relIDA st l dst }
      match createEdge2Go st eid2 rc l src dst with
      | .error e => .error e
      | .ok (st1, el) =>
        match cePairInner eid rc l src dsts st1 with
        | .error e => .error e
        | .ok (st2, ea) => .ok (st2, el :: ea)

/-- The outer Cartesian loop of createEdge over sources. -/
def cePairLoop (eid : EdgeID) (rc : RefCtx) (l : Loc) :
    List FieldLoc → List FieldLoc → IRMap → Except CEErr (IRMap × List (Loc × Nat))
  | [], _, st => .ok (st, [])
  | src :: srcs, dsts, st =>
    match cePairInner eid rc l src dsts st with
    | .error e => .error e
    | .ok (st1, ea) =>
      match cePairLoop eid rc l srcs dsts st1 with
      | .error e => .error e
      | .ok (st2, ea') => .ok (st2, ea ++ ea')

/-- The common-path recursion loop of createEdge: for each field the
common key path resolved to, reject Array composites, vivify, and
recurse edge creation inside its map. -/
def ceCommonLoop (recur : IRMap → EdgeID → RefCtx → Loc → Except CEErr (IRMap × List (Loc × Nat)))
    (eid : EdgeID) (rc : RefCtx) : List FieldLoc → IRMap →
    Except CEErr (IRMap × List (Loc × Nat))
  | [], st => .ok (st, [])
  | fl :: fls, st =>
    match getFieldAt st fl with
    | none => ceCommonLoop recur eid rc fls st
    | some f =>
      match f.composite with
      | some (.carr _) => .error .indexArrayCE
      | _ =>
        let st1 := modifyMapAt st fl.1 (fun m => vivifyL m fl.2)
        match recur st1 eid rc (fl.1 ++ [.fld fl.2]) with
        | .error e => .error e
        | .ok (st2, ea) =>
          match ceCommonLoop recur eid rc fls st2 with
          | .error e => .error e
          | .ok (st3, ea') => .ok (st3, ea ++ ea')

/-- d2ir.Map.createEdge: reject inside edges; resolve the EdgeID; either
recurse through the common path, or run the keyword checks, resolve both
endpoint key paths with create=true from the scope map, and take the
Cartesian product of the results.  Each recursion level strictly
shortens the source path, so the fuel provided by `mapCreateEdge` is
never exhausted. -/
def createEdgeGo : Nat → IRMap → EdgeID → RefCtx → Loc →
    Except CEErr (IRMap × List (Loc × Nat))
  | 0, _, _, _, _ => .error .fuelOut
  | fuel+1, st, eid, rc, l =>
    if hasEdgeStep l then .error .edgeInEdge
    else
      match resolveEid st eid l with
      | .error e => .error (.rerr e)
      | .ok (eid', l', common) =>
        if !common.isEmpty then
          match mapEnsureField st (patchCommonKP common rc.src) l' none true with
          | .error e => .error (.eerr e)
          | .ok (st1, fa) => ceCommonLoop (createEdgeGo fuel) eid' rc fa st1
        else
          match findProhibited eid'.srcPath with
          | some _ => .error .prohibitedKw
          | none =>
            match boardAlone eid'.srcPath with
            | some e => .error e
            | none =>
              match findProhibited eid'.dstPath with
              | some _ => .error .prohibitedKw
              | none =>
                match boardAlone eid'.dstPath with
                | some e => .error e
                | none =>
                  match mapEnsureField st rc.src rc.scope (some rc.ctxId) true with
                  | .error e => .error (.eerr e)
                  | .ok (st1, srcFA) =>
                    match mapEnsureField st1 rc.dst rc.scope (some rc.ctxId) true with
                    | .error e => .error (.eerr e)
                    | .ok (st2, dstFA) => cePairLoop eid' rc l' srcFA dstFA st2

/-- d2ir.Map.CreateEdge. -/
def mapCreateEdge (st : IRMap) (eid : EdgeID) (rc : RefCtx) (l : Loc) :
    Except CEErr (IRMap × List (Loc × Nat)) :=
  createEdgeGo (eid.srcPath.length + eid.dstPath.length + 1) st eid rc l

end D2Ir

namespace D2Ir

theorem eqFoldList_iff_forall2 : ∀ xs ys : List String,
    eqFoldList xs ys = true ↔ List.Forall₂ (fun x y => eqFold x y = true) xs ys := by
  intro xs
  induction xs with
  | nil => intro ys; cases ys <;> simp [eqFoldList]
  | cons a as ih =>
    intro ys
    cases ys with
    | nil => simp [eqFoldList]
    | cons b bs => simp [eqFoldList, List.forall₂_cons, ih, Bool.and_eq_true]

/-- C8: `EdgeID.Match` returns true if and only if the source and
destination paths are pairwise case-insensitively equal (hence of equal
lengths), the arrow flags agree exactly, and either at least one index
is null or both indices are equal. -/
theorem C8_edge_match_characterization (a b : EdgeID) :
    edgeIDMatch a b = true ↔
      (a.srcPath.length = b.srcPath.length ∧
        List.Forall₂ (fun x y => eqFold x y = true) a.srcPath b.srcPath ∧
        a.dstPath.length = b.dstPath.length ∧
        List.Forall₂ (fun x y => eqFold x y = true) a.dstPath b.dstPath ∧
        a.srcArrow = b.srcArrow ∧ a.dstArrow = b.dstArrow ∧
        (a.index = none ∨ b.index = none ∨ a.index = b.index)) := by
  simp only [edgeIDMatch, Bool.and_eq_true, beq_iff_eq, eqFoldList_iff_forall2]
  constructor
  · rintro ⟨⟨⟨⟨⟨⟨hi, h1⟩, h2⟩, h3⟩, h4⟩, h5⟩, h6⟩
    refine ⟨h1, h3, h4, h6, h2, h5, ?_⟩
    revert hi
    rcases a.index with _ | i <;> rcases b.index with _ | j <;> simp
  · rintro ⟨h1, h3, h4, h6, h2, h5, hi⟩
    refine ⟨⟨⟨⟨⟨⟨?_, h1⟩, h2⟩, h3⟩, h4⟩, h5⟩, h6⟩
    rcases ha : a.index with _ | i <;> rcases hb : b.index with _ | j <;>
      simp_all

/-- The failing input for the Copy-then-Equal round trip: a map with a
single field `a` that has no primary scalar and no composite. -/
def c2Map : IRMap := .mk [.mk "a" none none []] []

/-- C2: the round trip fails on the code as written: `Copy` faithfully
reproduces the map (first conjunct), but `Equal` against the original
nil-dereferences (Go panic, modelled as `none`) in `Scalar.Equal` /
`Composite.Equal` because the field has no primary and no composite,
instead of returning true. -/
theorem C2_copy_equal_crashes :
    copyMap c2Map = c2Map ∧ mapEqualGo (copyMap c2Map) c2Map = none :=
  ⟨rfl, rfl⟩

/-- The length of the leading run of `_` segments (the claim's reading
of `countUnderscores`). -/
def leadingUnders : List String → Nat
  | [] => 0
  | s :: rest => if s = "_" then leadingUnders rest + 1 else 0

/-- C3's claimed resolve: iterate exactly the maximum of the two
leading-underscore run lengths, with the promotion body and
invalid-underscore error exactly as described (and as implemented). -/
def claimResolveEid (st : IRMap) (eid : EdgeID) (l : Loc) :
    Except RErr (EdgeID × Loc × List String) :=
  let n := max (leadingUnders eid.srcPath) (leadingUnders eid.dstPath)
  match resolveUnders st n eid.srcPath eid.dstPath l with
  | .error e => .error e
  | .ok (src, dst, l') =>
    let r := trimCommon src dst
    .ok ({ eid with srcPath := r.2.1, dstPath := r.2.2 }, l', r.1)

def c3Eid : EdgeID := ⟨["_"], false, ["x"], false, none, false⟩

/-- C3 counterexample: for the EdgeID `_ -> x` on the root map, the
claimed iteration count is max(1,0) = 1, which exhausts the root's
parent and must yield the invalid-underscore error; but
`countUnderscores` returns 0 on the all-underscore path `["_"]`, so the
implementation iterates zero times and succeeds, leaving the `_` in
place. -/
theorem C3_counterexample :
    resolveEid emptyMap c3Eid [] = .ok (c3Eid, [], []) ∧
    claimResolveEid emptyMap c3Eid [] = .error .invalidUnderscore :=
  ⟨rfl, rfl⟩

theorem countUnderscoresAux_eq (p : List String) (hp : ∃ s ∈ p, s ≠ "_") :
    ∀ i, countUnderscoresAux p i = i + leadingUnders p := by
  induction p with
  | nil => exact absurd hp (by simp)
  | cons s rest ih =>
    intro i
    by_cases hs : s = "_"
    · subst hs
      have hrest : ∃ x ∈ rest, x ≠ "_" := by
        rcases hp with ⟨x, hx, hne⟩
        rcases hx with _ | hx
        · exact absurd rfl hne
        · exact ⟨x, by assumption, hne⟩
      have h1 : countUnderscoresAux ("_" :: rest) i = countUnderscoresAux rest (i+1) := by
        simp [countUnderscoresAux]
      have h2 : leadingUnders ("_" :: rest) = leadingUnders rest + 1 := by
        simp [leadingUnders]
      rw [h1, ih hrest (i+1), h2]
      omega
    · simp [countUnderscoresAux, leadingUnders, hs]

theorem countUnderscores_eq_leading (p : List String) (hp : ∃ s ∈ p, s ≠ "_") :
    countUnderscores p = leadingUnders p := by
  simpa using countUnderscoresAux_eq p hp 0

/-- C3 amended: whenever each endpoint path contains at least one
non-underscore segment (so that `countUnderscores` really computes the
leading-underscore run length; on an all-underscore path it returns 0
and the walk is skipped), `resolve` behaves exactly as the claim
describes: it iterates max(leading-run src, leading-run dst) times,
dropping `_` heads, prepending the enclosing field's name on the other
side, moving to the parent map, and failing with the invalid-underscore
error when the parent is exhausted, before common-prefix trimming. -/
theorem C3_resolve_iterations (st : IRMap) (eid : EdgeID) (l : Loc)
    (hs : ∃ s ∈ eid.srcPath, s ≠ "_") (hd : ∃ s ∈ eid.dstPath, s ≠ "_") :
    resolveEid st eid l = claimResolveEid st eid l := by
  unfold resolveEid claimResolveEid
  rw [countUnderscores_eq_leading _ hs, countUnderscores_eq_leading _ hd]

def c3WSt : IRMap := .mk [.mk "holder" none (some (.cmap emptyMap)) []] []

/-- Witness for C3's amended theorem at the concrete input
`_.a -> b` resolved in the map of the field `holder`: one promotion
step rewrites the edge to `a -> holder.b` at the root. -/
theorem C3_resolve_iterations_witness :
    resolveEid c3WSt ⟨["_", "a"], false, ["b"], true, none, false⟩ [Step.fld 0] =
      claimResolveEid c3WSt ⟨["_", "a"], false, ["b"], true, none, false⟩ [Step.fld 0] ∧
    resolveEid c3WSt ⟨["_", "a"], false, ["b"], true, none, false⟩ [Step.fld 0] =
      .ok (⟨["a"], false, ["holder", "b"], true, none, false⟩, [], []) :=
  ⟨C3_resolve_iterations c3WSt ⟨["_", "a"], false, ["b"], true, none, false⟩ [Step.fld 0]
    (by decide) (by decide), rfl⟩

end D2Ir

namespace D2Ir

theorem listModify_get?_self {α : Type} (g : α → α) :
    ∀ (i : Nat) (l : List α) (x : α), l.get? i = some x →
      (listModify g i l).get? i = some (g x) := by
  intro i l
  induction l generalizing i with
  | nil => intro x hx; simp at hx
  | cons a l ih =>
    intro x hx
    rcases i with _ | i
    · simp_all [listModify]
    · simpa [listModify] using ih i x (by simpa using hx)

theorem childMap_setChildMap_same {m : IRMap} {s : Step} {mm : IRMap} (mm' : IRMap)
    (h : childMap m s = some mm) : childMap (setChildMap m s mm') s = some mm' := by
  rcases m with ⟨fs, es⟩
  rcases s with i | i
  · simp only [childMap, IRMap.fields] at h ⊢
    rcases hf : fs.get? i with _ | f
    · rw [hf] at h; exact absurd h (by simp)
    · have h2 := listModify_get?_self
        (fun f => IRField.mk f.name f.primary (some (.cmap mm')) f.refs) i fs f hf
      simp only [setChildMap, IRMap.fields, List.get?_eq_getElem?] at h2 ⊢
      simp [h2, IRField.composite]
  · simp only [childMap, IRMap.edges] at h ⊢
    rcases hf : es.get? i with _ | e
    · rw [hf] at h; exact absurd h (by simp)
    · have h2 := listModify_get?_self
        (fun e => IREdge.mk e.id e.primary (some mm') e.refs) i es e hf
      simp only [setChildMap, IRMap.edges, List.get?_eq_getElem?] at h2 ⊢
      simp [h2, IREdge.emap]

theorem listModify_listModify {α : Type} (g h : α → α) (i : Nat) (l : List α) :
    listModify h i (listModify g i l) = listModify (fun a => h (g a)) i l := by
  induction l generalizing i with
  | nil => simp [listModify]
  | cons a l ih =>
    rcases i with _ | i
    · simp [listModify]
    · simp [listModify, ih]

theorem setChildMap_setChildMap (m : IRMap) (s : Step) (a b : IRMap) :
    setChildMap (setChildMap m s a) s b = setChildMap m s b := by
  rcases m with ⟨fs, es⟩
  rcases s with i | i <;>
    simp [setChildMap, IRMap.fields, IRMap.edges, listModify_listModify, IRField.name,
      IRField.primary, IRField.refs, IREdge.id, IREdge.primary, IREdge.refs]

theorem getMapAt_cons (m : IRMap) (s : Step) (l : Loc) :
    getMapAt m (s :: l) = match childMap m s with
      | some mm => getMapAt mm l
      | none => none := rfl

theorem validMapLoc_cons {m : IRMap} {s : Step} {l : Loc}
    (h : validMapLoc m (s :: l) = true) :
    ∃ mm, childMap m s = some mm ∧ validMapLoc mm l = true := by
  rcases hc : childMap m s with _ | mm
  · simp [validMapLoc, getMapAt_cons, hc] at h
  · exact ⟨mm, rfl, by simpa [validMapLoc, getMapAt_cons, hc] using h⟩

theorem mapAt_cons {st : IRMap} {s : Step} {mm : IRMap} (l : Loc)
    (hc : childMap st s = some mm) : mapAt st (s :: l) = mapAt mm l := by
  simp [mapAt, getMapAt_cons, hc]

theorem mapAt_nil (st : IRMap) : mapAt st [] = st := rfl

theorem mapAt_modifyMapAt_self {st : IRMap} {l : Loc} (g : IRMap → IRMap)
    (h : validMapLoc st l = true) :
    mapAt (modifyMapAt st l g) l = g (mapAt st l) := by
  induction l generalizing st with
  | nil => simp [modifyMapAt, mapAt, getMapAt]
  | cons s l ih =>
    rcases validMapLoc_cons h with ⟨mm, hc, hv⟩
    rw [mapAt_cons l hc, modifyMapAt, hc]
    rw [mapAt_cons l (childMap_setChildMap_same _ hc)]
    exact ih hv

theorem validMapLoc_modifyMapAt {st : IRMap} {l : Loc} (g : IRMap → IRMap)
    (h : validMapLoc st l = true) :
    validMapLoc (modifyMapAt st l g) l = true := by
  induction l generalizing st with
  | nil => simp [validMapLoc, getMapAt]
  | cons s l ih =>
    rcases validMapLoc_cons h with ⟨mm, hc, hv⟩
    rw [modifyMapAt, hc]
    simp only [validMapLoc, getMapAt_cons, childMap_setChildMap_same _ hc]
    exact ih hv

theorem modifyMapAt_comp (st : IRMap) (l : Loc) (g h : IRMap → IRMap) :
    modifyMapAt (modifyMapAt st l g) l h = modifyMapAt st l (fun m => h (g m)) := by
  induction l generalizing st with
  | nil => simp [modifyMapAt]
  | cons s l ih =>
    rcases hc : childMap st s with _ | mm
    · simp [modifyMapAt, hc]
    · have h1 : modifyMapAt st (s :: l) g = setChildMap st s (modifyMapAt mm l g) := by
        rw [modifyMapAt, hc]
      rw [h1, modifyMapAt, childMap_setChildMap_same _ hc]
      dsimp only
      rw [setChildMap_setChildMap, ih, modifyMapAt, hc]

end D2Ir

namespace D2Ir

theorem isBlankKind_true_iff (k : BoardKind) : isBlankKind k = true ↔ k = .blank := by
  cases k <;> simp [isBlankKind]

theorem isBlankKind_false_iff (k : BoardKind) : isBlankKind k = false ↔ k ≠ .blank := by
  cases k <;> simp [isBlankKind]

/-- C6: `createEdge2` returns the "cannot create edges between boards"
error exactly when one of the endpoint fields is itself a board root
(non-blank NodeBoardKind) or the endpoints' parent boards differ; on
success both endpoint kinds are blank, the parent boards coincide, and
the appended edge is the only state change (so no edge whose endpoints
lie in different boards is ever created). -/
theorem C6_board_rejection (st : IRMap) (eid : EdgeID) (rc : RefCtx) (l : Loc)
    (src dst : FieldLoc) :
    (createEdge2Go st eid rc l src dst = .error .betweenBoards ↔
      (nodeBoardKindAt st (.nfld src.1 src.2) ≠ .blank ∨
        nodeBoardKindAt st (.nfld dst.1 dst.2) ≠ .blank ∨
        parentBoardOf st (.nfld src.1 src.2) ≠ parentBoardOf st (.nfld dst.1 dst.2))) ∧
    (∀ st' el, createEdge2Go st eid rc l src dst = .ok (st', el) →
      nodeBoardKindAt st (.nfld src.1 src.2) = .blank ∧
      nodeBoardKindAt st (.nfld dst.1 dst.2) = .blank ∧
      parentBoardOf st (.nfld src.1 src.2) = parentBoardOf st (.nfld dst.1 dst.2) ∧
      st' = modifyMapAt st l (fun m => addEdgeL m (.mk
        { eid with
            index := some ((mapGetEdges st { eid with index := none, glob := true } l).length : Int),
            glob := false }
        none none [rc.ctxId])) ∧
      el = (l, (mapAt st l).edges.length)) := by
  constructor
  · rw [createEdge2Go]
    split_ifs with h1 h2 h3
    · simp only [Bool.not_eq_true'] at h1
      simp [(isBlankKind_false_iff _).mp h1]
    · simp only [Bool.not_eq_true'] at h2
      simp [(isBlankKind_false_iff _).mp h2]
    · simp only [decide_eq_true_eq] at h3
      simp [h3]
    · have h1' : nodeBoardKindAt st (.nfld src.1 src.2) = .blank := by
        revert h1; rw [← isBlankKind_true_iff]; cases isBlankKind (nodeBoardKindAt st (.nfld src.1 src.2)) <;> simp
      have h2' : nodeBoardKindAt st (.nfld dst.1 dst.2) = .blank := by
        revert h2; rw [← isBlankKind_true_iff]; cases isBlankKind (nodeBoardKindAt st (.nfld dst.1 dst.2)) <;> simp
      simp only [decide_eq_true_eq, Decidable.not_not] at h3
      simp [h1', h2', h3]
  · intro st' el h
    rw [createEdge2Go] at h
    split_ifs at h with h1 h2 h3
    have h1' : nodeBoardKindAt st (.nfld src.1 src.2) = .blank := by
      revert h1; rw [← isBlankKind_true_iff]; cases isBlankKind (nodeBoardKindAt st (.nfld src.1 src.2)) <;> simp
    have h2' : nodeBoardKindAt st (.nfld dst.1 dst.2) = .blank := by
      revert h2; rw [← isBlankKind_true_iff]; cases isBlankKind (nodeBoardKindAt st (.nfld dst.1 dst.2)) <;> simp
    simp only [decide_eq_true_eq, Decidable.not_not] at h3
    have h' := Prod.ext_iff.mp (Except.ok.inj h).symm
    exact ⟨h1', h2', h3, h'.1, h'.2⟩

/-- Witness state for C6: two plain fields `x`, `y` in the root map. -/
def c6St : IRMap := .mk [.mk "x" none none [], .mk "y" none none []] []

/-- Witness for C6 at a concrete successful creation between the root
fields `x` and `y`. -/
theorem C6_board_rejection_witness :
    nodeBoardKindAt c6St (.nfld [] 0) = .blank ∧
    nodeBoardKindAt c6St (.nfld [] 1) = .blank ∧
    parentBoardOf c6St (.nfld [] 0) = parentBoardOf c6St (.nfld [] 1) ∧
    (match mapCreateEdge c6St ⟨["x"], false, ["y"], true, none, false⟩
        ⟨[.lit "x"], [.lit "y"], [], 7⟩ [] with
      | .ok p => p.1.edges.map (fun e => e.id)
      | .error _ => []) = [⟨["x"], false, ["y"], true, some 0, false⟩] :=
  have h := (C6_board_rejection c6St
    ⟨["x"], false, ["y"], true, some ((0 : Nat) : Int), false⟩
    ⟨[.lit "x"], [.lit "y"], [], 7⟩ [] ([], 0) ([], 1)).2
    (modifyMapAt c6St [] (fun m => addEdgeL m (.mk ⟨["x"], false, ["y"], true, some 0, false⟩
      none none [7])))
    ([], 0) rfl
  ⟨h.1, h.2.1, h.2.2.1, by decide⟩

end D2Ir

namespace D2Ir

/-- C1 counterexample state: a root map holding one container field `a`. -/
def c1Base : IRMap := .mk [.mk "a" none (some (.cmap emptyMap)) []] []

def c1Eid : EdgeID := ⟨["*", "x"], false, ["a", "y"], true, none, false⟩

def c1Rc1 : RefCtx := ⟨[.pat [.star], .lit "x"], [.lit "a", .lit "y"], [], 1⟩

def c1Rc2 : RefCtx := ⟨[.pat [.star], .lit "x"], [.lit "a", .lit "y"], [], 2⟩

def c1St1 : IRMap :=
  match mapCreateEdge c1Base c1Eid c1Rc1 [] with
  | .ok p => p.1
  | .error _ => c1Base

def c1Res2 : Except CEErr (IRMap × List FieldLoc) := mapCreateEdge c1St1 c1Eid c1Rc2 []

def c1St2 : IRMap :=
  match c1Res2 with
  | .ok p => p.1
  | .error _ => emptyMap

def c1Ok2 : Bool :=
  match c1Res2 with
  | .ok _ => true
  | .error _ => false

/-- The new edge's endpoint tuple with the index treated as a wildcard. -/
def c1WildEid : EdgeID := ⟨["a", "x"], false, ["a", "y"], true, none, true⟩

/-- C1 counterexample: creating the edge `*.x -> a.y` twice on a root map
holding the container `a`.  After the first creation the root map holds
exactly one edge `(a.x -> a.y)[0]`, so one edge of the resolving map
matches the second edge's endpoint tuple with a wildcard index; yet the
second creation also receives index 0 — not the count 1 — because
`GetEdges` re-resolves the case-foldable common prefix `a` into the
submap `a` and counts the (zero) edges there.  The root map then holds
two edges with the identical identifying tuple (SrcPath, SrcArrow,
DstPath, DstArrow, Index), so indices are neither dense nor unique. -/
theorem C1_counterexample :
    c1St1.edges.map (fun e => (e.id.srcPath, e.id.dstPath, e.id.index))
        = [(["a", "x"], ["a", "y"], some 0)] ∧
    (c1St1.edges.filter (fun e => edgeIDMatch e.id c1WildEid)).length = 1 ∧
    c1Ok2 = true ∧
    c1St2.edges.map (fun e => (e.id.srcPath, e.id.dstPath, e.id.index))
        = [(["a", "x"], ["a", "y"], some 0), (["a", "x"], ["a", "y"], some 0)] := by
  refine ⟨?_, ?_, ?_, ?_⟩ <;> decide

/-- No case-foldable common prefix: the trimming loop of `resolve` leaves
the paths untouched. -/
def noTrimEid (eid : EdgeID) : Bool :=
  match eid.srcPath, eid.dstPath with
  | s0 :: _ :: _, d0 :: _ :: _ => !eqFold s0 d0
  | _, _ => true

theorem trimCommon_noTrim {src dst : List String}
    (h : (match src, dst with
      | s0 :: _ :: _, d0 :: _ :: _ => !eqFold s0 d0
      | _, _ => true) = true) :
    trimCommon src dst = ([], src, dst) := by
  rcases src with _ | ⟨s0, _ | ⟨s1, srest⟩⟩ <;> rcases dst with _ | ⟨d0, _ | ⟨d1, drest⟩⟩ <;>
    simp_all [trimCommon, Bool.not_eq_true']

theorem getEdges_plain (st : IRMap) (eid : EdgeID) (l : Loc)
    (hnu : max (countUnderscores eid.srcPath) (countUnderscores eid.dstPath) = 0)
    (hnt : noTrimEid eid = true) :
    mapGetEdges st eid l = (mapAt st l).edges.filter (fun e => edgeIDMatch e.id eid) := by
  have hres : resolveEid st eid l = .ok (eid, l, []) := by
    unfold resolveEid
    rw [hnu]
    simp only [resolveUnders]
    rw [trimCommon_noTrim hnt]
  show getEdgesFuel st (eid.srcPath.length + eid.dstPath.length + 1) eid l = _
  rw [show eid.srcPath.length + eid.dstPath.length + 1
      = (eid.srcPath.length + eid.dstPath.length) + 1 from rfl]
  rw [getEdgesFuel, hres]
  simp

/-- C1 amended: the index `createEdge2` assigns is the number of edges
returned by `GetEdges` for the ID with a wildcarded index — which
re-resolves any case-foldable common path prefix into the corresponding
submap.  When the relative endpoint paths admit no such trimming (no
leading-underscore work and no foldable common head, e.g. whenever one
path has a single segment), that count is exactly the number of edges of
the resolving map whose (SrcPath, SrcArrow, DstPath, DstArrow) match the
new edge's tuple with a wildcard index, as the original claim states. -/
theorem C1_index_assignment (st : IRMap) (eid : EdgeID) (rc : RefCtx) (l : Loc)
    (src dst : FieldLoc) (st' : IRMap) (el : FieldLoc)
    (hok : createEdge2Go st eid rc l src dst = .ok (st', el))
    (hnu : max (countUnderscores eid.srcPath) (countUnderscores eid.dstPath) = 0)
    (hnt : noTrimEid eid = true) :
    st' = modifyMapAt st l (fun m => addEdgeL m (.mk
      { eid with
          index := some
            (((mapAt st l).edges.filter (fun e => edgeIDMatch e.id
              { eid with index := none, glob := true })).length : Int),
          glob := false }
      none none [rc.ctxId])) ∧
    el = (l, (mapAt st l).edges.length) := by
  have h2 := (C6_board_rejection st eid rc l src dst).2 st' el hok
  have hq : mapGetEdges st { eid with index := none, glob := true } l
      = (mapAt st l).edges.filter (fun e => edgeIDMatch e.id
          { eid with index := none, glob := true }) :=
    getEdges_plain st { eid with index := none, glob := true } l hnu hnt
  rw [hq] at h2
  exact ⟨h2.2.2.2.1, h2.2.2.2.2⟩

/-- Witness state for C1's amended theorem: root fields `x`, `y` and one
existing `x -> y` edge with index 0; the next creation gets index 1. -/
def c1WSt : IRMap := .mk [.mk "x" none none [], .mk "y" none none []]
  [.mk ⟨["x"], false, ["y"], true, some 0, false⟩ none none [3]]

def c1WEid : EdgeID := ⟨["x"], false, ["y"], true, some 1, false⟩

def c1WRc : RefCtx := ⟨[.lit "x"], [.lit "y"], [], 8⟩

def c1W2 : IRMap :=
  match createEdge2Go c1WSt c1WEid c1WRc [] ([], 0) ([], 1) with
  | .ok p => p.1
  | .error _ => emptyMap

/-- Witness for C1's amended theorem at a concrete input: with one
matching edge already present, the new edge is appended with index 1
(the count of wildcard-index matches in the resolving map). -/
theorem C1_index_assignment_witness :
    (c1W2 = modifyMapAt c1WSt [] (fun m => addEdgeL m (.mk
      { c1WEid with
          index := some
            (((mapAt c1WSt []).edges.filter (fun e => edgeIDMatch e.id
              { c1WEid with index := none, glob := true })).length : Int),
          glob := false }
      none none [c1WRc.ctxId])) ∧
      (([], 1) : FieldLoc) = ([], (mapAt c1WSt []).edges.length)) ∧
    c1W2.edges.map (fun e => e.id.index) = [some 0, some 1] :=
  ⟨C1_index_assignment c1WSt c1WEid c1WRc [] ([], 0) ([], 1) c1W2 ([], 1)
      rfl (by decide) (by decide),
    by decide⟩

end D2Ir

namespace D2Ir

/-- The pairing-filter conditions as the claim states them: a pair is
skipped when source and destination are the same field and either
endpoint path contained a glob; and, for a double-glob endpoint, when
that endpoint is a container or the endpoints' parent boards differ. -/
def c7ClaimSkip (st : IRMap) (rc : RefCtx) (src dst : FieldLoc) : Prop :=
  (src = dst ∧ (hasGlobKP rc.src = true ∨ hasGlobKP rc.dst = true)) ∨
  (hasDGlobKP rc.src = true ∧ (isContainer (fieldMapAt st src) = true ∨
    parentBoardOf st (.nfld src.1 src.2) ≠ parentBoardOf st (.nfld dst.1 dst.2))) ∨
  (hasDGlobKP rc.dst = true ∧ (isContainer (fieldMapAt st dst) = true ∨
    parentBoardOf st (.nfld src.1 src.2) ≠ parentBoardOf st (.nfld dst.1 dst.2)))

instance c7ClaimSkipDec (st : IRMap) (rc : RefCtx) (src dst : FieldLoc) :
    Decidable (c7ClaimSkip st rc src dst) := by
  unfold c7ClaimSkip
  infer_instance

/-- C7: in createEdge's Cartesian pairing, a pair satisfying the claimed
skip conditions is dropped silently (state unchanged, no edge, no
error); a pair not satisfying them goes straight to `createEdge2` with
RelIDA-rewritten paths; and a literal non-glob self-reference `x -> x`
does create a self-edge with index 0. -/
theorem C7_pair_filters :
    (∀ st eid rc l src dst, c7ClaimSkip st rc src dst →
        cePairInner eid rc l src [dst] st = .ok (st, [])) ∧
    (∀ st eid rc l src dst, ¬ c7ClaimSkip st rc src dst →
        cePairInner eid rc l src [dst] st =
          (match createEdge2Go st
              { eid with srcPath := relIDA st l src, dstPath := relIDA st l dst }
              rc l src dst with
            | .error e => .error e
            | .ok (st1, el) => .ok (st1, [el]))) ∧
    (match mapCreateEdge emptyMap ⟨["x"], false, ["x"], true, none, false⟩
        ⟨[.lit "x"], [.lit "x"], [], 5⟩ [] with
      | .ok p => p.1.edges.map (fun e => e.id)
      | .error _ => []) = [⟨["x"], false, ["x"], true, some 0, false⟩] := by
  refine ⟨?_, ?_, by decide⟩
  · intro st eid rc l src dst hskip
    rw [cePairInner]
    split_ifs with h1 h2 h3
    · rw [cePairInner]
    · rw [cePairInner]
    · rw [cePairInner]
    · exfalso
      simp only [Bool.and_eq_true, Bool.or_eq_true, decide_eq_true_eq] at h1 h2 h3
      rcases hskip with h | h | h
      · exact h1 ⟨h.1, h.2⟩
      · exact h2 ⟨h.1, h.2⟩
      · exact h3 ⟨h.1, h.2⟩
  · intro st eid rc l src dst hskip
    rw [cePairInner]
    split_ifs with h1 h2 h3
    · exfalso
      simp only [Bool.and_eq_true, Bool.or_eq_true, decide_eq_true_eq] at h1
      exact hskip (Or.inl ⟨h1.1, h1.2⟩)
    · exfalso
      simp only [Bool.and_eq_true, Bool.or_eq_true, decide_eq_true_eq] at h2
      exact hskip (Or.inr (Or.inl ⟨h2.1, h2.2⟩))
    · exfalso
      simp only [Bool.and_eq_true, Bool.or_eq_true, decide_eq_true_eq] at h3
      exact hskip (Or.inr (Or.inr ⟨h3.1, h3.2⟩))
    · rcases hres : createEdge2Go st
          { eid with srcPath := relIDA st l src, dstPath := relIDA st l dst }
          rc l src dst with e | ⟨st1, el⟩
      · simp [hres]
      · simp [hres, cePairInner]

/-- Witness state for C7: two fields where `a` is a container holding
`c`, and `b` is a leaf; src path used a double glob. -/
def c7WSt : IRMap := .mk
  [.mk "a" none (some (.cmap (.mk [.mk "c" none none []] []))) [], .mk "b" none none []] []

def c7WRc : RefCtx := ⟨[.dglob], [.lit "b"], [], 4⟩

/-- Witness for C7 at concrete inputs: the container endpoint pair under
a double-glob source is skipped silently, and a non-skipped leaf pair
reduces to `createEdge2`. -/
theorem C7_pair_filters_witness :
    cePairInner ⟨["**"], false, ["b"], true, none, false⟩ c7WRc [] ([], 0) [([], 1)] c7WSt
        = .ok (c7WSt, []) ∧
    cePairInner ⟨["**"], false, ["b"], true, none, false⟩ c7WRc [] ([.fld 0], 0) [([], 1)] c7WSt
        = (match createEdge2Go c7WSt
            { (⟨["**"], false, ["b"], true, none, false⟩ : EdgeID) with
                srcPath := relIDA c7WSt [] ([.fld 0], 0),
                dstPath := relIDA c7WSt [] ([], 1) }
            c7WRc [] ([.fld 0], 0) ([], 1) with
          | .error e => .error e
          | .ok (st1, el) => .ok (st1, [el])) :=
  ⟨C7_pair_filters.1 c7WSt ⟨["**"], false, ["b"], true, none, false⟩ c7WRc [] ([], 0) ([], 1)
      (by decide),
    C7_pair_filters.2.1 c7WSt ⟨["**"], false, ["b"], true, none, false⟩ c7WRc [] ([.fld 0], 0)
      ([], 1) (by decide)⟩

end D2Ir

namespace D2Ir

/-- Remove the first field whose name case-insensitively equals `s`. -/
def eraseFirstFold (s : String) : List IRField → List IRField
  | [] => []
  | f :: fs => if eqFold f.name s then fs else f :: eraseFirstFold s fs

theorem modifyMapAt_congr {st : IRMap} {l : Loc} {g g' : IRMap → IRMap}
    (h : g (mapAt st l) = g' (mapAt st l)) :
    modifyMapAt st l g = modifyMapAt st l g' := by
  induction l generalizing st with
  | nil => simpa [modifyMapAt, mapAt, getMapAt] using h
  | cons s l ih =>
    rcases hc : childMap st s with _ | mm
    · simp [modifyMapAt, hc]
    · rw [mapAt_cons l hc] at h
      rw [modifyMapAt, hc, modifyMapAt, hc]
      dsimp only
      rw [ih h]

theorem fieldNameAt_cons {st : IRMap} {s : Step} {mm : IRMap} (pre : Loc) (j : Nat)
    (hc : childMap st s = some mm) :
    fieldNameAt st (s :: pre) j = fieldNameAt mm pre j := by
  simp [fieldNameAt, getFieldAt, mapAt_cons pre hc]

theorem fieldNameAt_setChildMap_fld {st : IRMap} {i : Nat} {mm : IRMap} (x : IRMap)
    (hc : childMap st (.fld i) = some mm) :
    fieldNameAt (setChildMap st (.fld i) x) [] i = fieldNameAt st [] i := by
  rcases st with ⟨fs, es⟩
  simp only [childMap, IRMap.fields] at hc
  rcases hf : fs.get? i with _ | f
  · rw [hf] at hc; simp at hc
  · have h2 := listModify_get?_self
      (fun f => IRField.mk f.name f.primary (some (.cmap x)) f.refs) i fs f hf
    simp only [List.get?_eq_getElem?] at hf h2
    simp only [IRField.name] at h2
    simp [fieldNameAt, getFieldAt, mapAt, getMapAt, setChildMap, IRMap.fields, hf, h2,
      IRField.name]

theorem fieldNameAt_modifyMapAt_lastFld :
    ∀ (l : Loc) (st : IRMap) (g : IRMap → IRMap) (pre : Loc) (j : Nat),
      lastFld l = some (pre, j) →
      fieldNameAt (modifyMapAt st l g) pre j = fieldNameAt st pre j := by
  intro l
  induction l with
  | nil => intro st g pre j hl; simp [lastFld] at hl
  | cons s l ih =>
    intro st g pre j hl
    rcases hc : childMap st s with _ | mm
    · simp [modifyMapAt, hc]
    · have hstep : modifyMapAt st (s :: l) g = setChildMap st s (modifyMapAt mm l g) := by
        rw [modifyMapAt, hc]
      rcases s with i | i
      · rcases hrec : lastFld l with _ | ⟨l', j'⟩
        · simp only [lastFld, hrec, Option.some.injEq, Prod.mk.injEq] at hl
          rcases hl with ⟨rfl, rfl⟩
          rw [hstep]
          exact fieldNameAt_setChildMap_fld _ hc
        · simp only [lastFld, hrec, Option.some.injEq, Prod.mk.injEq] at hl
          rcases hl with ⟨rfl, rfl⟩
          rw [hstep,
            fieldNameAt_cons l' j' (childMap_setChildMap_same (modifyMapAt mm l g) hc),
            fieldNameAt_cons l' j' hc]
          exact ih mm g l' j' hrec
      · rcases hrec : lastFld l with _ | ⟨l', j'⟩
        · simp [lastFld, hrec] at hl
        · simp only [lastFld, hrec, Option.some.injEq, Prod.mk.injEq] at hl
          rcases hl with ⟨rfl, rfl⟩
          rw [hstep,
            fieldNameAt_cons l' j' (childMap_setChildMap_same (modifyMapAt mm l g) hc),
            fieldNameAt_cons l' j' hc]
          exact ih mm g l' j' hrec

theorem parentFldName_modifyMapAt (st : IRMap) (l : Loc) (g : IRMap → IRMap) :
    parentFldName (modifyMapAt st l g) l = parentFldName st l := by
  rcases hl : lastFld l with _ | ⟨pre, j⟩
  · simp [parentFldName, hl]
  · simp only [parentFldName, hl]
    exact fieldNameAt_modifyMapAt_lastFld l st g pre j hl

end D2Ir

namespace D2Ir

mutual
theorem copyMap_id : ∀ m : IRMap, copyMap m = m
  | .mk fs es => by rw [copyMap, copyFields_id fs, copyEdges_id es]

theorem copyFields_id : ∀ fs : List IRField, copyFields fs = fs
  | [] => rfl
  | f :: fs => by rw [copyFields, copyField_id f, copyFields_id fs]

theorem copyField_id : ∀ f : IRField, copyField f = f
  | .mk n p c r => by rw [copyField, copyCompOpt_id c]

theorem copyEdges_id : ∀ es : List IREdge, copyEdges es = es
  | [] => rfl
  | e :: es => by rw [copyEdges, copyEdge_id e, copyEdges_id es]

theorem copyEdge_id : ∀ e : IREdge, copyEdge e = e
  | .mk i p m r => by rw [copyEdge, copyMapOpt_id m]

theorem copyCompOpt_id : ∀ c : Option IRComposite, copyCompOpt c = c
  | none => rfl
  | some (.cmap m) => by rw [copyCompOpt, copyMap_id m]
  | some (.carr a) => by rw [copyCompOpt, copyArr_id a]

theorem copyMapOpt_id : ∀ m : Option IRMap, copyMapOpt m = m
  | none => rfl
  | some m => by rw [copyMapOpt, copyMap_id m]

theorem copyArr_id : ∀ a : IRArray, copyArr a = a
  | .mk vs => by rw [copyArr, copyVals_id vs]

theorem copyVals_id : ∀ vs : List IRValue, copyVals vs = vs
  | [] => rfl
  | v :: vs => by rw [copyVals, copyVal_id v, copyVals_id vs]

theorem copyVal_id : ∀ v : IRValue, copyVal v = v
  | .vscalar s => rfl
  | .varr a => by rw [copyVal, copyArr_id a]
  | .vmap m => by rw [copyVal, copyMap_id m]
end

theorem IRMap.eta : ∀ m : IRMap, IRMap.mk m.fields m.edges = m
  | .mk _ _ => rfl

theorem listModify_self {α : Type} (g : α → α) :
    ∀ (i : Nat) (l : List α), (∀ a, l.get? i = some a → g a = a) → listModify g i l = l := by
  intro i l
  induction l generalizing i with
  | nil => intro _; simp [listModify]
  | cons a l ih =>
    intro h
    rcases i with _ | i
    · simp [listModify, h a (by simp)]
    · simp only [listModify, List.cons.injEq, true_and]
      exact ih i (fun b hb => h b (by simpa using hb))

theorem setChildMap_self {m : IRMap} {s : Step} {mm : IRMap}
    (hc : childMap m s = some mm) : setChildMap m s mm = m := by
  rcases m with ⟨fs, es⟩
  rcases s with i | i
  · simp only [childMap, IRMap.fields] at hc
    rcases hf : fs.get? i with _ | f
    · rw [hf] at hc; simp at hc
    · rw [hf] at hc
      dsimp only at hc
      simp only [setChildMap, IRMap.fields, IRMap.edges, IRMap.mk.injEq, and_true]
      apply listModify_self
      intro a ha
      rw [hf] at ha
      rcases Option.some.inj ha with rfl
      rcases hcomp : f.composite with _ | c
      · rw [hcomp] at hc; simp at hc
      · rcases c with m' | arr
        · rw [hcomp] at hc
          simp only [Option.some.injEq] at hc
          rcases f with ⟨n, p, comp, r⟩
          simp only [IRField.composite] at hcomp
          simp [hcomp, hc, IRField.name, IRField.primary, IRField.refs]
        · rw [hcomp] at hc; simp at hc
  · simp only [childMap, IRMap.edges] at hc
    rcases hf : es.get? i with _ | e
    · rw [hf] at hc; simp at hc
    · rw [hf] at hc
      dsimp only at hc
      simp only [setChildMap, IRMap.fields, IRMap.edges, IRMap.mk.injEq, true_and]
      apply listModify_self
      intro a ha
      rw [hf] at ha
      rcases Option.some.inj ha with rfl
      rcases e with ⟨eid, p, em, r⟩
      simp only [IREdge.emap] at hc
      simp [hc, IREdge.id, IREdge.primary, IREdge.refs]

theorem modifyMapAt_id (st : IRMap) (l : Loc) : modifyMapAt st l (fun m => m) = st := by
  induction l generalizing st with
  | nil => rfl
  | cons s l ih =>
    rcases hc : childMap st s with _ | mm
    · simp [modifyMapAt, hc]
    · rw [modifyMapAt, hc]
      dsimp only
      rw [ih, setChildMap_self hc]

end D2Ir

namespace D2Ir

theorem cascadeOne_noop (fr : CtxId) :
    ∀ (snap cur : List IREdge), (∀ e ∈ snap, e.refs.contains fr = false) →
      cascadeOne fr snap cur = cur := by
  intro snap
  induction snap with
  | nil => intro cur _; rfl
  | cons e es ih =>
    intro cur h
    have he : e.refs.contains fr = false := h e (by simp)
    show (e :: es).foldl _ cur = cur
    rw [List.foldl_cons, he]
    simp only [Bool.false_eq_true, if_false]
    exact ih cur (fun e' he' => h e' (by simp [he']))

theorem cascadeRefs_noop :
    ∀ (frs : List CtxId) (es : List IREdge),
      (∀ c ∈ frs, ∀ e ∈ es, e.refs.contains c = false) →
      cascadeRefs frs es = es := by
  intro frs
  induction frs with
  | nil => intro es _; rfl
  | cons fr frs ih =>
    intro es h
    show (fr :: frs).foldl _ es = es
    rw [List.foldl_cons]
    rw [cascadeOne_noop fr es es (fun e he => h fr (by simp) e he)]
    exact ih es (fun c hc e he => h c (by simp [hc]) e he)

theorem get?_append_len {α : Type} :
    ∀ (done : List α) (a : α) (rest : List α),
      (done ++ a :: rest).get? done.length = some a := by
  intro done a rest
  induction done with
  | nil => rfl
  | cons d ds ih => simpa using ih

theorem eraseFirstFold_append (s : String) :
    ∀ (done : List IRField) (f : IRField) (rest : List IRField),
      (∀ g ∈ done, eqFold g.name s = false) → eqFold f.name s = true →
      eraseFirstFold s (done ++ f :: rest) = done ++ rest := by
  intro done f rest hdone hf
  induction done with
  | nil => simp [eraseFirstFold, hf]
  | cons d ds ih =>
    have hd : eqFold d.name s = false := hdone d (by simp)
    simp only [List.cons_append, eraseFirstFold, hd]
    simp only [Bool.false_eq_true, if_false, List.cons.injEq, true_and]
    exact ih (fun g hg => hdone g (by simp [hg]))

theorem find?_append_first {α : Type} (p : α → Bool) :
    ∀ (done : List α) (a : α) (rest : List α),
      (∀ g ∈ done, p g = false) → p a = true →
      (done ++ a :: rest).find? p = some a := by
  intro done a rest hdone ha
  induction done with
  | nil => simp [List.find?_cons, ha]
  | cons d ds ih =>
    have hd : p d = false := hdone d (by simp)
    simp only [List.cons_append, List.find?_cons, hd]
    exact ih (fun g hg => hdone g (by simp [hg]))

theorem drop_append_len {α : Type} :
    ∀ (done : List α) (a : α) (rest : List α),
      (done ++ a :: rest).drop (done.length + 1) = rest := by
  intro done a rest
  induction done with
  | nil => rfl
  | cons d ds ih => simpa using ih

theorem deleteAtIdx_spec (st : IRMap) (l : Loc) (i : Nat) (f : IRField)
    (hf : getFieldAt st (l, i) = some f)
    (hv : validMapLoc st l = true)
    (hcasc : cascadeRefs f.refs (mapAt st l).edges = (mapAt st l).edges)
    (hclean : parentFldName st l ≠ "style") :
    deleteAtIdx st l i =
      (modifyMapAt st l (fun m => IRMap.mk (m.fields.take i ++ m.fields.drop (i+1)) m.edges),
        some f) := by
  rw [deleteAtIdx, hf]
  dsimp only
  have h1 : modifyMapAt st l (fun m => IRMap.mk m.fields (cascadeRefs f.refs m.edges)) = st := by
    have h0 : modifyMapAt st l (fun m => IRMap.mk m.fields (cascadeRefs f.refs m.edges))
        = modifyMapAt st l (fun m => m) := by
      apply modifyMapAt_congr
      show IRMap.mk (mapAt st l).fields (cascadeRefs f.refs (mapAt st l).edges) = mapAt st l
      rw [hcasc, IRMap.eta]
    rw [h0, modifyMapAt_id]
  rw [h1]
  have hname : parentFldName
      (modifyMapAt st l (fun m => IRMap.mk (m.fields.take i ++ m.fields.drop (i+1)) m.edges)) l
      = parentFldName st l := parentFldName_modifyMapAt st l _
  rw [holderCleanup]
  show (ReservedKeywordHolders.foldl _ _, some f) = _
  rw [ReservedKeywordHolders]
  rw [List.foldl_cons, List.foldl_nil]
  rcases hl : lastFld l with _ | ⟨pre, j⟩
  · simp
  · have : fieldNameAt
        (modifyMapAt st l (fun m => IRMap.mk (m.fields.take i ++ m.fields.drop (i+1)) m.edges))
        pre j ≠ "style" := by
      rw [fieldNameAt_modifyMapAt_lastFld l st _ pre j hl]
      simpa [parentFldName, hl] using hclean
    simp [this]

theorem dfScan_spec (st : IRMap) (s : String) (l : Loc)
    (rd : Loc → IRMap × Option IRField)
    (hv : validMapLoc st l = true)
    (hclean : parentFldName st l ≠ "style")
    (hcasc : ∀ f ∈ (mapAt st l).fields, eqFold f.name s = true →
      cascadeRefs f.refs (mapAt st l).edges = (mapAt st l).edges) :
    ∀ (fs done : List IRField), (mapAt st l).fields = done ++ fs →
      (∀ g ∈ done, eqFold g.name s = false) →
      dfScan rd st s true l fs done.length =
        (modifyMapAt st l (fun m => IRMap.mk (eraseFirstFold s m.fields) m.edges),
          (mapAt st l).fields.find? (fun f => eqFold f.name s)) := by
  intro fs
  induction fs with
  | nil =>
    intro done hsplit hdone
    have hfind : (mapAt st l).fields.find? (fun f => eqFold f.name s) = none := by
      rw [List.find?_eq_none]
      intro g hg
      rw [hsplit, List.append_nil] at hg
      simp [hdone g hg]
    have herase : eraseFirstFold s (mapAt st l).fields = (mapAt st l).fields := by
      rw [hsplit, List.append_nil]
      clear hsplit hfind
      induction done with
      | nil => rfl
      | cons d ds ih =>
        simp only [eraseFirstFold, hdone d (by simp)]
        simp only [Bool.false_eq_true, if_false, List.cons.injEq, true_and]
        exact ih (fun g hg => hdone g (by simp [hg]))
    have hmod : modifyMapAt st l (fun m => IRMap.mk (eraseFirstFold s m.fields) m.edges) = st := by
      have h0 : modifyMapAt st l (fun m => IRMap.mk (eraseFirstFold s m.fields) m.edges)
          = modifyMapAt st l (fun m => m) := by
        apply modifyMapAt_congr
        show IRMap.mk (eraseFirstFold s (mapAt st l).fields) (mapAt st l).edges = mapAt st l
        rw [herase, IRMap.eta]
      rw [h0, modifyMapAt_id]
    rw [dfScan, hfind, hmod]
  | cons f fs ih =>
    intro done hsplit hdone
    rcases hmatch : eqFold f.name s with _ | _
    · have hstep : dfScan rd st s true l (f :: fs) done.length
          = dfScan rd st s true l fs (done.length + 1) := by
        rw [dfScan, hmatch]
        simp
      rw [hstep]
      have : done.length + 1 = (done ++ [f]).length := by simp
      rw [this]
      exact ih (done ++ [f]) (by simpa using hsplit)
        (fun g hg => by
          rcases List.mem_append.mp hg with h | h
          · exact hdone g h
          · simpa [List.mem_singleton.mp h] using hmatch)
    · have hget : getFieldAt st (l, done.length) = some f := by
        rw [getFieldAt, hsplit]
        exact get?_append_len done f fs
      have hstep : dfScan rd st s true l (f :: fs) done.length
          = deleteAtIdx st l done.length := by
        rw [dfScan, hmatch]
        simp
      rw [hstep, deleteAtIdx_spec st l done.length f hget hv
        (hcasc f (by rw [hsplit]; simp) hmatch) hclean]
      have hcongr : modifyMapAt st l (fun m => IRMap.mk
            (m.fields.take done.length ++ m.fields.drop (done.length + 1)) m.edges)
          = modifyMapAt st l (fun m => IRMap.mk (eraseFirstFold s m.fields) m.edges) := by
        apply modifyMapAt_congr
        show IRMap.mk ((mapAt st l).fields.take done.length
            ++ (mapAt st l).fields.drop (done.length + 1)) (mapAt st l).edges
          = IRMap.mk (eraseFirstFold s (mapAt st l).fields) (mapAt st l).edges
        rw [hsplit, List.take_left, drop_append_len,
          eraseFirstFold_append s done f fs hdone hmatch]
      rw [hcongr, hsplit,
        find?_append_first (fun f => eqFold f.name s) done f fs hdone hmatch]

theorem mapDeleteField_top (st : IRMap) (s : String) (l : Loc)
    (hv : validMapLoc st l = true)
    (hclean : parentFldName st l ≠ "style")
    (hcasc : ∀ f ∈ (mapAt st l).fields, eqFold f.name s = true →
      cascadeRefs f.refs (mapAt st l).edges = (mapAt st l).edges) :
    mapDeleteField st [s] l =
      (modifyMapAt st l (fun m => IRMap.mk (eraseFirstFold s m.fields) m.edges),
        (mapAt st l).fields.find? (fun f => eqFold f.name s)) := by
  rw [mapDeleteField]
  exact dfScan_spec st s l _ hv hclean hcasc (mapAt st l).fields [] rfl (by simp)

end D2Ir

namespace D2Ir

/-- A field name that case-insensitively matches one of the three board
holder keywords. -/
def isHolderName (n : String) : Bool :=
  eqFold n "layers" || eqFold n "scenarios" || eqFold n "steps"

theorem eqFold_excl {a b : String} (hab : eqFold a b = false) {n : String}
    (h : eqFold n a = true) : eqFold n b = false := by
  rcases hnb : eqFold n b with _ | _
  · rfl
  · exfalso
    simp only [eqFold, beq_iff_eq] at h hnb
    simp only [eqFold, beq_eq_false_iff_ne] at hab
    exact hab (h.symm.trans hnb)

theorem filter_eq_nil_of_count_le {p : IRField → Bool} :
    ∀ {fs : List IRField}, (fs.filter p).length ≤ 0 → ∀ f ∈ fs, p f = false := by
  intro fs h f hf
  rcases hp : p f with _ | _
  · rfl
  · exfalso
    have : f ∈ fs.filter p := List.mem_filter.mpr ⟨hf, hp⟩
    have := List.length_pos_of_mem this
    omega

theorem eraseFirstFold_eq_filter (kw : String) :
    ∀ (fs : List IRField), ((fs.filter (fun f => eqFold f.name kw)).length ≤ 1) →
      eraseFirstFold kw fs = fs.filter (fun f => !eqFold f.name kw) := by
  intro fs
  induction fs with
  | nil => intro _; rfl
  | cons f fs ih =>
    intro hcount
    rcases hm : eqFold f.name kw with _ | _
    · have : (fs.filter (fun f => eqFold f.name kw)).length ≤ 1 := by
        simpa [List.filter_cons, hm] using hcount
      simp [eraseFirstFold, List.filter_cons, hm, ih this]
    · have hrest : ∀ g ∈ fs, eqFold g.name kw = false := by
        apply filter_eq_nil_of_count_le
        simp only [List.filter_cons, hm, if_pos] at hcount
        simpa using hcount
      have : fs.filter (fun f => !eqFold f.name kw) = fs := by
        apply List.filter_eq_self.mpr
        intro g hg
        simp [hrest g hg]
      simp [eraseFirstFold, List.filter_cons, hm, this]

theorem find?_filter_of {p q : IRField → Bool} (h : ∀ a, q a = true → p a = true) :
    ∀ (fs : List IRField), (fs.filter p).find? q = fs.find? q := by
  intro fs
  induction fs with
  | nil => rfl
  | cons f fs ih =>
    rcases hp : p f with _ | _
    · have hq : q f = false := by
        rcases hq : q f with _ | _
        · rfl
        · rw [h f hq] at hp; cases hp
      simp [List.filter_cons, hp, List.find?_cons, hq, ih]
    · simp only [List.filter_cons, hp, if_pos, List.find?_cons]
      rcases hq : q f with _ | _
      · simp [ih]
      · rfl

theorem filter_count_mono {p q : IRField → Bool} (fs : List IRField) :
    ((fs.filter p).filter q).length ≤ (fs.filter q).length :=
  List.Sublist.length_le (List.Sublist.filter q (List.filter_sublist fs))

theorem appendOpt_eq (o : Option IRField) (xs : List IRField) :
    (match o with | some f => xs ++ [f] | none => xs) = xs ++ o.toList := by
  cases o <;> simp

theorem IRMap.fields_mk (fs : List IRField) (es : List IREdge) :
    (IRMap.mk fs es).fields = fs := rfl

theorem IRMap.edges_mk (fs : List IRField) (es : List IREdge) :
    (IRMap.mk fs es).edges = es := rfl

theorem holderFilter (fs : List IRField) :
    (((fs.filter (fun f => !eqFold f.name "layers")).filter
        (fun f => !eqFold f.name "scenarios")).filter
        (fun f => !eqFold f.name "steps"))
      = fs.filter (fun f => !isHolderName f.name) := by
  induction fs with
  | nil => rfl
  | cons f fs ih =>
    rcases h1 : eqFold f.name "layers" with _ | _ <;>
      rcases h2 : eqFold f.name "scenarios" with _ | _ <;>
        rcases h3 : eqFold f.name "steps" with _ | _ <;>
          simp [List.filter_cons, isHolderName, h1, h2, h3, ih, Bool.and_comm,
            Bool.and_left_comm, Bool.and_assoc]

/-- C9 amended: provided the owning field of the map is not a
reserved-keyword holder, the map has at most one field fold-matching
each board keyword, and no reference context of a holder field is shared
with any edge reference (otherwise DeleteField's cascade deletes such
edges permanently), `CopyBase` returns a deep copy without the
layers/scenarios/steps fields and leaves the original with the same
members and edges — but with the detached holder fields re-appended at
the END of the field list, in layers, scenarios, steps order, rather
than in their original positions. -/
theorem C9_copybase (st : IRMap) (l : Loc)
    (hv : validMapLoc st l = true)
    (hcl : ReservedKeywordHolders.contains (parentFldName st l) = false)
    (hone : ∀ kw ∈ BoardKeywords,
      ((mapAt st l).fields.filter (fun f => eqFold f.name kw)).length ≤ 1)
    (hshare : ∀ f ∈ (mapAt st l).fields, isHolderName f.name = true →
      ∀ c ∈ f.refs, ∀ e ∈ (mapAt st l).edges, e.refs.contains c = false) :
    (mapCopyBase st l).2 = IRMap.mk
      ((mapAt st l).fields.filter (fun f => !isHolderName f.name)) (mapAt st l).edges ∧
    (mapCopyBase st l).1 = modifyMapAt st l (fun _ => IRMap.mk
      ((mapAt st l).fields.filter (fun f => !isHolderName f.name)
        ++ ((mapAt st l).fields.find? (fun f => eqFold f.name "layers")).toList
        ++ ((mapAt st l).fields.find? (fun f => eqFold f.name "scenarios")).toList
        ++ ((mapAt st l).fields.find? (fun f => eqFold f.name "steps")).toList)
      (mapAt st l).edges) := by
  have hclean : parentFldName st l ≠ "style" := by
    intro h
    rw [h] at hcl
    simp [ReservedKeywordHolders] at hcl
  -- first deletion: layers
  have hc1 : ∀ f ∈ (mapAt st l).fields, eqFold f.name "layers" = true →
      cascadeRefs f.refs (mapAt st l).edges = (mapAt st l).edges := by
    intro f hf hfold
    exact cascadeRefs_noop f.refs _ (hshare f hf (by simp [isHolderName, hfold]))
  have hd1 := mapDeleteField_top st "layers" l hv hclean hc1
  have hst1v := validMapLoc_modifyMapAt
    (fun m => IRMap.mk (eraseFirstFold "layers" m.fields) m.edges) hv
  have hmap1 := mapAt_modifyMapAt_self
    (fun m => IRMap.mk (eraseFirstFold "layers" m.fields) m.edges) hv
  have hE1 : eraseFirstFold "layers" (mapAt st l).fields
      = (mapAt st l).fields.filter (fun f => !eqFold f.name "layers") :=
    eraseFirstFold_eq_filter "layers" _ (hone "layers" (by simp [BoardKeywords]))
  -- state after the first deletion
  have hflds1 : (mapAt (modifyMapAt st l
        (fun m => IRMap.mk (eraseFirstFold "layers" m.fields) m.edges)) l).fields
      = (mapAt st l).fields.filter (fun f => !eqFold f.name "layers") := by
    rw [hmap1, IRMap.fields, hE1]
  have hedg1 : (mapAt (modifyMapAt st l
        (fun m => IRMap.mk (eraseFirstFold "layers" m.fields) m.edges)) l).edges
      = (mapAt st l).edges := by
    rw [hmap1]
    rfl
  -- second deletion: scenarios
  have hclean1 : parentFldName (modifyMapAt st l
      (fun m => IRMap.mk (eraseFirstFold "layers" m.fields) m.edges)) l ≠ "style" := by
    rw [parentFldName_modifyMapAt]
    exact hclean
  have hc2 : ∀ f ∈ (mapAt (modifyMapAt st l
        (fun m => IRMap.mk (eraseFirstFold "layers" m.fields) m.edges)) l).fields,
      eqFold f.name "scenarios" = true →
      cascadeRefs f.refs (mapAt (modifyMapAt st l
        (fun m => IRMap.mk (eraseFirstFold "layers" m.fields) m.edges)) l).edges
      = (mapAt (modifyMapAt st l
        (fun m => IRMap.mk (eraseFirstFold "layers" m.fields) m.edges)) l).edges := by
    intro f hf hfold
    rw [hflds1] at hf
    rw [hedg1]
    exact cascadeRefs_noop f.refs _
      (hshare f (List.mem_of_mem_filter hf) (by simp [isHolderName, hfold]))
  have hd2 := mapDeleteField_top (modifyMapAt st l
    (fun m => IRMap.mk (eraseFirstFold "layers" m.fields) m.edges)) "scenarios" l
    hst1v hclean1 hc2
  have hLS : ∀ a : IRField, eqFold a.name "scenarios" = true →
      (!eqFold a.name "layers") = true := by
    intro a ha
    rw [eqFold_excl (by decide) ha]
    rfl
  have hfind2 : (mapAt (modifyMapAt st l
        (fun m => IRMap.mk (eraseFirstFold "layers" m.fields) m.edges)) l).fields.find?
        (fun f => eqFold f.name "scenarios")
      = (mapAt st l).fields.find? (fun f => eqFold f.name "scenarios") := by
    rw [hflds1, find?_filter_of hLS]
  rw [hfind2] at hd2
  rw [modifyMapAt_comp] at hd2
  replace hd2 : mapDeleteField (modifyMapAt st l
      (fun m => IRMap.mk (eraseFirstFold "layers" m.fields) m.edges)) ["scenarios"] l
    = (modifyMapAt st l (fun m => IRMap.mk
        (eraseFirstFold "scenarios" (eraseFirstFold "layers" m.fields)) m.edges),
      (mapAt st l).fields.find? (fun f => eqFold f.name "scenarios")) := hd2
  -- state after the second deletion
  have hst2v := validMapLoc_modifyMapAt (fun m => IRMap.mk
    (eraseFirstFold "scenarios" (eraseFirstFold "layers" m.fields)) m.edges) hv
  have hmap2 := mapAt_modifyMapAt_self (fun m => IRMap.mk
    (eraseFirstFold "scenarios" (eraseFirstFold "layers" m.fields)) m.edges) hv
  have hcount2 : (((mapAt st l).fields.filter (fun f => !eqFold f.name "layers")).filter
      (fun f => eqFold f.name "scenarios")).length ≤ 1 :=
    le_trans (filter_count_mono _) (hone "scenarios" (by simp [BoardKeywords]))
  have hE2 : eraseFirstFold "scenarios"
      ((mapAt st l).fields.filter (fun f => !eqFold f.name "layers"))
      = (((mapAt st l).fields.filter (fun f => !eqFold f.name "layers")).filter
          (fun f => !eqFold f.name "scenarios")) :=
    eraseFirstFold_eq_filter "scenarios" _ hcount2
  have hflds2 : (mapAt (modifyMapAt st l (fun m => IRMap.mk
        (eraseFirstFold "scenarios" (eraseFirstFold "layers" m.fields)) m.edges)) l).fields
      = (((mapAt st l).fields.filter (fun f => !eqFold f.name "layers")).filter
          (fun f => !eqFold f.name "scenarios")) := by
    rw [hmap2]
    show eraseFirstFold "scenarios" (eraseFirstFold "layers" (mapAt st l).fields) = _
    rw [hE1, hE2]
  have hedg2 : (mapAt (modifyMapAt st l (fun m => IRMap.mk
        (eraseFirstFold "scenarios" (eraseFirstFold "layers" m.fields)) m.edges)) l).edges
      = (mapAt st l).edges := by
    rw [hmap2]
    rfl
  -- third deletion: steps
  have hclean2 : parentFldName (modifyMapAt st l (fun m => IRMap.mk
      (eraseFirstFold "scenarios" (eraseFirstFold "layers" m.fields)) m.edges)) l
      ≠ "style" := by
    rw [parentFldName_modifyMapAt]
    exact hclean
  have hc3 : ∀ f ∈ (mapAt (modifyMapAt st l (fun m => IRMap.mk
        (eraseFirstFold "scenarios" (eraseFirstFold "layers" m.fields)) m.edges)) l).fields,
      eqFold f.name "steps" = true →
      cascadeRefs f.refs (mapAt (modifyMapAt st l (fun m => IRMap.mk
        (eraseFirstFold "scenarios" (eraseFirstFold "layers" m.fields)) m.edges)) l).edges
      = (mapAt (modifyMapAt st l (fun m => IRMap.mk
        (eraseFirstFold "scenarios" (eraseFirstFold "layers" m.fields)) m.edges)) l).edges := by
    intro f hf hfold
    rw [hflds2] at hf
    rw [hedg2]
    exact cascadeRefs_noop f.refs _
      (hshare f (List.mem_of_mem_filter (List.mem_of_mem_filter hf))
        (by simp [isHolderName, hfold]))
  have hd3 := mapDeleteField_top (modifyMapAt st l (fun m => IRMap.mk
      (eraseFirstFold "scenarios" (eraseFirstFold "layers" m.fields)) m.edges)) "steps" l
    hst2v hclean2 hc3
  have hStS : ∀ a : IRField, eqFold a.name "steps" = true →
      (!eqFold a.name "scenarios") = true := by
    intro a ha
    rw [eqFold_excl (by decide) ha]
    rfl
  have hStL : ∀ a : IRField, eqFold a.name "steps" = true →
      (!eqFold a.name "layers") = true := by
    intro a ha
    rw [eqFold_excl (by decide) ha]
    rfl
  have hfind3 : (mapAt (modifyMapAt st l (fun m => IRMap.mk
        (eraseFirstFold "scenarios" (eraseFirstFold "layers" m.fields)) m.edges)) l).fields.find?
        (fun f => eqFold f.name "steps")
      = (mapAt st l).fields.find? (fun f => eqFold f.name "steps") := by
    rw [hflds2, find?_filter_of hStS, find?_filter_of hStL]
  rw [hfind3] at hd3
  rw [modifyMapAt_comp] at hd3
  replace hd3 : mapDeleteField (modifyMapAt st l (fun m => IRMap.mk
      (eraseFirstFold "scenarios" (eraseFirstFold "layers" m.fields)) m.edges)) ["steps"] l
    = (modifyMapAt st l (fun m => IRMap.mk
        (eraseFirstFold "steps"
          (eraseFirstFold "scenarios" (eraseFirstFold "layers" m.fields))) m.edges),
      (mapAt st l).fields.find? (fun f => eqFold f.name "steps")) := hd3
  have hcount3 : ((((mapAt st l).fields.filter (fun f => !eqFold f.name "layers")).filter
      (fun f => !eqFold f.name "scenarios")).filter
      (fun f => eqFold f.name "steps")).length ≤ 1 :=
    le_trans (filter_count_mono _)
      (le_trans (filter_count_mono _) (hone "steps" (by simp [BoardKeywords])))
  have hE3 : eraseFirstFold "steps"
      (((mapAt st l).fields.filter (fun f => !eqFold f.name "layers")).filter
        (fun f => !eqFold f.name "scenarios"))
      = ((((mapAt st l).fields.filter (fun f => !eqFold f.name "layers")).filter
          (fun f => !eqFold f.name "scenarios")).filter
          (fun f => !eqFold f.name "steps")) :=
    eraseFirstFold_eq_filter "steps" _ hcount3
  -- assemble CopyBase
  simp only [mapCopyBase]
  rw [hd1]
  dsimp only
  rw [hd2]
  dsimp only
  rw [hd3]
  dsimp only
  constructor
  · rw [copyMap_id, mapAt_modifyMapAt_self _ hv]
    rw [hE1, hE2, hE3, holderFilter]
  · rw [modifyMapAt_comp]
    apply modifyMapAt_congr
    simp only [IRMap.fields_mk, IRMap.edges_mk]
    rw [hE1, hE2, hE3, holderFilter]
    rcases hf1 : (mapAt st l).fields.find? (fun f => eqFold f.name "layers") with _ | f1 <;>
      rcases hf2 : (mapAt st l).fields.find? (fun f => eqFold f.name "scenarios") with _ | f2 <;>
        rcases hf3 : (mapAt st l).fields.find? (fun f => eqFold f.name "steps") with _ | f3 <;>
          simp [hf1, hf2, hf3]

end D2Ir

namespace D2Ir

/-- A map whose field list is `[layers, a]`: the claim C9 says CopyBase
leaves the original's fields in the same order. -/
def c9St : IRMap := IRMap.mk
  [IRField.mk "layers" none (some (.cmap (IRMap.mk [] []))) [],
   IRField.mk "a" none none []] []

/-- C9 counterexample: on a map with fields `[layers, a]`, CopyBase
returns the original with field order `[a, layers]` — the detached
`layers` holder is re-appended at the END, so the original's field
order is NOT preserved as the claim asserts (the copy itself is
correct: it drops the holder). -/
theorem C9_counterexample :
    c9St.fields.map IRField.name = ["layers", "a"] ∧
    (mapCopyBase c9St []).1.fields.map IRField.name = ["a", "layers"] ∧
    (mapCopyBase c9St []).2.fields.map IRField.name = ["a"] := by decide

/-- Witness for C9: the amended characterization holds at the concrete
two-field map, with every hypothesis discharged by computation. -/
theorem C9_copybase_witness :
    (mapCopyBase c9St []).2 = IRMap.mk
      ((mapAt c9St []).fields.filter (fun f => !isHolderName f.name))
      (mapAt c9St []).edges ∧
    (mapCopyBase c9St []).1 = modifyMapAt c9St [] (fun _ => IRMap.mk
      ((mapAt c9St []).fields.filter (fun f => !isHolderName f.name)
        ++ ((mapAt c9St []).fields.find? (fun f => eqFold f.name "layers")).toList
        ++ ((mapAt c9St []).fields.find? (fun f => eqFold f.name "scenarios")).toList
        ++ ((mapAt c9St []).fields.find? (fun f => eqFold f.name "steps")).toList)
      (mapAt c9St []).edges) :=
  C9_copybase c9St [] (by decide) (by decide) (by decide) (by decide)

end D2Ir

namespace D2Ir

theorem anc_nil_of_lastFld_none : ∀ (l : Loc) (m : IRMap),
    lastFld l = none → ancFldNames m l = [] := by
  intro l
  induction l with
  | nil => intro m _; rfl
  | cons s l ih =>
    intro m h
    cases s with
    | fld i =>
      exfalso
      simp only [lastFld] at h
      rcases hl : lastFld l with _ | ⟨p, j⟩ <;> rw [hl] at h <;> simp at h
    | edg i =>
      simp only [lastFld] at h
      rcases hl : lastFld l with _ | ⟨p, j⟩
      · simp only [ancFldNames]
        rcases hc : childMap m (.edg i) with _ | mm
        · rfl
        · exact ih mm hl
      · rw [hl] at h
        simp at h

theorem lastFld_decomp : ∀ (l pre : Loc) (j : Nat),
    lastFld l = some (pre, j) → ∃ t, l = pre ++ Step.fld j :: t := by
  intro l
  induction l with
  | nil => intro pre j h; cases h
  | cons s l ih =>
    intro pre j h
    cases s with
    | fld i =>
      simp only [lastFld] at h
      rcases hl : lastFld l with _ | ⟨p, j'⟩ <;> rw [hl] at h <;>
        simp only [Option.some.injEq, Prod.mk.injEq] at h
      · obtain ⟨rfl, rfl⟩ := h
        exact ⟨l, rfl⟩
      · obtain ⟨rfl, rfl⟩ := h
        rcases ih p j' hl with ⟨t, rfl⟩
        exact ⟨t, rfl⟩
    | edg i =>
      simp only [lastFld] at h
      rcases hl : lastFld l with _ | ⟨p, j'⟩ <;> rw [hl] at h
      · cases h
      · simp only [Option.some.injEq, Prod.mk.injEq] at h
        obtain ⟨rfl, rfl⟩ := h
        rcases ih p j' hl with ⟨t, rfl⟩
        exact ⟨t, rfl⟩

theorem validMapLoc_append : ∀ (l1 l2 : Loc) (st : IRMap),
    validMapLoc st (l1 ++ l2) = true → validMapLoc st l1 = true := by
  intro l1
  induction l1 with
  | nil => intro l2 st _; rfl
  | cons s l1 ih =>
    intro l2 st hv
    rcases validMapLoc_cons hv with ⟨mm, hc, hv2⟩
    simp only [validMapLoc, getMapAt, hc]
    exact ih l2 mm hv2

/-- For a valid location, the ancestor-field-name list unrolls as a
parent-link walk: the nearest owning Field is `lastFld` and the rest of
the list is the walk from just above it. -/
theorem ancFldNames_walk : ∀ (l : Loc) (st : IRMap), validMapLoc st l = true →
    ancFldNames st l =
      (match lastFld l with
      | none => []
      | some (pre, j) => fieldNameAt st pre j :: ancFldNames st pre) := by
  intro l
  induction l with
  | nil => intro st _; rfl
  | cons s l ih =>
    intro st hv
    rcases validMapLoc_cons hv with ⟨mm, hc, hv2⟩
    cases s with
    | fld i =>
      rcases hl : lastFld l with _ | ⟨p, j⟩
      · have h0 : ancFldNames mm l = [] := anc_nil_of_lastFld_none l mm hl
        simp only [ancFldNames, lastFld, hl, hc, h0]
        rfl
      · simp only [ancFldNames, lastFld, hl, hc, ih mm hv2,
          fieldNameAt_cons p j hc]
        rfl
    | edg i =>
      rcases hl : lastFld l with _ | ⟨p, j⟩
      · have h0 : ancFldNames mm l = [] := anc_nil_of_lastFld_none l mm hl
        simp only [ancFldNames, lastFld, hl, hc, h0]
      · simp only [ancFldNames, lastFld, hl, hc, ih mm hv2,
          fieldNameAt_cons p j hc]

end D2Ir

namespace D2Ir

/-- C5 amended: NodeBoardKind walks parent links and is decided by the
name of the SECOND owning Field above a Map node (the first above a
Field node), with the synthetic root Field giving `layer`: a Map node is
a `layer` iff its parent walk hits the root Field directly or its
grandparent owning Field is named `layers` ANYWHERE in the tree (the
claim's "at the root" restriction is not checked); `scenario`/`step`
iff that grandparent is named `scenarios`/`steps`; blank otherwise.
For Field nodes the parent owning Field's name decides, and the
synthetic root Field itself is a `layer`. -/
theorem C5_board_kind (st : IRMap) (l : Loc) (i : Nat)
    (hv : validMapLoc st l = true) :
    (nodeBoardKindAt st (.nmap l) =
      (match lastFld l with
      | none => BoardKind.layer
      | some (pre, _) =>
        match lastFld pre with
        | none => BoardKind.blank
        | some (pre2, j2) => boardKindOfName (fieldNameAt st pre2 j2))) ∧
    (nodeBoardKindAt st (.nfld l i) =
      (match lastFld l with
      | none => BoardKind.blank
      | some (pre, j) => boardKindOfName (fieldNameAt st pre j))) ∧
    nodeBoardKindAt st NodeLoc.nrootfld = BoardKind.layer := by
  have hwalk := ancFldNames_walk l st hv
  refine ⟨?_, ?_, rfl⟩
  · show nodeBoardKindMapAt st l = _
    rw [nodeBoardKindMapAt, hwalk]
    rcases hl : lastFld l with _ | ⟨pre, j⟩
    · rfl
    · have hpre : validMapLoc st pre = true := by
        rcases lastFld_decomp l pre j hl with ⟨t, rfl⟩
        exact validMapLoc_append pre _ st hv
      dsimp only
      rw [ancFldNames_walk pre st hpre]
      rcases hl2 : lastFld pre with _ | ⟨pre2, j2⟩ <;> rfl
  · simp only [nodeBoardKindAt]
    rw [hwalk]
    rcases hl : lastFld l with _ | ⟨pre, j⟩ <;> rfl

/-- A tree `{x: {layers: {y: {}}}}`: the `layers` container sits under
`x`, not at the root. -/
def c5St : IRMap := IRMap.mk
  [IRField.mk "x" none (some (.cmap (IRMap.mk
    [IRField.mk "layers" none (some (.cmap (IRMap.mk
      [IRField.mk "y" none (some (.cmap (IRMap.mk [] []))) []] []))) []] []))) []] []

/-- C5 counterexample: the map of `y` in `{x: {layers: {y: {}}}}` gets
board kind `layer` from the code although it is not the tree root and
the `layers` container above it is at `x.layers`, not at the root (the
root's only field is `x`). -/
theorem C5_counterexample :
    nodeBoardKindAt c5St (.nmap [Step.fld 0, Step.fld 0, Step.fld 0]) = .layer ∧
    lastFld [Step.fld 0, Step.fld 0, Step.fld 0] = some ([Step.fld 0, Step.fld 0], 0) ∧
    lastFld [Step.fld 0, Step.fld 0] = some ([Step.fld 0], 0) ∧
    fieldNameAt c5St [Step.fld 0] 0 = "layers" ∧
    ([Step.fld 0] : Loc) ≠ [] ∧
    c5St.fields.map IRField.name = ["x"] := by decide

/-- Witness for C5: the parent-walk characterization evaluated at the
concrete nested tree. -/
theorem C5_board_kind_witness :
    (nodeBoardKindAt c5St (.nmap [Step.fld 0, Step.fld 0, Step.fld 0]) =
      (match lastFld [Step.fld 0, Step.fld 0, Step.fld 0] with
      | none => BoardKind.layer
      | some (pre, _) =>
        match lastFld pre with
        | none => BoardKind.blank
        | some (pre2, j2) => boardKindOfName (fieldNameAt c5St pre2 j2))) ∧
    (nodeBoardKindAt c5St (.nfld [Step.fld 0, Step.fld 0, Step.fld 0] 0) =
      (match lastFld [Step.fld 0, Step.fld 0, Step.fld 0] with
      | none => BoardKind.blank
      | some (pre, j) => boardKindOfName (fieldNameAt c5St pre j))) ∧
    nodeBoardKindAt c5St NodeLoc.nrootfld = BoardKind.layer :=
  C5_board_kind c5St [Step.fld 0, Step.fld 0, Step.fld 0] 0 (by decide)

end D2Ir

namespace D2Ir

theorem mapAt_emptyMap : ∀ l : Loc, mapAt emptyMap l = emptyMap := by
  intro l
  cases l with
  | nil => rfl
  | cons s l => cases s <;> rfl

theorem mapAt_cons2 (a : IRMap) (s : Step) (l : Loc) :
    mapAt a (s :: l) = mapAt ((childMap a s).getD emptyMap) l := by
  rcases hc : childMap a s with _ | mm
  · show mapAt a (s :: l) = mapAt emptyMap l
    rw [mapAt_emptyMap]
    simp [mapAt, getMapAt, hc]
  · rw [mapAt_cons l hc]
    rfl

theorem listModify_get?_other {α : Type} (g : α → α) :
    ∀ (i j : Nat) (l : List α), i ≠ j → (listModify g i l).get? j = l.get? j := by
  intro i j l
  induction l generalizing i j with
  | nil => intro _; simp [listModify]
  | cons a l ih =>
    intro hne
    rcases i with _ | i <;> rcases j with _ | j
    · exact absurd rfl hne
    · simp [listModify]
    · simp [listModify]
    · simpa [listModify] using ih i j (by omega)

theorem get?_listModify_none {α : Type} (g : α → α) :
    ∀ (i : Nat) (l : List α), l.get? i = none → (listModify g i l).get? i = none := by
  intro i l
  induction l generalizing i with
  | nil => intro _; cases i <;> rfl
  | cons a l ih =>
    intro h
    rcases i with _ | i
    · simp at h
    · simpa [listModify] using ih i (by simpa using h)

theorem names_listModify (g : IRField → IRField)
    (hg : ∀ x, (g x).name = x.name) :
    ∀ (i : Nat) (l : List IRField),
      (listModify g i l).map IRField.name = l.map IRField.name := by
  intro i l
  induction l generalizing i with
  | nil => cases i <;> rfl
  | cons a l ih =>
    rcases i with _ | i
    · simp [listModify, hg]
    · simp [listModify, ih i]

/-- Two map values have the same field names at every location. -/
def namesEq (a b : IRMap) : Prop :=
  ∀ l : Loc, (mapAt a l).fields.map IRField.name = (mapAt b l).fields.map IRField.name

theorem namesEq_refl (a : IRMap) : namesEq a a := fun _ => rfl

theorem namesEq_trans {a b c : IRMap} (h1 : namesEq a b) (h2 : namesEq b c) :
    namesEq a c := fun l => (h1 l).trans (h2 l)

theorem namesEq_step {a b : IRMap}
    (h0 : a.fields.map IRField.name = b.fields.map IRField.name)
    (h1 : ∀ s : Step,
      namesEq ((childMap a s).getD emptyMap) ((childMap b s).getD emptyMap)) :
    namesEq a b := by
  intro l
  cases l with
  | nil => exact h0
  | cons s l =>
    rw [mapAt_cons2, mapAt_cons2]
    exact h1 s l

theorem childMap_appendRefL (m : IRMap) (j : Nat) (c : CtxId) :
    ∀ s, childMap (appendRefL m j c) s = childMap m s := by
  intro s
  cases s with
  | fld i =>
    show childMap (IRMap.mk (listModify _ j m.fields) m.edges) (.fld i) = _
    simp only [childMap, IRMap.fields_mk]
    rcases hij : decide (j = i) with _ | _
    · have hne : j ≠ i := of_decide_eq_false hij
      rw [listModify_get?_other _ j i _ hne]
    · have heq : j = i := of_decide_eq_true hij
      subst heq
      rcases hx : m.fields.get? j with _ | f
      · rw [get?_listModify_none _ j m.fields hx]
      · rw [listModify_get?_self _ j m.fields f hx]
        rfl
  | edg i => rfl

theorem namesEq_appendRefL (m : IRMap) (j : Nat) (c : CtxId) :
    namesEq (appendRefL m j c) m := by
  apply namesEq_step
  · exact names_listModify
      (fun f => IRField.mk f.name f.primary f.composite (f.refs ++ [c]))
      (fun x => rfl) j m.fields
  · intro s
    rw [childMap_appendRefL m j c s]
    exact namesEq_refl _

theorem namesEq_vivifyL (m : IRMap) (j : Nat) : namesEq (vivifyL m j) m := by
  apply namesEq_step
  · refine names_listModify _ ?_ j m.fields
    intro x
    rcases x with ⟨n, p, comp, r⟩
    rcases comp with _ | comp
    · rfl
    · rcases comp with mm | ar <;> rfl
  · intro s
    cases s with
    | edg i => exact namesEq_refl _
    | fld i =>
      show namesEq ((childMap (IRMap.mk (listModify _ j m.fields) m.edges) (.fld i)).getD
        emptyMap) _
      simp only [childMap, IRMap.fields_mk]
      rcases hij : decide (j = i) with _ | _
      · have hne : j ≠ i := of_decide_eq_false hij
        rw [listModify_get?_other _ j i _ hne]
        exact namesEq_refl _
      · have heq : j = i := of_decide_eq_true hij
        subst heq
        rcases hx : m.fields.get? j with _ | f
        · rw [get?_listModify_none _ j m.fields hx]
          exact namesEq_refl _
        · rw [listModify_get?_self _ j m.fields f hx]
          rcases f with ⟨n, p, comp, r⟩
          rcases comp with _ | comp
          · exact namesEq_refl _
          · rcases comp with mm | ar
            · exact namesEq_refl _
            · exact namesEq_refl _

end D2Ir

namespace D2Ir

theorem isSome_get?_len {α β : Type} {l1 : List α} {l2 : List β}
    (h : l1.length = l2.length) (j : Nat) :
    (l1.get? j).isSome = (l2.get? j).isSome := by
  rcases Nat.lt_or_ge j l1.length with hlt | hge
  · have h1 : l1.get? j = some (l1.get ⟨j, hlt⟩) := List.get?_eq_get hlt
    have h2 : l2.get? j = some (l2.get ⟨j, h ▸ hlt⟩) := List.get?_eq_get (h ▸ hlt)
    rw [h1, h2]
    rfl
  · have h1 : l1.get? j = none := List.get?_eq_none.mpr hge
    have h2 : l2.get? j = none := List.get?_eq_none.mpr (h ▸ hge)
    rw [h1, h2]
    rfl

theorem childMap_fld (m : IRMap) (j : Nat) :
    childMap m (.fld j) = (m.fields.get? j).bind getCompMap := by
  rcases h : m.fields.get? j with _ | f
  · simp only [childMap, h]
    rfl
  · simp only [childMap, h, Option.bind]
    rcases f with ⟨n, p, comp, r⟩
    rcases comp with _ | comp
    · rfl
    · rcases comp with mm | ar <;> rfl

theorem childMap_setChildMap_other {m : IRMap} {s t : Step} (x : IRMap)
    (hne : t ≠ s) : childMap (setChildMap m s x) t = childMap m t := by
  cases s with
  | fld i =>
    cases t with
    | fld i2 =>
      have hii : i ≠ i2 := fun h => hne (by rw [h])
      show childMap (IRMap.mk (listModify _ i m.fields) m.edges) (.fld i2) = _
      simp only [childMap, IRMap.fields_mk, listModify_get?_other _ i i2 _ hii]
    | edg i2 => rfl
  | edg i =>
    cases t with
    | fld i2 => rfl
    | edg i2 =>
      have hii : i ≠ i2 := fun h => hne (by rw [h])
      show childMap (IRMap.mk m.fields (listModify _ i m.edges)) (.edg i2) = _
      simp only [childMap, IRMap.edges_mk, listModify_get?_other _ i i2 _ hii]

theorem namesEq_setChild {m : IRMap} {s : Step} {x mm : IRMap}
    (hc : childMap m s = some mm) (hx : namesEq x mm) :
    namesEq (setChildMap m s x) m := by
  apply namesEq_step
  · cases s with
    | fld i =>
      exact names_listModify
        (fun f => IRField.mk f.name f.primary (some (.cmap x)) f.refs)
        (fun f => rfl) i m.fields
    | edg i => rfl
  · intro t
    rcases hts : decide (t = s) with _ | _
    · rw [childMap_setChildMap_other x (of_decide_eq_false hts)]
      exact namesEq_refl _
    · have := of_decide_eq_true hts
      subst this
      rw [childMap_setChildMap_same x hc, hc]
      exact hx

theorem namesEq_modify : ∀ (l : Loc) (st x : IRMap), namesEq x (mapAt st l) →
    namesEq (modifyMapAt st l (fun _ => x)) st := by
  intro l
  induction l with
  | nil => intro st x hx; exact hx
  | cons s l ih =>
    intro st x hx
    show namesEq (match childMap st s with
      | some mm => setChildMap st s (modifyMapAt mm l (fun _ => x))
      | none => st) st
    rcases hc : childMap st s with _ | mm
    · exact namesEq_refl _
    · rw [mapAt_cons l hc] at hx
      exact namesEq_setChild hc (ih mm x hx)

theorem relMapAt_eq : ∀ (p : List Nat) (m : IRMap),
    relMapAt m p = mapAt m (p.map Step.fld) := by
  intro p
  induction p with
  | nil => intro m; rfl
  | cons j p ih =>
    intro m
    show relMapAt (((m.fields.get? j).bind getCompMap).getD emptyMap) p = _
    rw [List.map_cons, mapAt_cons2, childMap_fld]
    exact ih _

theorem namesEq_relValid {a b : IRMap} (h : namesEq a b) (rl : RelFL) :
    (relFieldGet a rl).isSome = (relFieldGet b rl).isSome := by
  rcases hs : relSplit rl with ⟨p, k⟩
  show ((relMapAt a (relSplit rl).1).fields.get? (relSplit rl).2).isSome
    = ((relMapAt b (relSplit rl).1).fields.get? (relSplit rl).2).isSome
  rw [hs]
  simp only [relMapAt_eq]
  refine isSome_get?_len ?_ k
  have hn := h (p.map Step.fld)
  calc (mapAt a (p.map Step.fld)).fields.length
      = ((mapAt a (p.map Step.fld)).fields.map IRField.name).length := by
        rw [List.length_map]
    _ = ((mapAt b (p.map Step.fld)).fields.map IRField.name).length := by rw [hn]
    _ = (mapAt b (p.map Step.fld)).fields.length := by rw [List.length_map]

theorem relFieldGet_cons (m : IRMap) (j jj : Nat) (rl : RelFL) :
    relFieldGet m (j :: jj :: rl)
      = relFieldGet (((m.fields.get? j).bind getCompMap).getD emptyMap) (jj :: rl) := by
  rcases hs : relSplit (jj :: rl) with ⟨p, k⟩
  simp only [relFieldGet, relSplit, hs, relMapAt]

end D2Ir

namespace D2Ir

theorem opt_eq_some_getD {α : Type} {o : Option α} (h : o.isSome = true) (e : α) :
    o = some (o.getD e) := by
  cases o
  · cases h
  · rfl

theorem relMapAt_empty : ∀ p : List Nat, relMapAt emptyMap p = emptyMap := by
  intro p
  induction p with
  | nil => rfl
  | cons j p ih =>
    show relMapAt (((emptyMap.fields.get? j).bind getCompMap).getD emptyMap) p = _
    have h : emptyMap.fields.get? j = none := by cases j <;> rfl
    rw [h]
    exact ih

theorem relFieldGet_empty (rl : RelFL) : (relFieldGet emptyMap rl).isSome = false := by
  rcases hs : relSplit rl with ⟨p, k⟩
  simp only [relFieldGet, hs, relMapAt_empty]
  cases k <;> rfl

theorem vivify_get? (m : IRMap) (j : Nat) (f : IRField)
    (hx : m.fields.get? j = some f) :
    (vivifyL m j).fields.get? j
      = some (match f.composite with
          | some (.cmap _) => f
          | _ => IRField.mk f.name f.primary (some (.cmap emptyMap)) f.refs) := by
  show (IRMap.mk (listModify _ j m.fields) m.edges).fields.get? j = _
  simp only [IRMap.fields_mk]
  exact listModify_get?_self _ j m.fields f hx

theorem refStep (m : IRMap) (j : Nat) (f : IRField) (rc : Option CtxId)
    (hx : m.fields.get? j = some f) :
    namesEq (match rc with | some c => appendRefL m j c | none => m) m
    ∧ ∃ f1 : IRField,
        (match rc with | some c => appendRefL m j c | none => m).fields.get? j = some f1
        ∧ f1.composite = f.composite := by
  rcases rc with _ | c
  · exact ⟨namesEq_refl m, f, hx, rfl⟩
  · refine ⟨namesEq_appendRefL m j c,
      IRField.mk f.name f.primary f.composite (f.refs ++ [c]), ?_, rfl⟩
    show (IRMap.mk (listModify _ j m.fields) m.edges).fields.get? j = _
    simp only [IRMap.fields_mk]
    exact listModify_get?_self _ j m.fields f hx

end D2Ir

namespace D2Ir

theorem ensureGlobLoop_inv (rest : List PathSeg) (parts : List GPart) (rc : Option CtxId)
    (hrec : ∀ (m : IRMap) (ctx : List String) (m' : IRMap) (fa : List RelFL),
      ensureFieldGo rest m ctx rc false = .ok (m', fa) →
      namesEq m' m ∧ ∀ rl ∈ fa, (relFieldGet m rl).isSome = true) :
    ∀ (js : List Nat) (m : IRMap) (ctx : List String) (m' : IRMap) (fa : List RelFL),
      ensureGlobLoop (fun sub c => ensureFieldGo rest sub c rc false) parts ctx js m
        = .ok (m', fa) →
      namesEq m' m ∧ ∀ rl ∈ fa, (relFieldGet m rl).isSome = true := by
  intro js
  induction js with
  | nil =>
    intro m ctx m' fa h
    simp only [ensureGlobLoop] at h
    cases h
    exact ⟨namesEq_refl m, fun rl hrl => absurd hrl (List.not_mem_nil rl)⟩
  | cons j js ih =>
    intro m ctx m' fa h
    simp only [ensureGlobLoop] at h
    rcases hg : m.fields.get? j with _ | f
    · rw [hg] at h
      exact ih m ctx m' fa h
    · rw [hg] at h
      dsimp only at h
      rcases hmp : matchPattern f.name parts with _ | _
      · rw [hmp] at h
        simp only [Bool.false_eq_true, if_false] at h
        exact ih m ctx m' fa h
      · rw [hmp] at h
        simp only [if_true] at h
        rcases hr : ensureFieldGo rest
            ((((vivifyL m j).fields.get? j).bind getCompMap).getD emptyMap)
            (f.name :: ctx) rc false with e | p1
        · rw [hr] at h
          cases h
        · rcases p1 with ⟨sub', fa0⟩
          rw [hr] at h
          dsimp only at h
          rcases hl : ensureGlobLoop (fun sub c => ensureFieldGo rest sub c rc false)
              parts ctx js
              (setChildMap (vivifyL m j) (.fld j) sub') with e | p2
          · rw [hl] at h
            cases h
          · rcases p2 with ⟨m3, fa2⟩
            rw [hl] at h
            dsimp only at h
            cases h
            -- invariants
            have hviv : namesEq (vivifyL m j) m := namesEq_vivifyL m j
            have hbind : (((vivifyL m j).fields.get? j).bind getCompMap).isSome = true := by
              rw [vivify_get? m j f hg]
              rcases f with ⟨n, p, comp, r⟩
              rcases comp with _ | comp
              · rfl
              · rcases comp with mm | ar <;> rfl
            have hc2 : childMap (vivifyL m j) (.fld j)
                = some ((((vivifyL m j).fields.get? j).bind getCompMap).getD emptyMap) := by
              rw [childMap_fld]
              exact opt_eq_some_getD hbind emptyMap
            rcases hrec _ _ _ _ hr with ⟨hsub, hfa0⟩
            have hset : namesEq (setChildMap (vivifyL m j) (.fld j) sub') m :=
              namesEq_trans (namesEq_setChild hc2 hsub) hviv
            rcases ih _ _ _ _ hl with ⟨hm3, hfa2⟩
            constructor
            · exact namesEq_trans hm3 hset
            · intro rl hrl
              rcases List.mem_append.mp hrl with hrl0 | hrl2
              · rcases List.mem_map.mp hrl0 with ⟨rl0, hrl0m, rfl⟩
                have hv0 := hfa0 rl0 hrl0m
                have hvm1 : (relFieldGet (vivifyL m j) (j :: rl0)).isSome = true := by
                  cases rl0 with
                  | nil =>
                    show ((relMapAt (vivifyL m j) []).fields.get? j).isSome = true
                    show ((vivifyL m j).fields.get? j).isSome = true
                    rw [vivify_get? m j f hg]
                    rfl
                  | cons jj rl1 =>
                    rw [relFieldGet_cons]
                    exact hv0
                rw [← namesEq_relValid hviv (j :: rl0)]
                exact hvm1
              · have := hfa2 rl hrl2
                rw [← namesEq_relValid hset rl]
                exact this

end D2Ir

namespace D2Ir

theorem litStep (m m1 : IRMap) (j : Nat) (f1 : IRField)
    (hm1 : namesEq m1 m) (hf1 : m1.fields.get? j = some f1)
    (sub' : IRMap) (fa0 : List RelFL)
    (hsub : namesEq sub' ((((vivifyL m1 j).fields.get? j).bind getCompMap).getD emptyMap))
    (hfa0 : ∀ rl ∈ fa0, (relFieldGet
      ((((vivifyL m1 j).fields.get? j).bind getCompMap).getD emptyMap) rl).isSome = true) :
    namesEq (setChildMap (vivifyL m1 j) (.fld j) sub') m
    ∧ ∀ rl ∈ fa0.map (fun rl0 => j :: rl0), (relFieldGet m rl).isSome = true := by
  have hbind : (((vivifyL m1 j).fields.get? j).bind getCompMap).isSome = true := by
    rw [vivify_get? m1 j f1 hf1]
    rcases f1 with ⟨n, p, comp, r⟩
    rcases comp with _ | comp
    · rfl
    · rcases comp with mm | ar <;> rfl
  have hc2 : childMap (vivifyL m1 j) (.fld j)
      = some ((((vivifyL m1 j).fields.get? j).bind getCompMap).getD emptyMap) := by
    rw [childMap_fld]
    exact opt_eq_some_getD hbind emptyMap
  have hviv : namesEq (vivifyL m1 j) m := namesEq_trans (namesEq_vivifyL m1 j) hm1
  constructor
  · exact namesEq_trans (namesEq_setChild hc2 hsub) hviv
  · intro rl hrl
    rcases List.mem_map.mp hrl with ⟨rl0, hrl0m, rfl⟩
    have hv0 := hfa0 rl0 hrl0m
    have hvm1 : (relFieldGet (vivifyL m1 j) (j :: rl0)).isSome = true := by
      cases rl0 with
      | nil =>
        show ((vivifyL m1 j).fields.get? j).isSome = true
        rw [vivify_get? m1 j f1 hf1]
        rfl
      | cons jj rl1 =>
        rw [relFieldGet_cons]
        exact hv0
    rw [← namesEq_relValid hviv (j :: rl0)]
    exact hvm1

theorem ensure_noCreate : ∀ (segs : List PathSeg) (m : IRMap) (ctx : List String)
    (rc : Option CtxId) (m' : IRMap) (fa : List RelFL),
    (∀ s ∈ segs, s ≠ PathSeg.dglob) →
    ensureFieldGo segs m ctx rc false = .ok (m', fa) →
    namesEq m' m ∧ ∀ rl ∈ fa, (relFieldGet m rl).isSome = true := by
  intro segs
  induction segs with
  | nil =>
    intro m ctx rc m' fa _ h
    simp only [ensureFieldGo] at h
    cases h
    exact ⟨namesEq_refl m, fun rl hrl => absurd hrl (List.not_mem_nil rl)⟩
  | cons seg rest ih =>
    intro m ctx rc m' fa hnd h
    have hrest : ∀ s ∈ rest, s ≠ PathSeg.dglob :=
      fun s hs => hnd s (List.mem_cons_of_mem _ hs)
    cases seg with
    | dglob => exact absurd rfl (hnd .dglob (List.mem_cons_self _ _))
    | pat parts =>
      simp only [ensureFieldGo] at h
      rcases hre : rest.isEmpty with _ | _
      · rw [hre] at h
        simp only [Bool.false_eq_true, if_false] at h
        exact ensureGlobLoop_inv rest parts rc
          (fun m2 c2 m2' fa2 h2 => ih m2 c2 rc m2' fa2 hrest h2)
          (List.range m.fields.length) m ctx m' fa h
      · rw [hre] at h
        simp only [if_true] at h
        cases h
        refine ⟨namesEq_refl m, ?_⟩
        intro rl hrl
        rcases List.mem_filterMap.mp hrl with ⟨j, hjr, hj⟩
        rcases hget : m.fields.get? j with _ | f
        · rw [hget] at hj
          cases hj
        · rw [hget] at hj
          dsimp only at hj
          rcases hm : matchPattern f.name parts with _ | _
          · rw [hm] at hj
            simp at hj
          · rw [hm] at hj
            simp only [if_true] at hj
            cases hj
            have he : relFieldGet m [j] = m.fields.get? j := rfl
            rw [he, hget]
            rfl
    | lit head0 =>
      simp only [ensureFieldGo] at h
      rcases hres : ReservedKeywords.contains (lowerStr head0) with _ | _
      · rw [hres] at h
        simp only [Bool.false_and, Bool.false_eq_true, if_false] at h
        split at h
        · cases h
        split at h
        · cases h
        split at h
        · cases h
        rcases hfi : findIdxFold (head0) m.fields with _ | j
        · rw [hfi] at h
          replace h : (Except.ok (m, ([] : List RelFL))
              : Except EnsErr (IRMap × List RelFL)) = .ok (m', fa) := h
          cases h
          exact ⟨namesEq_refl m, fun rl hrl => absurd hrl (List.not_mem_nil rl)⟩
        · rw [hfi] at h
          dsimp only at h
          rcases hget : m.fields.get? j with _ | f
          · rw [hget] at h
            dsimp only at h
            cases h
            exact ⟨namesEq_refl m, fun rl hrl => absurd hrl (List.not_mem_nil rl)⟩
          · rw [hget] at h
            dsimp only at h
            rcases rc with _ | c
            · dsimp only at h
              rcases hre : rest.isEmpty with _ | _
              · rw [hre] at h
                simp only [Bool.false_eq_true, if_false] at h
                rcases hr : ensureFieldGo rest
                    ((((vivifyL (m) j).fields.get? j).bind getCompMap).getD emptyMap)
                    (f.name :: ctx) none false with e | p1
                · rw [hr] at h
                  rcases hcomp : f.composite with _ | comp
                  · rw [hcomp] at h
                    cases h
                  · rcases comp with mm | ar <;> rw [hcomp] at h <;> cases h
                · rcases p1 with ⟨sub', fa0⟩
                  rw [hr] at h
                  rcases ih _ _ _ _ _ hrest hr with ⟨hsub, hfa0⟩
                  have hstep := litStep m (m) j (f)
                    (namesEq_refl m) (hget) sub' fa0 hsub hfa0
                  rcases hcomp : f.composite with _ | comp
                  · rw [hcomp] at h
                    dsimp only at h
                    cases h
                    exact hstep
                  · rcases comp with mm | ar
                    · rw [hcomp] at h
                      dsimp only at h
                      cases h
                      exact hstep
                    · rw [hcomp] at h
                      cases h
              · rw [hre] at h
                simp only [if_true] at h
                cases h
                refine ⟨namesEq_refl m, ?_⟩
                intro rl hrl
                rcases List.mem_singleton.mp hrl with rfl
                have he : relFieldGet m [j] = m.fields.get? j := rfl
                rw [he, hget]
                rfl
            · dsimp only at h
              have hf1 : (appendRefL m j c).fields.get? j
                  = some (IRField.mk f.name f.primary f.composite (f.refs ++ [c])) := by
                show (IRMap.mk (listModify _ j m.fields) m.edges).fields.get? j = _
                simp only [IRMap.fields_mk]
                exact listModify_get?_self _ j m.fields f hget
              rcases hre : rest.isEmpty with _ | _
              · rw [hre] at h
                simp only [Bool.false_eq_true, if_false] at h
                rcases hr : ensureFieldGo rest
                    ((((vivifyL (appendRefL m j c) j).fields.get? j).bind getCompMap).getD emptyMap)
                    (f.name :: ctx) (some c) false with e | p1
                · rw [hr] at h
                  rcases hcomp : f.composite with _ | comp
                  · rw [hcomp] at h
                    cases h
                  · rcases comp with mm | ar <;> rw [hcomp] at h <;> cases h
                · rcases p1 with ⟨sub', fa0⟩
                  rw [hr] at h
                  rcases ih _ _ _ _ _ hrest hr with ⟨hsub, hfa0⟩
                  have hstep := litStep m (appendRefL m j c) j (IRField.mk f.name f.primary f.composite (f.refs ++ [c]))
                    (namesEq_appendRefL m j c) (hf1) sub' fa0 hsub hfa0
                  rcases hcomp : f.composite with _ | comp
                  · rw [hcomp] at h
                    dsimp only at h
                    cases h
                    exact hstep
                  · rcases comp with mm | ar
                    · rw [hcomp] at h
                      dsimp only at h
                      cases h
                      exact hstep
                    · rw [hcomp] at h
                      cases h
              · rw [hre] at h
                simp only [if_true] at h
                cases h
                refine ⟨namesEq_appendRefL m j c, ?_⟩
                intro rl hrl
                rcases List.mem_singleton.mp hrl with rfl
                have he : relFieldGet m [j] = m.fields.get? j := rfl
                rw [he, hget]
                rfl
      · rw [hres] at h
        simp only [Bool.true_and, if_true] at h
        split at h
        · cases h
        split at h
        · cases h
        split at h
        · cases h
        split at h
        · cases h
        rcases hfi : findIdxFold (lowerStr head0) m.fields with _ | j
        · rw [hfi] at h
          replace h : (Except.ok (m, ([] : List RelFL))
              : Except EnsErr (IRMap × List RelFL)) = .ok (m', fa) := h
          cases h
          exact ⟨namesEq_refl m, fun rl hrl => absurd hrl (List.not_mem_nil rl)⟩
        · rw [hfi] at h
          dsimp only at h
          rcases hget : m.fields.get? j with _ | f
          · rw [hget] at h
            dsimp only at h
            cases h
            exact ⟨namesEq_refl m, fun rl hrl => absurd hrl (List.not_mem_nil rl)⟩
          · rw [hget] at h
            dsimp only at h
            rcases rc with _ | c
            · dsimp only at h
              rcases hre : rest.isEmpty with _ | _
              · rw [hre] at h
                simp only [Bool.false_eq_true, if_false] at h
                rcases hr : ensureFieldGo rest
                    ((((vivifyL (m) j).fields.get? j).bind getCompMap).getD emptyMap)
                    (f.name :: ctx) none false with e | p1
                · rw [hr] at h
                  rcases hcomp : f.composite with _ | comp
                  · rw [hcomp] at h
                    cases h
                  · rcases comp with mm | ar <;> rw [hcomp] at h <;> cases h
                · rcases p1 with ⟨sub', fa0⟩
                  rw [hr] at h
                  rcases ih _ _ _ _ _ hrest hr with ⟨hsub, hfa0⟩
                  have hstep := litStep m (m) j (f)
                    (namesEq_refl m) (hget) sub' fa0 hsub hfa0
                  rcases hcomp : f.composite with _ | comp
                  · rw [hcomp] at h
                    dsimp only at h
                    cases h
                    exact hstep
                  · rcases comp with mm | ar
                    · rw [hcomp] at h
                      dsimp only at h
                      cases h
                      exact hstep
                    · rw [hcomp] at h
                      cases h
              · rw [hre] at h
                simp only [if_true] at h
                cases h
                refine ⟨namesEq_refl m, ?_⟩
                intro rl hrl
                rcases List.mem_singleton.mp hrl with rfl
                have he : relFieldGet m [j] = m.fields.get? j := rfl
                rw [he, hget]
                rfl
            · dsimp only at h
              have hf1 : (appendRefL m j c).fields.get? j
                  = some (IRField.mk f.name f.primary f.composite (f.refs ++ [c])) := by
                show (IRMap.mk (listModify _ j m.fields) m.edges).fields.get? j = _
                simp only [IRMap.fields_mk]
                exact listModify_get?_self _ j m.fields f hget
              rcases hre : rest.isEmpty with _ | _
              · rw [hre] at h
                simp only [Bool.false_eq_true, if_false] at h
                rcases hr : ensureFieldGo rest
                    ((((vivifyL (appendRefL m j c) j).fields.get? j).bind getCompMap).getD emptyMap)
                    (f.name :: ctx) (some c) false with e | p1
                · rw [hr] at h
                  rcases hcomp : f.composite with _ | comp
                  · rw [hcomp] at h
                    cases h
                  · rcases comp with mm | ar <;> rw [hcomp] at h <;> cases h
                · rcases p1 with ⟨sub', fa0⟩
                  rw [hr] at h
                  rcases ih _ _ _ _ _ hrest hr with ⟨hsub, hfa0⟩
                  have hstep := litStep m (appendRefL m j c) j (IRField.mk f.name f.primary f.composite (f.refs ++ [c]))
                    (namesEq_appendRefL m j c) (hf1) sub' fa0 hsub hfa0
                  rcases hcomp : f.composite with _ | comp
                  · rw [hcomp] at h
                    dsimp only at h
                    cases h
                    exact hstep
                  · rcases comp with mm | ar
                    · rw [hcomp] at h
                      dsimp only at h
                      cases h
                      exact hstep
                    · rw [hcomp] at h
                      cases h
              · rw [hre] at h
                simp only [if_true] at h
                cases h
                refine ⟨namesEq_appendRefL m j c, ?_⟩
                intro rl hrl
                rcases List.mem_singleton.mp hrl with rfl
                have he : relFieldGet m [j] = m.fields.get? j := rfl
                rw [he, hget]
                rfl
end D2Ir

namespace D2Ir

theorem stripUnders_sub : ∀ (kp : List PathSeg) (l : Loc) (segs : List PathSeg) (l' : Loc),
    stripUnders kp l = .ok (segs, l') → ∀ s ∈ segs, s ∈ kp := by
  intro kp
  induction kp with
  | nil => intro l segs l' h; cases h
  | cons seg rest ih =>
    intro l segs l' h
    simp only [stripUnders] at h
    split at h
    · rcases hp : parentMapLoc l with _ | l2
      · rw [hp] at h
        cases h
      · rw [hp] at h
        dsimp only at h
        rcases hre : rest.isEmpty with _ | _
        · rw [hre] at h
          simp only [Bool.false_eq_true, if_false] at h
          intro s hs
          exact List.mem_cons_of_mem _ (ih l2 segs l' h s hs)
        · rw [hre] at h
          simp only [if_true] at h
          cases h
    · cases h
      intro s hs
      exact hs

theorem mapAt_append_one : ∀ (l : Loc) (st : IRMap) (s : Step),
    mapAt st (l ++ [s]) = (childMap (mapAt st l) s).getD emptyMap := by
  intro l
  induction l with
  | nil =>
    intro st s
    exact mapAt_cons2 st s []
  | cons t l ih =>
    intro st s
    rw [List.cons_append, mapAt_cons2, ih, mapAt_cons2 st t l]

theorem relToAbs_valid : ∀ (rl : RelFL) (l : Loc) (st : IRMap),
    (relFieldGet (mapAt st l) rl).isSome = true →
    validFieldLoc st (relToAbs l rl) = true := by
  intro rl
  induction rl with
  | nil =>
    intro l st h
    have hval : validMapLoc st l = true := by
      rcases hg : getMapAt st l with _ | mo
      · have he : mapAt st l = emptyMap := by simp [mapAt, hg]
        rw [he, relFieldGet_empty] at h
        cases h
      · simp [validMapLoc, hg]
    show (validMapLoc st l && (getFieldAt st (l, 0)).isSome) = true
    rw [hval]
    have he : relFieldGet (mapAt st l) [] = (mapAt st l).fields.get? 0 := rfl
    rw [he] at h
    show (true && ((mapAt st l).fields.get? 0).isSome) = true
    rw [h]
    rfl
  | cons j rl2 ih =>
    intro l st h
    cases rl2 with
    | nil =>
      have hval : validMapLoc st l = true := by
        rcases hg : getMapAt st l with _ | mo
        · have he : mapAt st l = emptyMap := by simp [mapAt, hg]
          rw [he, relFieldGet_empty] at h
          cases h
        · simp [validMapLoc, hg]
      show (validMapLoc st l && (getFieldAt st (l, j)).isSome) = true
      rw [hval]
      have he : relFieldGet (mapAt st l) [j] = (mapAt st l).fields.get? j := rfl
      rw [he] at h
      show (true && ((mapAt st l).fields.get? j).isSome) = true
      rw [h]
      rfl
    | cons jj rl3 =>
      show validFieldLoc st (relToAbs (l ++ [Step.fld j]) (jj :: rl3)) = true
      apply ih
      rw [relFieldGet_cons] at h
      rw [mapAt_append_one, childMap_fld]
      exact h

end D2Ir

namespace D2Ir

/-- C10: EnsureField with create=false, on a key path of literal and
single-glob segments, never appends a Field anywhere: every map in the
tree keeps exactly its field names (so nothing is added or removed —
though a traversed Field with no composite map gets an empty one
attached, which changes no field list), and every returned field
location already existed (was valid) in the tree before the call. -/
theorem C10_no_create (st : IRMap) (kp : List PathSeg) (l : Loc) (rc : Option CtxId)
    (st' : IRMap) (fa : List FieldLoc)
    (hnd : ∀ s ∈ kp, s ≠ PathSeg.dglob)
    (hok : mapEnsureField st kp l rc false = .ok (st', fa)) :
    (∀ l2 : Loc, (mapAt st' l2).fields.map IRField.name
        = (mapAt st l2).fields.map IRField.name)
    ∧ ∀ fl ∈ fa, validFieldLoc st fl = true := by
  simp only [mapEnsureField] at hok
  rcases hsu : stripUnders kp l with e | p0
  · rw [hsu] at hok
    cases hok
  · rcases p0 with ⟨segs, l0⟩
    rw [hsu] at hok
    dsimp only at hok
    rcases hef : ensureFieldGo segs (mapAt st l0) (ancFldNames st l0) rc false
        with e | p1
    · rw [hef] at hok
      cases hok
    · rcases p1 with ⟨m1, fa0⟩
      rw [hef] at hok
      dsimp only at hok
      cases hok
      have hnd0 : ∀ s ∈ segs, s ≠ PathSeg.dglob :=
        fun s hs => hnd s (stripUnders_sub kp l segs l0 hsu s hs)
      rcases ensure_noCreate segs (mapAt st l0) (ancFldNames st l0) rc m1 fa0 hnd0 hef
        with ⟨hne, hval⟩
      constructor
      · exact namesEq_modify l0 st m1 hne
      · intro fl hfl
        rcases List.mem_map.mp hfl with ⟨rl, hrl, rfl⟩
        exact relToAbs_valid rl l0 st (hval rl hrl)

end D2Ir

namespace D2Ir

/-- `{a: {b: {}}}` with no references. -/
def c10St : IRMap := IRMap.mk
  [IRField.mk "a" none (some (.cmap (IRMap.mk
    [IRField.mk "b" none none []] []))) []] []

/-- The tree after EnsureField `a.b` with reference context 7 and
create=false: both fields gain the reference, nothing else changes. -/
def c10Res : IRMap := IRMap.mk
  [IRField.mk "a" none (some (.cmap (IRMap.mk
    [IRField.mk "b" none none [7]] []))) [7]] []

/-- Witness for C10: resolving the literal path `a.b` with create=false
finds `b`, leaves every field list unchanged, and returns a location
valid in the original tree. -/
theorem C10_no_create_witness :
    (∀ l2 : Loc, (mapAt c10Res l2).fields.map IRField.name
        = (mapAt c10St l2).fields.map IRField.name)
    ∧ ∀ fl ∈ [(([Step.fld 0] : Loc), 0)], validFieldLoc c10St fl = true :=
  C10_no_create c10St [PathSeg.lit "a", PathSeg.lit "b"] [] (some 7) c10Res
    [([Step.fld 0], 0)] (by decide) (by rfl)

end D2Ir

namespace D2Ir

/-- Pairwise case-insensitive distinctness of a name list. -/
def noDupNames : List String → Bool
  | [] => true
  | n :: ns => ns.all (fun x => !eqFold x n) && noDupNames ns

/-- The resolver's invariant: at every location, the map's field names
are pairwise distinct up to case folding. -/
def invMap (m : IRMap) : Prop :=
  ∀ l : Loc, noDupNames ((mapAt m l).fields.map IRField.name) = true

theorem inv_empty : invMap emptyMap := by
  intro l
  rw [mapAt_emptyMap]
  rfl

theorem inv_of_namesEq {a b : IRMap} (h : namesEq a b) (hb : invMap b) : invMap a := by
  intro l
  rw [h l]
  exact hb l

theorem inv_child {m : IRMap} {s : Step} {mm : IRMap} (h : invMap m)
    (hc : childMap m s = some mm) : invMap mm := by
  intro l
  have h2 := h (s :: l)
  rwa [mapAt_cons l hc] at h2

theorem inv_child_getD {m : IRMap} (s : Step) (h : invMap m) :
    invMap ((childMap m s).getD emptyMap) := by
  rcases hc : childMap m s with _ | mm
  · exact inv_empty
  · exact inv_child h hc

theorem setChild_fld_some {m : IRMap} {j : Nat} {f : IRField} (x : IRMap)
    (hj : m.fields.get? j = some f) :
    childMap (setChildMap m (.fld j) x) (.fld j) = some x := by
  rw [childMap_fld]
  show ((IRMap.mk (listModify _ j m.fields) m.edges).fields.get? j).bind getCompMap = _
  simp only [IRMap.fields_mk]
  rw [listModify_get?_self _ j m.fields f hj]
  rfl

theorem inv_setChild_fld {m x : IRMap} {j : Nat} {f : IRField} (hm : invMap m)
    (hx : invMap x) (hj : m.fields.get? j = some f) :
    invMap (setChildMap m (.fld j) x) := by
  intro l
  cases l with
  | nil =>
    show noDupNames ((setChildMap m (.fld j) x).fields.map IRField.name) = true
    show noDupNames ((IRMap.mk (listModify _ j m.fields) m.edges).fields.map
      IRField.name) = true
    simp only [IRMap.fields_mk]
    rw [names_listModify
      (fun g => IRField.mk g.name g.primary (some (.cmap x)) g.refs)
      (fun g => rfl) j m.fields]
    exact hm []
  | cons s l2 =>
    rw [mapAt_cons2]
    rcases hts : decide (s = Step.fld j) with _ | _
    · rw [childMap_setChildMap_other x (of_decide_eq_false hts)]
      have h2 := hm (s :: l2)
      rwa [mapAt_cons2] at h2
    · have := of_decide_eq_true hts
      subst this
      rw [setChild_fld_some x hj]
      exact hx l2

theorem inv_setChild {m x mm : IRMap} {s : Step} (hm : invMap m) (hx : invMap x)
    (hc : childMap m s = some mm) : invMap (setChildMap m s x) := by
  cases s with
  | fld j =>
    rcases hj : m.fields.get? j with _ | f
    · rw [childMap_fld, hj] at hc
      cases hc
    · exact inv_setChild_fld hm hx hj
  | edg i =>
    intro l
    cases l with
    | nil => exact hm []
    | cons s l2 =>
      rw [mapAt_cons2]
      rcases hts : decide (s = Step.edg i) with _ | _
      · rw [childMap_setChildMap_other x (of_decide_eq_false hts)]
        have h2 := hm (s :: l2)
        rwa [mapAt_cons2] at h2
      · have := of_decide_eq_true hts
        subst this
        rw [childMap_setChildMap_same x hc]
        exact hx l2

theorem inv_modify : ∀ (l : Loc) (st x : IRMap), invMap st → invMap x →
    invMap (modifyMapAt st l (fun _ => x)) := by
  intro l
  induction l with
  | nil => intro st x _ hx; exact hx
  | cons s l ih =>
    intro st x hst hx
    show invMap (match childMap st s with
      | some mm => setChildMap st s (modifyMapAt mm l (fun _ => x))
      | none => st)
    rcases hc : childMap st s with _ | mm
    · exact hst
    · exact inv_setChild hst (ih mm x (inv_child hst hc) hx) hc

theorem mapAt_append2 : ∀ (l0 l2 : Loc) (st : IRMap),
    mapAt st (l0 ++ l2) = mapAt (mapAt st l0) l2 := by
  intro l0
  induction l0 with
  | nil => intro l2 st; rfl
  | cons t l0 ih =>
    intro l2 st
    rw [List.cons_append, mapAt_cons2, ih, mapAt_cons2 st t l0]

theorem inv_sub {st : IRMap} (l0 : Loc) (h : invMap st) : invMap (mapAt st l0) := by
  intro l2
  rw [← mapAt_append2]
  exact h (l0 ++ l2)

end D2Ir

namespace D2Ir

theorem eqFold_refl (s : String) : eqFold s s = true := by
  simp [eqFold]

theorem eqFold_symm (a b : String) : eqFold a b = eqFold b a := by
  rcases h1 : eqFold a b with _ | _ <;> rcases h2 : eqFold b a with _ | _
  · rfl
  · simp only [eqFold, beq_iff_eq] at h2
    simp only [eqFold, beq_eq_false_iff_ne] at h1
    exact absurd h2.symm h1
  · simp only [eqFold, beq_iff_eq] at h1
    simp only [eqFold, beq_eq_false_iff_ne] at h2
    exact absurd h1.symm h2
  · rfl

theorem findIdxFold_none_all {hd : String} {fs : List IRField}
    (h : findIdxFold hd fs = none) : ∀ f ∈ fs, eqFold f.name hd = false := by
  intro f hf
  have := List.findIdx?_eq_none_iff.mp h
  simpa using this f hf

theorem findIdx?_some_get {α : Type} {p : α → Bool} {l : List α} {j : Nat}
    (h : l.findIdx? p = some j) : ∃ x, l.get? j = some x ∧ p x = true := by
  have h2 := List.findIdx?_eq_some_iff_findIdx_eq.mp h
  have hlt := h2.1
  have h3 : List.findIdx p l = j := h2.2
  have hw : l.findIdx p < l.length := by
    rw [h3]
    exact hlt
  have h4 : p (l.get ⟨l.findIdx p, hw⟩) = true := List.findIdx_getElem
  refine ⟨l.get ⟨j, hlt⟩, List.get?_eq_get hlt, ?_⟩
  have h5 : l.get ⟨l.findIdx p, hw⟩ = l.get ⟨j, hlt⟩ := by
    congr 1
    exact Fin.ext h3
  rw [← h5]
  exact h4

theorem findIdxFold_some_get {hd : String} {fs : List IRField} {j : Nat}
    (h : findIdxFold hd fs = some j) :
    ∃ f, fs.get? j = some f ∧ eqFold f.name hd = true :=
  findIdx?_some_get h

theorem findIdxFold_names (hd : String) :
    ∀ (fs gs : List IRField) (i : Nat),
      fs.map IRField.name = gs.map IRField.name →
      List.findIdx? (fun f => eqFold f.name hd) fs i
        = List.findIdx? (fun f => eqFold f.name hd) gs i := by
  intro fs
  induction fs with
  | nil =>
    intro gs i h
    rw [List.eq_nil_of_map_eq_nil h.symm]
  | cons f fs ih =>
    intro gs i h
    cases gs with
    | nil => cases h
    | cons g gs =>
      simp only [List.map_cons, List.cons.injEq] at h
      simp only [List.findIdx?, h.1]
      by_cases he : eqFold g.name hd = true
      · rw [if_pos he, if_pos he]
      · rw [if_neg he, if_neg he]
        exact ih gs (i + 1) h.2

theorem findIdxFold_append_new (hd : String) (fs : List IRField) (f0 : IRField)
    (hall : ∀ f ∈ fs, eqFold f.name hd = false) (hf0 : eqFold f0.name hd = true) :
    findIdxFold hd (fs ++ [f0]) = some fs.length := by
  have h0 : fs.findIdx? (fun f => eqFold f.name hd) = none :=
    List.findIdx?_eq_none_iff.mpr (by simpa using hall)
  show (fs ++ [f0]).findIdx? (fun f => eqFold f.name hd) = some fs.length
  rw [List.findIdx?_append, h0]
  simp [List.findIdx?, hf0]

theorem noDupNames_append_one (hd : String) :
    ∀ (ns : List String), noDupNames ns = true →
      (∀ n ∈ ns, eqFold n hd = false) →
      noDupNames (ns ++ [hd]) = true := by
  intro ns
  induction ns with
  | nil => intro _ _; rfl
  | cons n ns ih =>
    intro hnd hall
    simp only [noDupNames, Bool.and_eq_true, List.all_eq_true] at hnd
    show ((ns ++ [hd]).all (fun x => !eqFold x n) && noDupNames (ns ++ [hd])) = true
    simp only [Bool.and_eq_true, List.all_eq_true]
    refine ⟨?_, ih hnd.2 (fun x hx => hall x (List.mem_cons_of_mem _ hx))⟩
    intro x hx
    rcases List.mem_append.mp hx with hx1 | hx2
    · exact hnd.1 x hx1
    · rcases List.mem_singleton.mp hx2 with rfl
      have h1 := hall n (List.mem_cons_self _ _)
      rw [eqFold_symm] at h1
      simp [h1]

theorem inv_append {m : IRMap} (hd : String) (rs : List CtxId) (hm : invMap m)
    (hall : ∀ f ∈ m.fields, eqFold f.name hd = false) :
    invMap (IRMap.mk (m.fields ++ [IRField.mk hd none none rs]) m.edges) := by
  intro l
  cases l with
  | nil =>
    show noDupNames ((m.fields ++ [IRField.mk hd none none rs]).map IRField.name) = true
    rw [List.map_append]
    refine noDupNames_append_one hd _ (hm []) ?_
    intro n hn
    rcases List.mem_map.mp hn with ⟨f, hf, rfl⟩
    exact hall f hf
  | cons s l2 =>
    rw [mapAt_cons2]
    cases s with
    | edg i =>
      have hce : childMap (IRMap.mk (m.fields ++ [IRField.mk hd none none rs]) m.edges)
          (.edg i) = childMap m (.edg i) := rfl
      rw [hce]
      have h2 := hm (Step.edg i :: l2)
      rwa [mapAt_cons2] at h2
    | fld i =>
      rcases Nat.lt_trichotomy i m.fields.length with hlt | heq | hgt
      · have hce : childMap (IRMap.mk (m.fields ++ [IRField.mk hd none none rs]) m.edges)
            (.fld i) = childMap m (.fld i) := by
          rw [childMap_fld, childMap_fld]
          simp only [IRMap.fields_mk]
          rw [List.get?_append hlt]
        rw [hce]
        have h2 := hm (Step.fld i :: l2)
        rwa [mapAt_cons2] at h2
      · subst heq
        have hce : childMap (IRMap.mk (m.fields ++ [IRField.mk hd none none rs]) m.edges)
            (.fld m.fields.length) = none := by
          rw [childMap_fld]
          simp only [IRMap.fields_mk]
          rw [List.get?_concat_length]
          rfl
        rw [hce]
        show noDupNames ((mapAt emptyMap l2).fields.map IRField.name) = true
        exact inv_empty l2
      · have hce : childMap (IRMap.mk (m.fields ++ [IRField.mk hd none none rs]) m.edges)
            (.fld i) = none := by
          rw [childMap_fld]
          simp only [IRMap.fields_mk]
          have : (m.fields ++ [IRField.mk hd none none rs]).get? i = none := by
            rw [List.get?_eq_none]
            simp only [List.length_append, List.length_cons, List.length_nil]
            omega
          rw [this]
          rfl
        rw [hce]
        show noDupNames ((mapAt emptyMap l2).fields.map IRField.name) = true
        exact inv_empty l2

end D2Ir

namespace D2Ir

theorem vivify_childMap (m1 : IRMap) (j : Nat) (f1 : IRField)
    (hf1 : m1.fields.get? j = some f1) :
    childMap (vivifyL m1 j) (.fld j)
      = some ((((vivifyL m1 j).fields.get? j).bind getCompMap).getD emptyMap) := by
  rw [childMap_fld]
  refine opt_eq_some_getD ?_ emptyMap
  rw [vivify_get? m1 j f1 hf1]
  rcases f1 with ⟨n, p, comp, r⟩
  rcases comp with _ | comp
  · rfl
  · rcases comp with mm | ar <;> rfl

theorem ensureGlobLoop_inv2 (rest : List PathSeg) (parts : List GPart) (rc : Option CtxId)
    (cr : Bool)
    (hrec : ∀ (m : IRMap) (ctx : List String) (m' : IRMap) (fa : List RelFL),
      ensureFieldGo rest m ctx rc cr = .ok (m', fa) → invMap m → invMap m') :
    ∀ (js : List Nat) (m : IRMap) (ctx : List String) (m' : IRMap) (fa : List RelFL),
      ensureGlobLoop (fun sub c => ensureFieldGo rest sub c rc cr) parts ctx js m
        = .ok (m', fa) → invMap m → invMap m' := by
  intro js
  induction js with
  | nil =>
    intro m ctx m' fa h hin
    simp only [ensureGlobLoop] at h
    cases h
    exact hin
  | cons j js ih =>
    intro m ctx m' fa h hin
    simp only [ensureGlobLoop] at h
    rcases hg : m.fields.get? j with _ | f
    · rw [hg] at h
      exact ih m ctx m' fa h hin
    · rw [hg] at h
      dsimp only at h
      rcases hmp : matchPattern f.name parts with _ | _
      · rw [hmp] at h
        simp only [Bool.false_eq_true, if_false] at h
        exact ih m ctx m' fa h hin
      · rw [hmp] at h
        simp only [if_true] at h
        rcases hr : ensureFieldGo rest
            ((((vivifyL m j).fields.get? j).bind getCompMap).getD emptyMap)
            (f.name :: ctx) rc cr with e | p1
        · rw [hr] at h
          cases h
        · rcases p1 with ⟨sub', fa0⟩
          rw [hr] at h
          dsimp only at h
          rcases hl : ensureGlobLoop (fun sub c => ensureFieldGo rest sub c rc cr)
              parts ctx js
              (setChildMap (vivifyL m j) (.fld j) sub') with e | p2
          · rw [hl] at h
            cases h
          · rcases p2 with ⟨m3, fa2⟩
            rw [hl] at h
            dsimp only at h
            cases h
            have hm1 : invMap (vivifyL m j) :=
              inv_of_namesEq (namesEq_vivifyL m j) hin
            have hsubinv : invMap ((((vivifyL m j).fields.get? j).bind
                getCompMap).getD emptyMap) := by
              rw [← childMap_fld]
              exact inv_child_getD _ hm1
            have hsub' := hrec _ _ _ _ hr hsubinv
            have hset : invMap (setChildMap (vivifyL m j) (.fld j) sub') :=
              inv_setChild hm1 hsub' (vivify_childMap m j f hg)
            exact ih _ _ _ _ hl hset

end D2Ir

namespace D2Ir

theorem ensure_inv : ∀ (segs : List PathSeg) (m : IRMap) (ctx : List String)
    (rc : Option CtxId) (cr : Bool) (m' : IRMap) (fa : List RelFL),
    (∀ s ∈ segs, s ≠ PathSeg.dglob) →
    ensureFieldGo segs m ctx rc cr = .ok (m', fa) →
    invMap m → invMap m' := by
  intro segs
  induction segs with
  | nil =>
    intro m ctx rc cr m' fa _ h hin
    simp only [ensureFieldGo] at h
    cases h
    exact hin
  | cons seg rest ih =>
    intro m ctx rc cr m' fa hnd h hin
    have hrest : ∀ s ∈ rest, s ≠ PathSeg.dglob :=
      fun s hs => hnd s (List.mem_cons_of_mem _ hs)
    cases seg with
    | dglob => exact absurd rfl (hnd .dglob (List.mem_cons_self _ _))
    | pat parts =>
      simp only [ensureFieldGo] at h
      rcases hre : rest.isEmpty with _ | _
      · rw [hre] at h
        simp only [Bool.false_eq_true, if_false] at h
        exact ensureGlobLoop_inv2 rest parts rc cr
          (fun m2 c2 m2' fa2 h2 hi2 => ih m2 c2 rc cr m2' fa2 hrest h2 hi2)
          (List.range m.fields.length) m ctx m' fa h hin
      · rw [hre] at h
        simp only [if_true] at h
        cases h
        exact hin
    | lit head0 =>
      simp only [ensureFieldGo] at h
      rcases hres : ReservedKeywords.contains (lowerStr head0) with _ | _
      · rw [hres] at h
        simp only [Bool.false_and, Bool.false_eq_true, if_false] at h
        split at h
        · cases h
        split at h
        · cases h
        split at h
        · cases h
        rcases rc with _ | c
        · dsimp only at h
          rcases hfi : findIdxFold (head0) m.fields with _ | j
          · rw [hfi] at h
            rcases cr with _ | _
            · replace h : (Except.ok (m, ([] : List RelFL))
                  : Except EnsErr (IRMap × List RelFL)) = .ok (m', fa) := h
              cases h
              exact hin
            · simp only [Bool.not_true, Bool.false_eq_true, if_false] at h
              rcases hre : rest.isEmpty with _ | _
              · rw [hre] at h
                simp only [Bool.false_eq_true, if_false] at h
                rcases hr : ensureFieldGo rest emptyMap ((head0) :: ctx) none true with e | p1
                · rw [hr] at h
                  cases h
                · rcases p1 with ⟨sub', fa0⟩
                  rw [hr] at h
                  dsimp only at h
                  cases h
                  have happ : invMap (IRMap.mk (m.fields
                      ++ [IRField.mk (head0) none none []]) m.edges) :=
                    inv_append (head0) [] hin (findIdxFold_none_all hfi)
                  have hsub' := ih _ _ _ _ _ _ hrest hr inv_empty
                  refine @inv_setChild_fld _ _ _ (IRField.mk (head0) none none []) happ hsub' ?_
                  show (IRMap.mk (m.fields ++ [IRField.mk (head0) none none []])
                      m.edges).fields.get? m.fields.length = _
                  simp only [IRMap.fields_mk]
                  exact List.get?_concat_length _ _
              · rw [hre] at h
                simp only [if_true] at h
                cases h
                exact inv_append (head0) [] hin (findIdxFold_none_all hfi)
          · rw [hfi] at h
            dsimp only at h
            rcases hget : m.fields.get? j with _ | f
            · rw [hget] at h
              dsimp only at h
              cases h
              exact hin
            · rw [hget] at h
              dsimp only at h
              rcases hre : rest.isEmpty with _ | _
              · rw [hre] at h
                simp only [Bool.false_eq_true, if_false] at h
                rcases hr : ensureFieldGo rest
                    ((((vivifyL (m) j).fields.get? j).bind getCompMap).getD emptyMap)
                    (f.name :: ctx) none cr with e | p1
                · rw [hr] at h
                  rcases hcomp : f.composite with _ | comp
                  · rw [hcomp] at h
                    cases h
                  · rcases comp with mm | ar <;> rw [hcomp] at h <;> cases h
                · rcases p1 with ⟨sub', fa0⟩
                  rw [hr] at h
                  have hm1 : invMap (m) := hin
                  have hm2v : invMap (vivifyL (m) j) :=
                    inv_of_namesEq (namesEq_vivifyL (m) j) hm1
                  have hsubinv : invMap ((((vivifyL (m) j).fields.get? j).bind
                      getCompMap).getD emptyMap) := by
                    rw [← childMap_fld]
                    exact inv_child_getD _ hm2v
                  have hsub' := ih _ _ _ _ _ _ hrest hr hsubinv
                  have hinv2 : invMap (setChildMap (vivifyL (m) j) (.fld j) sub') :=
                    inv_setChild hm2v hsub' (vivify_childMap (m) j (f) (hget))
                  rcases hcomp : f.composite with _ | comp
                  · rw [hcomp] at h
                    dsimp only at h
                    cases h
                    exact hinv2
                  · rcases comp with mm | ar
                    · rw [hcomp] at h
                      dsimp only at h
                      cases h
                      exact hinv2
                    · rw [hcomp] at h
                      cases h
              · rw [hre] at h
                simp only [if_true] at h
                cases h
                exact hin
        · dsimp only at h
          rcases hfi : findIdxFold (head0) m.fields with _ | j
          · rw [hfi] at h
            rcases cr with _ | _
            · replace h : (Except.ok (m, ([] : List RelFL))
                  : Except EnsErr (IRMap × List RelFL)) = .ok (m', fa) := h
              cases h
              exact hin
            · simp only [Bool.not_true, Bool.false_eq_true, if_false] at h
              rcases hre : rest.isEmpty with _ | _
              · rw [hre] at h
                simp only [Bool.false_eq_true, if_false] at h
                rcases hr : ensureFieldGo rest emptyMap ((head0) :: ctx) (some c) true with e | p1
                · rw [hr] at h
                  cases h
                · rcases p1 with ⟨sub', fa0⟩
                  rw [hr] at h
                  dsimp only at h
                  cases h
                  have happ : invMap (IRMap.mk (m.fields
                      ++ [IRField.mk (head0) none none [c]]) m.edges) :=
                    inv_append (head0) [c] hin (findIdxFold_none_all hfi)
                  have hsub' := ih _ _ _ _ _ _ hrest hr inv_empty
                  refine @inv_setChild_fld _ _ _ (IRField.mk (head0) none none [c]) happ hsub' ?_
                  show (IRMap.mk (m.fields ++ [IRField.mk (head0) none none [c]])
                      m.edges).fields.get? m.fields.length = _
                  simp only [IRMap.fields_mk]
                  exact List.get?_concat_length _ _
              · rw [hre] at h
                simp only [if_true] at h
                cases h
                exact inv_append (head0) [c] hin (findIdxFold_none_all hfi)
          · rw [hfi] at h
            dsimp only at h
            rcases hget : m.fields.get? j with _ | f
            · rw [hget] at h
              dsimp only at h
              cases h
              exact hin
            · rw [hget] at h
              dsimp only at h
              have hf1 : (appendRefL m j c).fields.get? j
                  = some (IRField.mk f.name f.primary f.composite (f.refs ++ [c])) := by
                show (IRMap.mk (listModify _ j m.fields) m.edges).fields.get? j = _
                simp only [IRMap.fields_mk]
                exact listModify_get?_self _ j m.fields f hget
              rcases hre : rest.isEmpty with _ | _
              · rw [hre] at h
                simp only [Bool.false_eq_true, if_false] at h
                rcases hr : ensureFieldGo rest
                    ((((vivifyL (appendRefL m j c) j).fields.get? j).bind getCompMap).getD emptyMap)
                    (f.name :: ctx) (some c) cr with e | p1
                · rw [hr] at h
                  rcases hcomp : f.composite with _ | comp
                  · rw [hcomp] at h
                    cases h
                  · rcases comp with mm | ar <;> rw [hcomp] at h <;> cases h
                · rcases p1 with ⟨sub', fa0⟩
                  rw [hr] at h
                  have hm1 : invMap (appendRefL m j c) := inv_of_namesEq (namesEq_appendRefL m j c) hin
                  have hm2v : invMap (vivifyL (appendRefL m j c) j) :=
                    inv_of_namesEq (namesEq_vivifyL (appendRefL m j c) j) hm1
                  have hsubinv : invMap ((((vivifyL (appendRefL m j c) j).fields.get? j).bind
                      getCompMap).getD emptyMap) := by
                    rw [← childMap_fld]
                    exact inv_child_getD _ hm2v
                  have hsub' := ih _ _ _ _ _ _ hrest hr hsubinv
                  have hinv2 : invMap (setChildMap (vivifyL (appendRefL m j c) j) (.fld j) sub') :=
                    inv_setChild hm2v hsub' (vivify_childMap (appendRefL m j c) j (IRField.mk f.name f.primary f.composite (f.refs ++ [c])) (hf1))
                  rcases hcomp : f.composite with _ | comp
                  · rw [hcomp] at h
                    dsimp only at h
                    cases h
                    exact hinv2
                  · rcases comp with mm | ar
                    · rw [hcomp] at h
                      dsimp only at h
                      cases h
                      exact hinv2
                    · rw [hcomp] at h
                      cases h
              · rw [hre] at h
                simp only [if_true] at h
                cases h
                exact inv_of_namesEq (namesEq_appendRefL m j c) hin
      · rw [hres] at h
        simp only [Bool.true_and, if_true] at h
        split at h
        · cases h
        split at h
        · cases h
        split at h
        · cases h
        split at h
        · cases h
        rcases rc with _ | c
        · dsimp only at h
          rcases hfi : findIdxFold (lowerStr head0) m.fields with _ | j
          · rw [hfi] at h
            rcases cr with _ | _
            · replace h : (Except.ok (m, ([] : List RelFL))
                  : Except EnsErr (IRMap × List RelFL)) = .ok (m', fa) := h
              cases h
              exact hin
            · simp only [Bool.not_true, Bool.false_eq_true, if_false] at h
              rcases hre : rest.isEmpty with _ | _
              · rw [hre] at h
                simp only [Bool.false_eq_true, if_false] at h
                rcases hr : ensureFieldGo rest emptyMap ((lowerStr head0) :: ctx) none true with e | p1
                · rw [hr] at h
                  cases h
                · rcases p1 with ⟨sub', fa0⟩
                  rw [hr] at h
                  dsimp only at h
                  cases h
                  have happ : invMap (IRMap.mk (m.fields
                      ++ [IRField.mk (lowerStr head0) none none []]) m.edges) :=
                    inv_append (lowerStr head0) [] hin (findIdxFold_none_all hfi)
                  have hsub' := ih _ _ _ _ _ _ hrest hr inv_empty
                  refine @inv_setChild_fld _ _ _ (IRField.mk (lowerStr head0) none none []) happ hsub' ?_
                  show (IRMap.mk (m.fields ++ [IRField.mk (lowerStr head0) none none []])
                      m.edges).fields.get? m.fields.length = _
                  simp only [IRMap.fields_mk]
                  exact List.get?_concat_length _ _
              · rw [hre] at h
                simp only [if_true] at h
                cases h
                exact inv_append (lowerStr head0) [] hin (findIdxFold_none_all hfi)
          · rw [hfi] at h
            dsimp only at h
            rcases hget : m.fields.get? j with _ | f
            · rw [hget] at h
              dsimp only at h
              cases h
              exact hin
            · rw [hget] at h
              dsimp only at h
              rcases hre : rest.isEmpty with _ | _
              · rw [hre] at h
                simp only [Bool.false_eq_true, if_false] at h
                rcases hr : ensureFieldGo rest
                    ((((vivifyL (m) j).fields.get? j).bind getCompMap).getD emptyMap)
                    (f.name :: ctx) none cr with e | p1
                · rw [hr] at h
                  rcases hcomp : f.composite with _ | comp
                  · rw [hcomp] at h
                    cases h
                  · rcases comp with mm | ar <;> rw [hcomp] at h <;> cases h
                · rcases p1 with ⟨sub', fa0⟩
                  rw [hr] at h
                  have hm1 : invMap (m) := hin
                  have hm2v : invMap (vivifyL (m) j) :=
                    inv_of_namesEq (namesEq_vivifyL (m) j) hm1
                  have hsubinv : invMap ((((vivifyL (m) j).fields.get? j).bind
                      getCompMap).getD emptyMap) := by
                    rw [← childMap_fld]
                    exact inv_child_getD _ hm2v
                  have hsub' := ih _ _ _ _ _ _ hrest hr hsubinv
                  have hinv2 : invMap (setChildMap (vivifyL (m) j) (.fld j) sub') :=
                    inv_setChild hm2v hsub' (vivify_childMap (m) j (f) (hget))
                  rcases hcomp : f.composite with _ | comp
                  · rw [hcomp] at h
                    dsimp only at h
                    cases h
                    exact hinv2
                  · rcases comp with mm | ar
                    · rw [hcomp] at h
                      dsimp only at h
                      cases h
                      exact hinv2
                    · rw [hcomp] at h
                      cases h
              · rw [hre] at h
                simp only [if_true] at h
                cases h
                exact hin
        · dsimp only at h
          rcases hfi : findIdxFold (lowerStr head0) m.fields with _ | j
          · rw [hfi] at h
            rcases cr with _ | _
            · replace h : (Except.ok (m, ([] : List RelFL))
                  : Except EnsErr (IRMap × List RelFL)) = .ok (m', fa) := h
              cases h
              exact hin
            · simp only [Bool.not_true, Bool.false_eq_true, if_false] at h
              rcases hre : rest.isEmpty with _ | _
              · rw [hre] at h
                simp only [Bool.false_eq_true, if_false] at h
                rcases hr : ensureFieldGo rest emptyMap ((lowerStr head0) :: ctx) (some c) true with e | p1
                · rw [hr] at h
                  cases h
                · rcases p1 with ⟨sub', fa0⟩
                  rw [hr] at h
                  dsimp only at h
                  cases h
                  have happ : invMap (IRMap.mk (m.fields
                      ++ [IRField.mk (lowerStr head0) none none [c]]) m.edges) :=
                    inv_append (lowerStr head0) [c] hin (findIdxFold_none_all hfi)
                  have hsub' := ih _ _ _ _ _ _ hrest hr inv_empty
                  refine @inv_setChild_fld _ _ _ (IRField.mk (lowerStr head0) none none [c]) happ hsub' ?_
                  show (IRMap.mk (m.fields ++ [IRField.mk (lowerStr head0) none none [c]])
                      m.edges).fields.get? m.fields.length = _
                  simp only [IRMap.fields_mk]
                  exact List.get?_concat_length _ _
              · rw [hre] at h
                simp only [if_true] at h
                cases h
                exact inv_append (lowerStr head0) [c] hin (findIdxFold_none_all hfi)
          · rw [hfi] at h
            dsimp only at h
            rcases hget : m.fields.get? j with _ | f
            · rw [hget] at h
              dsimp only at h
              cases h
              exact hin
            · rw [hget] at h
              dsimp only at h
              have hf1 : (appendRefL m j c).fields.get? j
                  = some (IRField.mk f.name f.primary f.composite (f.refs ++ [c])) := by
                show (IRMap.mk (listModify _ j m.fields) m.edges).fields.get? j = _
                simp only [IRMap.fields_mk]
                exact listModify_get?_self _ j m.fields f hget
              rcases hre : rest.isEmpty with _ | _
              · rw [hre] at h
                simp only [Bool.false_eq_true, if_false] at h
                rcases hr : ensureFieldGo rest
                    ((((vivifyL (appendRefL m j c) j).fields.get? j).bind getCompMap).getD emptyMap)
                    (f.name :: ctx) (some c) cr with e | p1
                · rw [hr] at h
                  rcases hcomp : f.composite with _ | comp
                  · rw [hcomp] at h
                    cases h
                  · rcases comp with mm | ar <;> rw [hcomp] at h <;> cases h
                · rcases p1 with ⟨sub', fa0⟩
                  rw [hr] at h
                  have hm1 : invMap (appendRefL m j c) := inv_of_namesEq (namesEq_appendRefL m j c) hin
                  have hm2v : invMap (vivifyL (appendRefL m j c) j) :=
                    inv_of_namesEq (namesEq_vivifyL (appendRefL m j c) j) hm1
                  have hsubinv : invMap ((((vivifyL (appendRefL m j c) j).fields.get? j).bind
                      getCompMap).getD emptyMap) := by
                    rw [← childMap_fld]
                    exact inv_child_getD _ hm2v
                  have hsub' := ih _ _ _ _ _ _ hrest hr hsubinv
                  have hinv2 : invMap (setChildMap (vivifyL (appendRefL m j c) j) (.fld j) sub') :=
                    inv_setChild hm2v hsub' (vivify_childMap (appendRefL m j c) j (IRField.mk f.name f.primary f.composite (f.refs ++ [c])) (hf1))
                  rcases hcomp : f.composite with _ | comp
                  · rw [hcomp] at h
                    dsimp only at h
                    cases h
                    exact hinv2
                  · rcases comp with mm | ar
                    · rw [hcomp] at h
                      dsimp only at h
                      cases h
                      exact hinv2
                    · rw [hcomp] at h
                      cases h
              · rw [hre] at h
                simp only [if_true] at h
                cases h
                exact inv_of_namesEq (namesEq_appendRefL m j c) hin

end D2Ir

namespace D2Ir

theorem mapEnsure_inv (st : IRMap) (kp : List PathSeg) (l : Loc) (rc : Option CtxId)
    (cr : Bool) (st' : IRMap) (fa : List FieldLoc)
    (hnd : ∀ s ∈ kp, s ≠ PathSeg.dglob)
    (hok : mapEnsureField st kp l rc cr = .ok (st', fa))
    (hin : invMap st) : invMap st' := by
  simp only [mapEnsureField] at hok
  rcases hsu : stripUnders kp l with e | p0
  · rw [hsu] at hok
    cases hok
  · rcases p0 with ⟨segs, l0⟩
    rw [hsu] at hok
    dsimp only at hok
    rcases hef : ensureFieldGo segs (mapAt st l0) (ancFldNames st l0) rc cr
        with e | p1
    · rw [hef] at hok
      cases hok
    · rcases p1 with ⟨m1, fa0⟩
      rw [hef] at hok
      dsimp only at hok
      cases hok
      have hnd0 : ∀ s ∈ segs, s ≠ PathSeg.dglob :=
        fun s hs => hnd s (stripUnders_sub kp l segs l0 hsu s hs)
      exact inv_modify l0 st m1 hin
        (ensure_inv segs (mapAt st l0) (ancFldNames st l0) rc cr m1 fa0 hnd0 hef
          (inv_sub l0 hin))

end D2Ir

namespace D2Ir

theorem IRField.name_mk (n : String) (p : Option ScalarV) (c : Option IRComposite)
    (r : List CtxId) : (IRField.mk n p c r).name = n := rfl

theorem IRField.primary_mk (n : String) (p : Option ScalarV) (c : Option IRComposite)
    (r : List CtxId) : (IRField.mk n p c r).primary = p := rfl

theorem IRField.composite_mk (n : String) (p : Option ScalarV) (c : Option IRComposite)
    (r : List CtxId) : (IRField.mk n p c r).composite = c := rfl

theorem IRField.refs_mk (n : String) (p : Option ScalarV) (c : Option IRComposite)
    (r : List CtxId) : (IRField.mk n p c r).refs = r := rfl

theorem vivify_names (m : IRMap) (j : Nat) :
    (vivifyL m j).fields.map IRField.name = m.fields.map IRField.name := by
  show (IRMap.mk (listModify _ j m.fields) m.edges).fields.map IRField.name = _
  simp only [IRMap.fields_mk]
  refine names_listModify
    (fun f => match f.composite with
      | some (.cmap _) => f
      | _ => IRField.mk f.name f.primary (some (.cmap emptyMap)) f.refs) ?_ j m.fields
  intro x
  rcases x with ⟨n, p, comp, r⟩
  rcases comp with _ | comp
  · rfl
  · rcases comp with mm | ar <;> rfl

end D2Ir

namespace D2Ir

theorem ensure_idem : ∀ (segs : List PathSeg) (m : IRMap) (ctx : List String)
    (m1 : IRMap) (fa1 : List RelFL),
    (∀ s ∈ segs, ∃ str, s = PathSeg.lit str) →
    ensureFieldGo segs m ctx none true = .ok (m1, fa1) →
    ∃ m2, ensureFieldGo segs m1 ctx none true = .ok (m2, fa1) ∧ namesEq m2 m1 := by
  intro segs
  induction segs with
  | nil =>
    intro m ctx m1 fa1 _ h
    simp only [ensureFieldGo] at h
    cases h
    exact ⟨m, rfl, namesEq_refl m⟩
  | cons seg rest ih =>
    intro m ctx m1 fa1 hlit h
    have hlitrest : ∀ s ∈ rest, ∃ str, s = PathSeg.lit str :=
      fun s hs => hlit s (List.mem_cons_of_mem _ hs)
    rcases hlit seg (List.mem_cons_self _ _) with ⟨head0, rfl⟩
    simp only [ensureFieldGo] at h
    rcases hres : ReservedKeywords.contains (lowerStr head0) with _ | _
    · rw [hres] at h
      simp only [Bool.false_and, Bool.false_eq_true, if_false] at h
      rcases hu : decide ((head0) = "_") with _ | _
      · have hu' : ¬((head0) = "_") := of_decide_eq_false hu
        rw [if_neg hu'] at h
        rcases hcl : (decide ((head0) = "classes")
            && isBlankKind (nodeBoardKindCtx ctx)) with _ | _
        · have hcl' : ¬((decide ((head0) = "classes")
              && isBlankKind (nodeBoardKindCtx ctx)) = true) := by
            rw [hcl]
            exact Bool.false_ne_true
          rw [if_neg hcl'] at h
          rcases hbk : (BoardKeywords.contains (head0)
              && isBlankKind (nodeBoardKindCtx ctx)) with _ | _
          · have hbk' : ¬((BoardKeywords.contains (head0)
                && isBlankKind (nodeBoardKindCtx ctx)) = true) := by
              rw [hbk]
              exact Bool.false_ne_true
            rw [if_neg hbk'] at h
            rcases hfi : findIdxFold (head0) m.fields with _ | j
            · rw [hfi] at h
              simp only [Bool.not_true, Bool.false_eq_true, if_false] at h
              rcases hre : rest.isEmpty with _ | _
              · rw [hre] at h
                simp only [Bool.false_eq_true, if_false] at h
                rcases hr : ensureFieldGo rest emptyMap ((head0) :: ctx) none true with e | p1
                · rw [hr] at h
                  cases h
                · rcases p1 with ⟨sub', fa0⟩
                  rw [hr] at h
                  dsimp only at h
                  cases h
                  rcases ih _ _ _ _ hlitrest hr with ⟨sub'', hr2, hnsub⟩
                  have hget2 : (setChildMap (IRMap.mk (m.fields ++ [IRField.mk (head0) none none []]) m.edges) (.fld m.fields.length) sub').fields.get? m.fields.length = some (IRField.mk (head0) none (some (.cmap sub')) []) := by
                    show (IRMap.mk (listModify (fun g => IRField.mk g.name g.primary (some (.cmap sub')) g.refs) m.fields.length
                        (IRMap.mk (m.fields ++ [IRField.mk (head0) none none []]) m.edges).fields) (IRMap.mk (m.fields ++ [IRField.mk (head0) none none []]) m.edges).edges).fields.get? m.fields.length = _
                    simp only [IRMap.fields_mk]
                    rw [listModify_get?_self _ m.fields.length _ _ (List.get?_concat_length _ _)]
                    rfl
                  have hn : (setChildMap (IRMap.mk (m.fields ++ [IRField.mk (head0) none none []]) m.edges) (.fld m.fields.length) sub').fields.map IRField.name
                      = (m.fields ++ [IRField.mk (head0) none none []]).map IRField.name := by
                    show (IRMap.mk (listModify (fun g => IRField.mk g.name g.primary (some (.cmap sub')) g.refs) m.fields.length
                        (IRMap.mk (m.fields ++ [IRField.mk (head0) none none []]) m.edges).fields) (IRMap.mk (m.fields ++ [IRField.mk (head0) none none []]) m.edges).edges).fields.map IRField.name = _
                    simp only [IRMap.fields_mk]
                    exact names_listModify (fun g => IRField.mk g.name g.primary (some (.cmap sub')) g.refs) (fun g => rfl) m.fields.length _
                  have hfi2 : findIdxFold (head0) (setChildMap (IRMap.mk (m.fields ++ [IRField.mk (head0) none none []]) m.edges) (.fld m.fields.length) sub').fields = some m.fields.length := by
                    refine (findIdxFold_names (head0) _ _ 0 hn).trans ?_
                    exact findIdxFold_append_new (head0) m.fields _ (findIdxFold_none_all hfi)
                      (eqFold_refl _)
                  have hsub2 : (((vivifyL (setChildMap (IRMap.mk (m.fields ++ [IRField.mk (head0) none none []]) m.edges) (.fld m.fields.length) sub') m.fields.length).fields.get?
                      m.fields.length).bind getCompMap).getD emptyMap = sub' := by
                    rw [vivify_get? _ m.fields.length _ hget2]
                    rfl
                  have hc2 : childMap (vivifyL (setChildMap (IRMap.mk (m.fields ++ [IRField.mk (head0) none none []]) m.edges) (.fld m.fields.length) sub') m.fields.length) (.fld m.fields.length)
                      = some sub' := by
                    rw [vivify_childMap _ m.fields.length _ hget2, hsub2]
                  refine ⟨setChildMap (vivifyL (setChildMap (IRMap.mk (m.fields ++ [IRField.mk (head0) none none []]) m.edges) (.fld m.fields.length) sub') m.fields.length) (.fld m.fields.length) sub'',
                    ?_, namesEq_trans (namesEq_setChild hc2 hnsub) (namesEq_vivifyL _ _)⟩
                  simp only [ensureFieldGo]
                  rw [hres]
                  simp only [Bool.false_and, Bool.false_eq_true, if_false]
                  rw [if_neg hu', if_neg hcl', if_neg hbk', hfi2]
                  dsimp only
                  rw [hget2]
                  dsimp only
                  rw [hre]
                  simp only [Bool.false_eq_true, if_false]
                  simp only [IRField.composite_mk, IRField.name_mk]
                  rw [hsub2, hr2]
              · rw [hre] at h
                simp only [if_true] at h
                cases h
                refine ⟨IRMap.mk (m.fields ++ [IRField.mk (head0) none none []]) m.edges, ?_, namesEq_refl _⟩
                have hfi2 : findIdxFold (head0) (IRMap.mk (m.fields ++ [IRField.mk (head0) none none []]) m.edges).fields = some m.fields.length := by
                  simp only [IRMap.fields_mk]
                  exact findIdxFold_append_new (head0) m.fields _ (findIdxFold_none_all hfi)
                    (eqFold_refl _)
                have hget2 : (IRMap.mk (m.fields ++ [IRField.mk (head0) none none []]) m.edges).fields.get? m.fields.length
                    = some (IRField.mk (head0) none none []) := by
                  simp only [IRMap.fields_mk]
                  exact List.get?_concat_length _ _
                simp only [ensureFieldGo]
                rw [hres]
                simp only [Bool.false_and, Bool.false_eq_true, if_false]
                rw [if_neg hu', if_neg hcl', if_neg hbk', hfi2]
                dsimp only
                rw [hget2]
                dsimp only
                rw [hre]
                simp only [if_true]
            · rw [hfi] at h
              dsimp only at h
              rcases hget : m.fields.get? j with _ | f
              · rw [hget] at h
                dsimp only at h
                cases h
                refine ⟨m, ?_, namesEq_refl m⟩
                simp only [ensureFieldGo]
                rw [hres]
                simp only [Bool.false_and, Bool.false_eq_true, if_false]
                rw [if_neg hu', if_neg hcl', if_neg hbk', hfi]
                dsimp only
                rw [hget]
              · rw [hget] at h
                dsimp only at h
                rcases hre : rest.isEmpty with _ | _
                · rw [hre] at h
                  simp only [Bool.false_eq_true, if_false] at h
                  rcases hcomp : f.composite with _ | comp
                  · rw [hcomp] at h
                    dsimp only at h
                    rcases hr : ensureFieldGo rest
                        ((((vivifyL m j).fields.get? j).bind getCompMap).getD emptyMap)
                        (f.name :: ctx) none true with e | p1
                    · rw [hr] at h
                      cases h
                    · rcases p1 with ⟨sub', fa0⟩
                      rw [hr] at h
                      dsimp only at h
                      cases h
                      rcases ih _ _ _ _ hlitrest hr with ⟨sub'', hr2, hnsub⟩
                      have hget2 : (setChildMap (vivifyL m j) (.fld j) sub').fields.get? j = some (IRField.mk f.name f.primary (some (.cmap sub')) f.refs) := by
                        show (IRMap.mk (listModify (fun g => IRField.mk g.name g.primary (some (.cmap sub')) g.refs) j
                            (vivifyL m j).fields) (vivifyL m j).edges).fields.get? j = _
                        simp only [IRMap.fields_mk]
                        rw [listModify_get?_self _ j _ _ (vivify_get? m j f hget)]
                        rw [hcomp]
                        rfl
                      have hn : (setChildMap (vivifyL m j) (.fld j) sub').fields.map IRField.name = m.fields.map IRField.name := by
                        show (IRMap.mk (listModify (fun g => IRField.mk g.name g.primary (some (.cmap sub')) g.refs) j
                            (vivifyL m j).fields) (vivifyL m j).edges).fields.map IRField.name = _
                        simp only [IRMap.fields_mk]
                        rw [names_listModify (fun g => IRField.mk g.name g.primary (some (.cmap sub')) g.refs) (fun g => rfl) j (vivifyL m j).fields]
                        exact vivify_names m j
                      have hfi2 : findIdxFold (head0) (setChildMap (vivifyL m j) (.fld j) sub').fields = some j :=
                        (findIdxFold_names (head0) _ _ 0 hn).trans hfi
                      have hsub2 : (((vivifyL (setChildMap (vivifyL m j) (.fld j) sub') j).fields.get? j).bind getCompMap).getD emptyMap
                          = sub' := by
                        rw [vivify_get? _ j _ hget2]
                        rfl
                      have hc2 : childMap (vivifyL (setChildMap (vivifyL m j) (.fld j) sub') j) (.fld j) = some sub' := by
                        rw [vivify_childMap _ j _ hget2, hsub2]
                      refine ⟨setChildMap (vivifyL (setChildMap (vivifyL m j) (.fld j) sub') j) (.fld j) sub'', ?_,
                        namesEq_trans (namesEq_setChild hc2 hnsub) (namesEq_vivifyL _ j)⟩
                      simp only [ensureFieldGo]
                      rw [hres]
                      simp only [Bool.false_and, Bool.false_eq_true, if_false]
                      rw [if_neg hu', if_neg hcl', if_neg hbk', hfi2]
                      dsimp only
                      rw [hget2]
                      dsimp only
                      rw [hre]
                      simp only [Bool.false_eq_true, if_false]
                      simp only [IRField.composite_mk, IRField.name_mk]
                      rw [hsub2, hr2]
                  · rcases comp with mm | ar
                    · rw [hcomp] at h
                      dsimp only at h
                      rcases hr : ensureFieldGo rest
                          ((((vivifyL m j).fields.get? j).bind getCompMap).getD emptyMap)
                          (f.name :: ctx) none true with e | p1
                      · rw [hr] at h
                        cases h
                      · rcases p1 with ⟨sub', fa0⟩
                        rw [hr] at h
                        dsimp only at h
                        cases h
                        rcases ih _ _ _ _ hlitrest hr with ⟨sub'', hr2, hnsub⟩
                        have hget2 : (setChildMap (vivifyL m j) (.fld j) sub').fields.get? j = some (IRField.mk f.name f.primary (some (.cmap sub')) f.refs) := by
                          show (IRMap.mk (listModify (fun g => IRField.mk g.name g.primary (some (.cmap sub')) g.refs) j
                              (vivifyL m j).fields) (vivifyL m j).edges).fields.get? j = _
                          simp only [IRMap.fields_mk]
                          rw [listModify_get?_self _ j _ _ (vivify_get? m j f hget)]
                          rw [hcomp]
                        have hn : (setChildMap (vivifyL m j) (.fld j) sub').fields.map IRField.name = m.fields.map IRField.name := by
                          show (IRMap.mk (listModify (fun g => IRField.mk g.name g.primary (some (.cmap sub')) g.refs) j
                              (vivifyL m j).fields) (vivifyL m j).edges).fields.map IRField.name = _
                          simp only [IRMap.fields_mk]
                          rw [names_listModify (fun g => IRField.mk g.name g.primary (some (.cmap sub')) g.refs) (fun g => rfl) j (vivifyL m j).fields]
                          exact vivify_names m j
                        have hfi2 : findIdxFold (head0) (setChildMap (vivifyL m j) (.fld j) sub').fields = some j :=
                          (findIdxFold_names (head0) _ _ 0 hn).trans hfi
                        have hsub2 : (((vivifyL (setChildMap (vivifyL m j) (.fld j) sub') j).fields.get? j).bind getCompMap).getD emptyMap
                            = sub' := by
                          rw [vivify_get? _ j _ hget2]
                          rfl
                        have hc2 : childMap (vivifyL (setChildMap (vivifyL m j) (.fld j) sub') j) (.fld j) = some sub' := by
                          rw [vivify_childMap _ j _ hget2, hsub2]
                        refine ⟨setChildMap (vivifyL (setChildMap (vivifyL m j) (.fld j) sub') j) (.fld j) sub'', ?_,
                          namesEq_trans (namesEq_setChild hc2 hnsub) (namesEq_vivifyL _ j)⟩
                        simp only [ensureFieldGo]
                        rw [hres]
                        simp only [Bool.false_and, Bool.false_eq_true, if_false]
                        rw [if_neg hu', if_neg hcl', if_neg hbk', hfi2]
                        dsimp only
                        rw [hget2]
                        dsimp only
                        rw [hre]
                        simp only [Bool.false_eq_true, if_false]
                        simp only [IRField.composite_mk, IRField.name_mk]
                        rw [hsub2, hr2]
                    · rw [hcomp] at h
                      cases h
                · rw [hre] at h
                  simp only [if_true] at h
                  cases h
                  refine ⟨m, ?_, namesEq_refl m⟩
                  simp only [ensureFieldGo]
                  rw [hres]
                  simp only [Bool.false_and, Bool.false_eq_true, if_false]
                  rw [if_neg hu', if_neg hcl', if_neg hbk', hfi]
                  dsimp only
                  rw [hget]
                  dsimp only
                  rw [hre]
                  simp only [if_true]
          · rw [if_pos hbk] at h
            cases h
        · rw [if_pos hcl] at h
          cases h
      · rw [if_pos (of_decide_eq_true hu)] at h
        cases h
    · rw [hres] at h
      simp only [Bool.true_and, if_true] at h
      rcases hc1 : (!CompositeReservedKeywords.contains (lowerStr head0)
          && !rest.isEmpty) with _ | _
      · have hc1' : ¬((!CompositeReservedKeywords.contains (lowerStr head0)
            && !rest.isEmpty) = true) := by
          rw [hc1]
          exact Bool.false_ne_true
        rw [if_neg hc1'] at h
        rcases hu : decide ((lowerStr head0) = "_") with _ | _
        · have hu' : ¬((lowerStr head0) = "_") := of_decide_eq_false hu
          rw [if_neg hu'] at h
          rcases hcl : (decide ((lowerStr head0) = "classes")
              && isBlankKind (nodeBoardKindCtx ctx)) with _ | _
          · have hcl' : ¬((decide ((lowerStr head0) = "classes")
                && isBlankKind (nodeBoardKindCtx ctx)) = true) := by
              rw [hcl]
              exact Bool.false_ne_true
            rw [if_neg hcl'] at h
            rcases hbk : (BoardKeywords.contains (lowerStr head0)
                && isBlankKind (nodeBoardKindCtx ctx)) with _ | _
            · have hbk' : ¬((BoardKeywords.contains (lowerStr head0)
                  && isBlankKind (nodeBoardKindCtx ctx)) = true) := by
                rw [hbk]
                exact Bool.false_ne_true
              rw [if_neg hbk'] at h
              rcases hfi : findIdxFold (lowerStr head0) m.fields with _ | j
              · rw [hfi] at h
                simp only [Bool.not_true, Bool.false_eq_true, if_false] at h
                rcases hre : rest.isEmpty with _ | _
                · rw [hre] at h
                  simp only [Bool.false_eq_true, if_false] at h
                  rcases hr : ensureFieldGo rest emptyMap ((lowerStr head0) :: ctx) none true with e | p1
                  · rw [hr] at h
                    cases h
                  · rcases p1 with ⟨sub', fa0⟩
                    rw [hr] at h
                    dsimp only at h
                    cases h
                    rcases ih _ _ _ _ hlitrest hr with ⟨sub'', hr2, hnsub⟩
                    have hget2 : (setChildMap (IRMap.mk (m.fields ++ [IRField.mk (lowerStr head0) none none []]) m.edges) (.fld m.fields.length) sub').fields.get? m.fields.length = some (IRField.mk (lowerStr head0) none (some (.cmap sub')) []) := by
                      show (IRMap.mk (listModify (fun g => IRField.mk g.name g.primary (some (.cmap sub')) g.refs) m.fields.length
                          (IRMap.mk (m.fields ++ [IRField.mk (lowerStr head0) none none []]) m.edges).fields) (IRMap.mk (m.fields ++ [IRField.mk (lowerStr head0) none none []]) m.edges).edges).fields.get? m.fields.length = _
                      simp only [IRMap.fields_mk]
                      rw [listModify_get?_self _ m.fields.length _ _ (List.get?_concat_length _ _)]
                      rfl
                    have hn : (setChildMap (IRMap.mk (m.fields ++ [IRField.mk (lowerStr head0) none none []]) m.edges) (.fld m.fields.length) sub').fields.map IRField.name
                        = (m.fields ++ [IRField.mk (lowerStr head0) none none []]).map IRField.name := by
                      show (IRMap.mk (listModify (fun g => IRField.mk g.name g.primary (some (.cmap sub')) g.refs) m.fields.length
                          (IRMap.mk (m.fields ++ [IRField.mk (lowerStr head0) none none []]) m.edges).fields) (IRMap.mk (m.fields ++ [IRField.mk (lowerStr head0) none none []]) m.edges).edges).fields.map IRField.name = _
                      simp only [IRMap.fields_mk]
                      exact names_listModify (fun g => IRField.mk g.name g.primary (some (.cmap sub')) g.refs) (fun g => rfl) m.fields.length _
                    have hfi2 : findIdxFold (lowerStr head0) (setChildMap (IRMap.mk (m.fields ++ [IRField.mk (lowerStr head0) none none []]) m.edges) (.fld m.fields.length) sub').fields = some m.fields.length := by
                      refine (findIdxFold_names (lowerStr head0) _ _ 0 hn).trans ?_
                      exact findIdxFold_append_new (lowerStr head0) m.fields _ (findIdxFold_none_all hfi)
                        (eqFold_refl _)
                    have hsub2 : (((vivifyL (setChildMap (IRMap.mk (m.fields ++ [IRField.mk (lowerStr head0) none none []]) m.edges) (.fld m.fields.length) sub') m.fields.length).fields.get?
                        m.fields.length).bind getCompMap).getD emptyMap = sub' := by
                      rw [vivify_get? _ m.fields.length _ hget2]
                      rfl
                    have hc2 : childMap (vivifyL (setChildMap (IRMap.mk (m.fields ++ [IRField.mk (lowerStr head0) none none []]) m.edges) (.fld m.fields.length) sub') m.fields.length) (.fld m.fields.length)
                        = some sub' := by
                      rw [vivify_childMap _ m.fields.length _ hget2, hsub2]
                    refine ⟨setChildMap (vivifyL (setChildMap (IRMap.mk (m.fields ++ [IRField.mk (lowerStr head0) none none []]) m.edges) (.fld m.fields.length) sub') m.fields.length) (.fld m.fields.length) sub'',
                      ?_, namesEq_trans (namesEq_setChild hc2 hnsub) (namesEq_vivifyL _ _)⟩
                    simp only [ensureFieldGo]
                    rw [hres]
                    simp only [Bool.true_and, if_true]
                    rw [if_neg hc1']
                    rw [if_neg hu', if_neg hcl', if_neg hbk', hfi2]
                    dsimp only
                    rw [hget2]
                    dsimp only
                    rw [hre]
                    simp only [Bool.false_eq_true, if_false]
                    simp only [IRField.composite_mk, IRField.name_mk]
                    rw [hsub2, hr2]
                · rw [hre] at h
                  simp only [if_true] at h
                  cases h
                  refine ⟨IRMap.mk (m.fields ++ [IRField.mk (lowerStr head0) none none []]) m.edges, ?_, namesEq_refl _⟩
                  have hfi2 : findIdxFold (lowerStr head0) (IRMap.mk (m.fields ++ [IRField.mk (lowerStr head0) none none []]) m.edges).fields = some m.fields.length := by
                    simp only [IRMap.fields_mk]
                    exact findIdxFold_append_new (lowerStr head0) m.fields _ (findIdxFold_none_all hfi)
                      (eqFold_refl _)
                  have hget2 : (IRMap.mk (m.fields ++ [IRField.mk (lowerStr head0) none none []]) m.edges).fields.get? m.fields.length
                      = some (IRField.mk (lowerStr head0) none none []) := by
                    simp only [IRMap.fields_mk]
                    exact List.get?_concat_length _ _
                  simp only [ensureFieldGo]
                  rw [hres]
                  simp only [Bool.true_and, if_true]
                  rw [if_neg hc1']
                  rw [if_neg hu', if_neg hcl', if_neg hbk', hfi2]
                  dsimp only
                  rw [hget2]
                  dsimp only
                  rw [hre]
                  simp only [if_true]
              · rw [hfi] at h
                dsimp only at h
                rcases hget : m.fields.get? j with _ | f
                · rw [hget] at h
                  dsimp only at h
                  cases h
                  refine ⟨m, ?_, namesEq_refl m⟩
                  simp only [ensureFieldGo]
                  rw [hres]
                  simp only [Bool.true_and, if_true]
                  rw [if_neg hc1']
                  rw [if_neg hu', if_neg hcl', if_neg hbk', hfi]
                  dsimp only
                  rw [hget]
                · rw [hget] at h
                  dsimp only at h
                  rcases hre : rest.isEmpty with _ | _
                  · rw [hre] at h
                    simp only [Bool.false_eq_true, if_false] at h
                    rcases hcomp : f.composite with _ | comp
                    · rw [hcomp] at h
                      dsimp only at h
                      rcases hr : ensureFieldGo rest
                          ((((vivifyL m j).fields.get? j).bind getCompMap).getD emptyMap)
                          (f.name :: ctx) none true with e | p1
                      · rw [hr] at h
                        cases h
                      · rcases p1 with ⟨sub', fa0⟩
                        rw [hr] at h
                        dsimp only at h
                        cases h
                        rcases ih _ _ _ _ hlitrest hr with ⟨sub'', hr2, hnsub⟩
                        have hget2 : (setChildMap (vivifyL m j) (.fld j) sub').fields.get? j = some (IRField.mk f.name f.primary (some (.cmap sub')) f.refs) := by
                          show (IRMap.mk (listModify (fun g => IRField.mk g.name g.primary (some (.cmap sub')) g.refs) j
                              (vivifyL m j).fields) (vivifyL m j).edges).fields.get? j = _
                          simp only [IRMap.fields_mk]
                          rw [listModify_get?_self _ j _ _ (vivify_get? m j f hget)]
                          rw [hcomp]
                          rfl
                        have hn : (setChildMap (vivifyL m j) (.fld j) sub').fields.map IRField.name = m.fields.map IRField.name := by
                          show (IRMap.mk (listModify (fun g => IRField.mk g.name g.primary (some (.cmap sub')) g.refs) j
                              (vivifyL m j).fields) (vivifyL m j).edges).fields.map IRField.name = _
                          simp only [IRMap.fields_mk]
                          rw [names_listModify (fun g => IRField.mk g.name g.primary (some (.cmap sub')) g.refs) (fun g => rfl) j (vivifyL m j).fields]
                          exact vivify_names m j
                        have hfi2 : findIdxFold (lowerStr head0) (setChildMap (vivifyL m j) (.fld j) sub').fields = some j :=
                          (findIdxFold_names (lowerStr head0) _ _ 0 hn).trans hfi
                        have hsub2 : (((vivifyL (setChildMap (vivifyL m j) (.fld j) sub') j).fields.get? j).bind getCompMap).getD emptyMap
                            = sub' := by
                          rw [vivify_get? _ j _ hget2]
                          rfl
                        have hc2 : childMap (vivifyL (setChildMap (vivifyL m j) (.fld j) sub') j) (.fld j) = some sub' := by
                          rw [vivify_childMap _ j _ hget2, hsub2]
                        refine ⟨setChildMap (vivifyL (setChildMap (vivifyL m j) (.fld j) sub') j) (.fld j) sub'', ?_,
                          namesEq_trans (namesEq_setChild hc2 hnsub) (namesEq_vivifyL _ j)⟩
                        simp only [ensureFieldGo]
                        rw [hres]
                        simp only [Bool.true_and, if_true]
                        rw [if_neg hc1']
                        rw [if_neg hu', if_neg hcl', if_neg hbk', hfi2]
                        dsimp only
                        rw [hget2]
                        dsimp only
                        rw [hre]
                        simp only [Bool.false_eq_true, if_false]
                        simp only [IRField.composite_mk, IRField.name_mk]
                        rw [hsub2, hr2]
                    · rcases comp with mm | ar
                      · rw [hcomp] at h
                        dsimp only at h
                        rcases hr : ensureFieldGo rest
                            ((((vivifyL m j).fields.get? j).bind getCompMap).getD emptyMap)
                            (f.name :: ctx) none true with e | p1
                        · rw [hr] at h
                          cases h
                        · rcases p1 with ⟨sub', fa0⟩
                          rw [hr] at h
                          dsimp only at h
                          cases h
                          rcases ih _ _ _ _ hlitrest hr with ⟨sub'', hr2, hnsub⟩
                          have hget2 : (setChildMap (vivifyL m j) (.fld j) sub').fields.get? j = some (IRField.mk f.name f.primary (some (.cmap sub')) f.refs) := by
                            show (IRMap.mk (listModify (fun g => IRField.mk g.name g.primary (some (.cmap sub')) g.refs) j
                                (vivifyL m j).fields) (vivifyL m j).edges).fields.get? j = _
                            simp only [IRMap.fields_mk]
                            rw [listModify_get?_self _ j _ _ (vivify_get? m j f hget)]
                            rw [hcomp]
                          have hn : (setChildMap (vivifyL m j) (.fld j) sub').fields.map IRField.name = m.fields.map IRField.name := by
                            show (IRMap.mk (listModify (fun g => IRField.mk g.name g.primary (some (.cmap sub')) g.refs) j
                                (vivifyL m j).fields) (vivifyL m j).edges).fields.map IRField.name = _
                            simp only [IRMap.fields_mk]
                            rw [names_listModify (fun g => IRField.mk g.name g.primary (some (.cmap sub')) g.refs) (fun g => rfl) j (vivifyL m j).fields]
                            exact vivify_names m j
                          have hfi2 : findIdxFold (lowerStr head0) (setChildMap (vivifyL m j) (.fld j) sub').fields = some j :=
                            (findIdxFold_names (lowerStr head0) _ _ 0 hn).trans hfi
                          have hsub2 : (((vivifyL (setChildMap (vivifyL m j) (.fld j) sub') j).fields.get? j).bind getCompMap).getD emptyMap
                              = sub' := by
                            rw [vivify_get? _ j _ hget2]
                            rfl
                          have hc2 : childMap (vivifyL (setChildMap (vivifyL m j) (.fld j) sub') j) (.fld j) = some sub' := by
                            rw [vivify_childMap _ j _ hget2, hsub2]
                          refine ⟨setChildMap (vivifyL (setChildMap (vivifyL m j) (.fld j) sub') j) (.fld j) sub'', ?_,
                            namesEq_trans (namesEq_setChild hc2 hnsub) (namesEq_vivifyL _ j)⟩
                          simp only [ensureFieldGo]
                          rw [hres]
                          simp only [Bool.true_and, if_true]
                          rw [if_neg hc1']
                          rw [if_neg hu', if_neg hcl', if_neg hbk', hfi2]
                          dsimp only
                          rw [hget2]
                          dsimp only
                          rw [hre]
                          simp only [Bool.false_eq_true, if_false]
                          simp only [IRField.composite_mk, IRField.name_mk]
                          rw [hsub2, hr2]
                      · rw [hcomp] at h
                        cases h
                  · rw [hre] at h
                    simp only [if_true] at h
                    cases h
                    refine ⟨m, ?_, namesEq_refl m⟩
                    simp only [ensureFieldGo]
                    rw [hres]
                    simp only [Bool.true_and, if_true]
                    rw [if_neg hc1']
                    rw [if_neg hu', if_neg hcl', if_neg hbk', hfi]
                    dsimp only
                    rw [hget]
                    dsimp only
                    rw [hre]
                    simp only [if_true]
            · rw [if_pos hbk] at h
              cases h
          · rw [if_pos hcl] at h
            cases h
        · rw [if_pos (of_decide_eq_true hu)] at h
          cases h
      · rw [if_pos hc1] at h
        cases h

end D2Ir
